import Mathlib

/-!
# py-to-pickle: a shallow embedding of `py-to-pickle.cpp`

The transcoder reads a textual literal (integers, floats, quoted strings, lists,
sets, mappings) and writes a pickle stream.  Bytes are natural numbers; the `int`
returned by `read_next_char` is an integer, `-1` standing for `EOF`.

The recursion of `parse` through `parse_list` and `parse_dict_or_set` is bounded by
a recursion budget; `Res.fuel` reports an exhausted budget and `Res.exn` a C++
exception thrown by `std::stol` / `std::stod`.
-/

namespace PyToPickle

/-! ## Pickle opcodes (`enum opcode`) and the protocol number -/

abbrev protocol : Nat := 3
abbrev MARK : Nat := 0x28
abbrev STOP : Nat := 0x2E
abbrev BINFLOAT : Nat := 0x47
abbrev BININT : Nat := 0x4A
abbrev BININT1 : Nat := 0x4B
abbrev BININT2 : Nat := 0x4D
abbrev BINUNICODE : Nat := 0x58
abbrev EMPTY_DICT : Nat := 0x7D
abbrev APPENDS : Nat := 0x65
abbrev EMPTY_LIST : Nat := 0x5D
abbrev SETITEMS : Nat := 0x75
abbrev PROTO : Nat := 0x80
abbrev SHORT_BINUNICODE : Nat := 0x8C
abbrev BINUNICODE8 : Nat := 0x8D
abbrev EMPTY_SET : Nat := 0x8F
abbrev ADDITEMS : Nat := 0x90

/-- The sentinel `EOF` of `<stdio.h>`. -/
abbrev EOF : Int := -1

/-- Source `_write_size64` with `sizeof(size_t) = 8`: byte `i` of the result is
`(value >> (8 * i)) & 0xff`, for `i = 0 .. 7`. -/
def _write_size64 (value : Nat) : List Nat :=
  (List.range 8).map fun i => value / 2 ^ (8 * i) % 256

/-! ## Readers -/

/-- The `(unsigned char)` conversion of a stored byte, as the `int` that
`read_next_char` returns. -/
def uchar (b : Nat) : Int := ((b % 256 : Nat) : Int)

/-- Source `MemReader`: the bytes, their number, and the read position. -/
structure MemReader where
  data : List Nat
  size : Nat
  p : Nat
deriving DecidableEq, Repr

/-- Source `MemReader::read_next_char`. -/
def MemReader.read_next_char (r : MemReader) : Int × MemReader :=
  if r.p ≥ r.size then (EOF, r)
  else (uchar (r.data.getD r.p 0), { r with p := r.p + 1 })

/-- The `Reader` interface as the parser sees it: the list of unread bytes.
`read_next_char` yields the next byte as an `unsigned char`, or `EOF`. -/
def read_next_char : List Nat → Int × List Nat
  | [] => (EOF, [])
  | b :: rest => (uchar b, rest)

/-! ## Writers -/

/-- Bytes `bytes` stored at offset `pos` of `buf`: the bytes there are overwritten,
the buffer grows when the store reaches past its end. -/
def store (buf : List Nat) (pos : Nat) (bytes : List Nat) : List Nat :=
  buf.take pos ++ List.replicate (pos - buf.length) 0 ++ bytes ++ buf.drop (pos + bytes.length)

/-- Source `FileWriter`: the file's bytes and `out_pos`. -/
structure FileWriter where
  content : List Nat
  out_pos : Nat
deriving DecidableEq, Repr

/-- Source `MemWriter`: the buffer, its capacity, the position and the overflow flag. -/
structure MemWriter where
  data : List Nat
  size : Nat
  p : Nat
  got_error : Bool
deriving DecidableEq, Repr

/-- Source `MemWriter::_overflow_error`. -/
def MemWriter._overflow_error (w : MemWriter) : MemWriter :=
  { w with got_error := true }

/-- Source `MemWriter::write_char`. -/
def MemWriter.write_char (w : MemWriter) (c : Nat) : MemWriter :=
  if w.p ≥ w.size then w._overflow_error
  else { w with data := store w.data w.p [c], p := w.p + 1 }

/-- Source `MemWriter::write_data`. -/
def MemWriter.write_data (w : MemWriter) (data_ : List Nat) : MemWriter :=
  if w.p + data_.length > w.size then w._overflow_error
  else { w with data := store w.data w.p data_, p := w.p + data_.length }

/-- Source `FileWriter::write_char`. -/
def FileWriter.write_char (w : FileWriter) (c : Nat) : FileWriter :=
  { content := store w.content w.out_pos [c], out_pos := w.out_pos + 1 }

/-- Source `FileWriter::write_data`. -/
def FileWriter.write_data (w : FileWriter) (data : List Nat) : FileWriter :=
  { content := store w.content w.out_pos data, out_pos := w.out_pos + data.length }

/-- The `Writer` interface with its two implementations. -/
inductive Writer where
  | file (w : FileWriter)
  | mem (w : MemWriter)
deriving DecidableEq, Repr

/-- Source `Writer::pos`. -/
def Writer.pos : Writer → Nat
  | .file w => w.out_pos
  | .mem w => w.p

/-- Source `Writer::seek`. -/
def Writer.seek : Writer → Nat → Writer
  | .file w, pos => .file { w with out_pos := pos }
  | .mem w, pos => .mem { w with p := pos }

/-- Source `Writer::write_char`. -/
def Writer.write_char : Writer → Nat → Writer
  | .file w, c => .file (w.write_char c)
  | .mem w, c => .mem (w.write_char c)

/-- Source `Writer::write_data`. -/
def Writer.write_data : Writer → List Nat → Writer
  | .file w, d => .file (w.write_data d)
  | .mem w, d => .mem (w.write_data d)

/-- The bytes written so far: the file's bytes, or the buffer up to the position. -/
def Writer.output : Writer → List Nat
  | .file w => w.content
  | .mem w => w.data.take w.p

/-- The overflow flag of a bounded writer (a file writer has none). -/
def Writer.overflow : Writer → Bool
  | .file _ => false
  | .mem w => w.got_error

/-! ## Results -/

/-- Outcome of a routine: a value, a C++ exception escaping the parser, or an
exhausted recursion budget. -/
inductive Res (α : Type) where
  | ok (a : α)
  | exn
  | fuel
deriving DecidableEq, Repr

/-! ## The parser -/

/-- Source `class Parser`: reader, writer and `got_error`. -/
structure Parser where
  reader : List Nat
  writer : Writer
  got_error : Bool
deriving DecidableEq, Repr

/-- Source `ParseRes` together with the parser state: `(state, next char, parsed one item)`. -/
abbrev ParseOut := Parser × Int × Bool

/-- Source `Parser::parse_error`: the diagnostic is not modelled. -/
def Parser.parse_error (P : Parser) : Parser :=
  { P with got_error := true }

/-- Source `Parser::write_char`. -/
def Parser.write_char (P : Parser) (c : Nat) : Parser :=
  { P with writer := P.writer.write_char c }

/-- Source `Parser::write_data`. -/
def Parser.write_data (P : Parser) (d : List Nat) : Parser :=
  { P with writer := P.writer.write_data d }

/-- Source `Parser::start`. -/
def Parser.start (P : Parser) : Parser :=
  (P.write_char PROTO).write_char protocol

/-- Source `Parser::end`. -/
def Parser.end_ (P : Parser) : Parser :=
  P.write_char STOP

/-- The C library `isspace` in the "C" locale: space, `\t`, `\n`, `\v`, `\f`, `\r`. -/
def isspace (c : Int) : Bool :=
  c = 32 || (9 ≤ c && c ≤ 13)

/-- The character class of numeric literals: `0-9`, `+`, `-`, `.`. -/
def isnumch (c : Int) : Bool :=
  (48 ≤ c && c ≤ 57) || c = 43 || c = 45 || c = 46

/-- The `(char)` conversion of an `int` holding a byte. -/
def toByte (c : Int) : Nat := (c % 256).toNat

/-! ### Strings -/

/-- Source `escape_mode` of `parse_str`. -/
inductive EscapeMode where
  | Direct
  | EscapeInit
  | EscapeHex
deriving DecidableEq, Repr

/-- The scanning loop of `parse_str`: `some buf` when the closing quote is met,
`none` on a parse error; with the unread input. -/
def parse_str_scan (quote : Int) :
    List Nat → EscapeMode → Int → Int → List Nat → Option (List Nat) × List Nat
  | [], _, _, _, _ => (none, [])
  | b :: rest, mode, escape_hex_pos, escape_hex, buf =>
    let c : Int := uchar b
    match mode with
    | .Direct =>
      if c = quote then (some buf, rest)
      else if c = 92 then parse_str_scan quote rest .EscapeInit escape_hex_pos escape_hex buf
      else parse_str_scan quote rest .Direct escape_hex_pos escape_hex (buf ++ [toByte c])
    | .EscapeInit =>
      if c = 120 then parse_str_scan quote rest .EscapeHex 0 0 buf
      else if c = 114 then parse_str_scan quote rest .Direct escape_hex_pos escape_hex (buf ++ [13])
      else if c = 116 then parse_str_scan quote rest .Direct escape_hex_pos escape_hex (buf ++ [9])
      else if c = 110 then parse_str_scan quote rest .Direct escape_hex_pos escape_hex (buf ++ [10])
      else if c = 92 ∨ c = 34 ∨ c = 39 ∨ c = 10 then
        parse_str_scan quote rest .Direct escape_hex_pos escape_hex (buf ++ [toByte c])
      else (none, rest)
    | .EscapeHex =>
      if 48 ≤ c ∧ c ≤ 57 then
        let escape_hex := escape_hex * 16 + (c - 48)
        let escape_hex_pos := escape_hex_pos + 1
        if escape_hex_pos = 2 then
          parse_str_scan quote rest .Direct escape_hex_pos escape_hex (buf ++ [toByte escape_hex])
        else parse_str_scan quote rest .EscapeHex escape_hex_pos escape_hex buf
      else if 97 ≤ c ∧ c ≤ 102 then
        let escape_hex := escape_hex * 16 + (c - 97 + 10)
        let escape_hex_pos := escape_hex_pos + 1
        if escape_hex_pos = 2 then
          parse_str_scan quote rest .Direct escape_hex_pos escape_hex (buf ++ [toByte escape_hex])
        else parse_str_scan quote rest .EscapeHex escape_hex_pos escape_hex buf
      else (none, rest)

/-- The header that `parse_str` writes before a string of `size` bytes. -/
def str_header (size : Nat) : List Nat :=
  if size ≤ 0xff then [SHORT_BINUNICODE, size % 256]
  else if size ≤ 0xffffffff then
    [BINUNICODE, size % 256, size / 2 ^ 8 % 256, size / 2 ^ 16 % 256, size / 2 ^ 24 % 256]
  else BINUNICODE8 :: _write_size64 size

/-- Source `Parser::parse_str`. -/
def Parser.parse_str (P : Parser) (quote : Int) : Parser :=
  match parse_str_scan quote P.reader .Direct 0 0 [] with
  | (none, rest) => { P with reader := rest }.parse_error
  | (some buf, rest) =>
    ({ P with reader := rest }.write_data (str_header buf.length)).write_data buf

/-! ### Numbers -/

/-- The reading loop of `parse_num`: `(c, is_float, buf, unread input)`. -/
def parse_num_scan : List Nat → Bool → List Nat → Int × Bool × List Nat × List Nat
  | [], is_float, buf => (EOF, is_float, buf, [])
  | b :: rest, is_float, buf =>
    let c : Int := uchar b
    if isnumch c then parse_num_scan rest (is_float || c = 46) (buf ++ [toByte c])
    else (c, is_float, buf, rest)

/-- Value of a run of decimal digits, most significant first. -/
def digits_value : List Nat → Nat → Nat
  | [], acc => acc
  | d :: ds, acc => digits_value ds (acc * 10 + (d - 48))

/-- The C++ library routine `std::stol` (base 10) on a buffer of bytes from
`0-9 + - .`: an optional sign, then the longest run of digits; `none` when
`std::invalid_argument` (no digit) or `std::out_of_range` (not a `long`) is thrown. -/
def stol (buf : List Nat) : Option Int :=
  let (neg, body) :=
    match buf with
    | 45 :: t => (true, t)
    | 43 :: t => (false, t)
    | _ => (false, buf)
  let ds := body.takeWhile fun d => 48 ≤ d ∧ d ≤ 57
  if ds = [] then none
  else
    let v : Int := if neg then -(digits_value ds 0 : Int) else (digits_value ds 0 : Int)
    if -(2 : Int) ^ 63 ≤ v ∧ v ≤ 2 ^ 63 - 1 then some v else none

/-- The floating-point collaborators `std::stod` and `_PyFloat_Pack8` are library
code outside this source: `stod_pack8 buf` is the eight bytes that `_PyFloat_Pack8`
stores for `std::stod(buf)`, or `none` when `std::stod` throws. -/
structure FloatLib where
  stod_pack8 : List Nat → Option (List Nat)
  len8 : ∀ buf r, stod_pack8 buf = some r → r.length = 8

/-- The integer branch of `parse_num`: the bytes `pdata[0 .. len)` for `val`. -/
def int_pdata (val : Int) : List Nat :=
  let p1 := toByte val
  let p2 := toByte (val / 2 ^ 8)
  let p3 := toByte (val / 2 ^ 16)
  let p4 := toByte (val / 2 ^ 24)
  if p4 ≠ 0 ∨ p3 ≠ 0 then [BININT, p1, p2, p3, p4]
  else if p2 ≠ 0 then [BININT2, p1, p2]
  else [BININT1, p1]

/-- Source `Parser::parse_num`. -/
def Parser.parse_num (fl : FloatLib) (P : Parser) (first : Int) : Res (Parser × Int) :=
  match parse_num_scan P.reader false [toByte first] with
  | (c, is_float, buf, rest) =>
    let P := { P with reader := rest }
    if is_float then
      match fl.stod_pack8 buf with
      | none => .exn
      | some r => .ok (P.write_data (BINFLOAT :: r), c)
    else
      match stol buf with
      | none => .exn
      | some val => .ok (P.write_data (int_pdata val), c)

/-! ### Containers and `parse` -/

/-- Source `Parser::parse_list`, the loop: `parse` is the routine `Parser::parse`. -/
def parse_list_loop (parse : Parser → Res ParseOut) : Nat → Parser → Res Parser
  | 0, _ => .fuel
  | fuel + 1, P =>
    match parse P with
    | .ok (P, c, _) =>
      if c = 44 then parse_list_loop parse fuel P
      else if c = 93 then .ok (P.write_char APPENDS)
      else .ok P.parse_error
    | .exn => .exn
    | .fuel => .fuel

/-- Source `Parser::parse_list`. -/
def Parser.parse_list (parse : Parser → Res ParseOut) (fuel : Nat) (P : Parser) : Res Parser :=
  parse_list_loop parse fuel ((P.write_char EMPTY_LIST).write_char MARK)

/-- Source `obj_type` of `parse_dict_or_set`. -/
inductive ObjType where
  | Dict
  | Set
deriving DecidableEq, Repr

/-- Source `cur` of `parse_dict_or_set`. -/
inductive Cur where
  | Key
  | Value
deriving DecidableEq, Repr

/-- The local variables of `parse_dict_or_set` that the loop updates. -/
structure DictState where
  count : Nat
  obj_type : ObjType
  cur : Cur
deriving DecidableEq, Repr

/-- Source lambda `make_set` of `parse_dict_or_set`. -/
def make_set (start_out_pos : Nat) (P : Parser) (d : DictState) : Parser × DictState :=
  if d.count ≠ 1 then (P.parse_error, d)
  else
    let cur_pos := P.writer.pos
    let P := { P with writer := P.writer.seek start_out_pos }
    let P := P.write_char EMPTY_SET
    let P := { P with writer := P.writer.seek cur_pos }
    (P, { d with cur := .Value, obj_type := .Set })

/-- Outcome of one iteration of the loop of `parse_dict_or_set`: the routine is
left (by `return`, or by `break` and the code after the loop), or the loop goes on. -/
inductive DictStep where
  | ret (P : Parser)
  | next (P : Parser) (d : DictState)
deriving DecidableEq, Repr

/-- Source `Parser::parse_dict_or_set`, the code after the loop. -/
def dict_finish (P : Parser) (d : DictState) : Parser :=
  if d.obj_type = .Dict ∧ d.count % 2 ≠ 0 then P.parse_error
  else P.write_char (if d.obj_type = .Dict then SETITEMS else ADDITEMS)

/-- Source `Parser::parse_dict_or_set`, the branch `c == ','` after `make_set`. -/
def dict_comma (P : Parser) (d : DictState) : DictStep :=
  if d.cur = .Key then .ret P.parse_error
  else .next P (if d.obj_type = .Dict then { d with cur := .Key } else d)

/-- Source `Parser::parse_dict_or_set`, the body of the loop after `parse()` has
returned `(c, second)`. -/
def dict_step (start_out_pos : Nat) (P : Parser) (d : DictState) (c : Int) (second : Bool) :
    DictStep :=
  let d := if second then { d with count := d.count + 1 } else d
  if c = 44 then
    if d.count = 1 then
      let r := make_set start_out_pos P d
      if r.1.got_error then .ret r.1 else dict_comma r.1 r.2
    else dict_comma P d
  else if c = 58 then
    if d.cur ≠ .Key then .ret P.parse_error
    else if d.obj_type = .Set then .ret P.parse_error
    else .next P { d with cur := .Value }
  else if c = 125 then
    if d.count = 1 then
      let r := make_set start_out_pos P d
      if r.1.got_error then .ret r.1 else .ret (dict_finish r.1 r.2)
    else .ret (dict_finish P d)
  else .ret P.parse_error

/-- Source `Parser::parse_dict_or_set`, the loop. -/
def parse_dict_loop (parse : Parser → Res ParseOut) (start_out_pos : Nat) :
    Nat → Parser → DictState → Res Parser
  | 0, _, _ => .fuel
  | fuel + 1, P, d =>
    match parse P with
    | .ok (P, c, second) =>
      match dict_step start_out_pos P d c second with
      | .ret P => .ok P
      | .next P d => parse_dict_loop parse start_out_pos fuel P d
    | .exn => .exn
    | .fuel => .fuel

/-- Source `Parser::parse_dict_or_set`. -/
def Parser.parse_dict_or_set (parse : Parser → Res ParseOut) (fuel : Nat) (P : Parser) :
    Res Parser :=
  let start_out_pos := P.writer.pos
  parse_dict_loop parse start_out_pos fuel ((P.write_char EMPTY_DICT).write_char MARK)
    { count := 0, obj_type := .Dict, cur := .Key }

/-- Source `Parser::parse`, the loop with its local `had_one_item`. -/
def parse_loop (fl : FloatLib) : Nat → Parser → Bool → Res ParseOut
  | 0, _, _ => .fuel
  | fuel + 1, P, had_one_item =>
    match P.reader with
    | [] => .ok (P, EOF, had_one_item)
    | b :: rest =>
      let c : Int := uchar b
      let P := { P with reader := rest }
      if isspace c then parse_loop fl fuel P had_one_item
      else if had_one_item then .ok (P, c, had_one_item)
      else if c = 39 ∨ c = 34 then parse_loop fl fuel (P.parse_str c) true
      else if c = 91 then
        match P.parse_list (fun Q => parse_loop fl fuel Q false) fuel with
        | .ok P => parse_loop fl fuel P true
        | .exn => .exn
        | .fuel => .fuel
      else if c = 123 then
        match P.parse_dict_or_set (fun Q => parse_loop fl fuel Q false) fuel with
        | .ok P => parse_loop fl fuel P true
        | .exn => .exn
        | .fuel => .fuel
      else if isnumch c then
        match P.parse_num fl c with
        | .ok (P, c) =>
          if c < 0 ∨ !isspace c then .ok (P, c, true)
          else parse_loop fl fuel P true
        | .exn => .exn
        | .fuel => .fuel
      else .ok (P, c, had_one_item)

/-- Source `Parser::parse`. -/
def Parser.parse (fl : FloatLib) (fuel : Nat) (P : Parser) : Res ParseOut :=
  parse_loop fl fuel P false

/-- Recursion budget that `full_pass` gives `parse`: every loop iteration and every
nested call spends one unit and reads at least one byte. -/
def budget (P : Parser) : Nat := 2 * P.reader.length + 2

/-- Source `Parser::full_pass`. -/
def Parser.full_pass (fl : FloatLib) (P : Parser) : Res Parser :=
  let P := P.start
  match P.parse fl (budget P) with
  | .ok (P, _, second) => if !second then .ok P.parse_error else .ok P.end_
  | .exn => .exn
  | .fuel => .fuel

/-! ## Definitions used to state the properties -/

/-- The bytes of an ASCII text. -/
def bytes_of (s : String) : List Nat := s.toList.map Char.toNat

/-- A file writer on a new file. -/
def Writer.new_file : Writer := .file { content := [], out_pos := 0 }

/-- A memory writer on a buffer `data` of `size` bytes. -/
def Writer.new_mem (data : List Nat) (size : Nat) : Writer :=
  .mem { data := data, size := size, p := 0, got_error := false }

/-- A parser on the input `inp` and the writer `w` (source constructor `Parser`). -/
def Parser.new (inp : List Nat) (w : Writer) : Parser :=
  { reader := inp, writer := w, got_error := false }

/-- A writer in append position with room for `n` more bytes. -/
def Writer.Room : Writer → Nat → Prop
  | .file f, _ => f.out_pos = f.content.length
  | .mem m, n => m.p + n ≤ m.size ∧ m.size = m.data.length

/-- Canonical decimal digits of a natural number (ASCII), most significant first;
the first argument bounds the number of digits. -/
def nat_digits : Nat → Nat → List Nat
  | 0, _ => []
  | fuel + 1, n => if n < 10 then [48 + n] else nat_digits fuel (n / 10) ++ [48 + n % 10]

/-- Canonical decimal text of an integer: an optional `-`, then the digits. -/
def dec (n : Int) : List Nat :=
  if n < 0 then 45 :: nat_digits (n.natAbs + 1) n.natAbs else nat_digits (n.natAbs + 1) n.natAbs

/-- Spec 4.3, integer framing: one byte for `0..255`, two little-endian bytes for
`256..65535`, otherwise the four little-endian bytes of `n mod 2^32`. -/
def int_frame (n : Int) : List Nat :=
  if 0 ≤ n ∧ n ≤ 255 then [0x4B, n.toNat]
  else if 256 ≤ n ∧ n ≤ 65535 then [0x4D, (n % 256).toNat, (n / 256).toNat]
  else
    let u := (n % 2 ^ 32).toNat
    [0x4A, u % 256, u / 256 % 256, u / 65536 % 256, u / 16777216 % 256]

/-- A float library whose `std::stod` rejects every text; the examples on integers,
strings and containers do not depend on this choice. -/
def FloatLib.throwing : FloatLib := ⟨fun _ => none, by simp⟩

/-- The `k` little-endian bytes of `L`. -/
def le_bytes (k : Nat) (L : Nat) : List Nat := (List.range k).map fun i => L / 256 ^ i % 256

/-- The number that little-endian bytes stand for. -/
def le_value : List Nat → Nat
  | [] => 0
  | b :: bs => b + 256 * le_value bs

/-- Spec 4.3, string header: `8C` and one length byte up to 255, `58` and four
little-endian bytes up to `2^32 - 1`, `8D` and eight little-endian bytes beyond. -/
def str_frame_header (L : Nat) : List Nat :=
  if L ≤ 255 then [0x8C, L]
  else if L ≤ 2 ^ 32 - 1 then 0x58 :: le_bytes 4 L
  else 0x8D :: le_bytes 8 L

/-- A `parse` routine that ends within its budget on inputs of at most `n` bytes
and never gives bytes back to the reader. -/
def ParseTotal (parse : Parser → Res ParseOut) (n : Nat) : Prop :=
  ∀ Q : Parser, Q.reader.length ≤ n →
    parse Q ≠ .fuel ∧
    ∀ Q' c b, parse Q = .ok (Q', c, b) →
      Q'.reader.length ≤ Q.reader.length ∧ (0 ≤ c → Q'.reader.length < Q.reader.length)

/-- The parser state that an iteration of the dict loop leaves. -/
def DictStep.parser : DictStep → Parser
  | .ret P => P
  | .next P _ => P

/-- A byte on which `parse` starts a value: a quote, `[`, `{`, or a byte of the
numeric class. -/
def starts_value (c : Int) : Bool :=
  c = 39 || c = 34 || c = 91 || c = 123 || isnumch c

/-- The input holds no root value: it is empty, or only whitespace, or its first
byte that is not whitespace starts no value. -/
def no_root : List Nat → Bool
  | [] => true
  | b :: rest => if isspace (uchar b) then no_root rest else !starts_value (uchar b)

/-- A lower-case hexadecimal digit, `0-9` or `a-f`. -/
def is_hex (c : Int) : Bool := (48 ≤ c && c ≤ 57) || (97 ≤ c && c ≤ 102)

/-- A byte that may follow a backslash, other than `x`: `r t n \ " '` or a newline. -/
def is_simple_escape (c : Int) : Bool :=
  c = 114 || c = 116 || c = 110 || c = 92 || c = 34 || c = 39 || c = 10

/-- Spec 4.4 and 7, string decode errors, on the bytes after the opening quote: the
input ends before an unescaped closing quote, or a backslash is followed by a byte
that is no escape, or one of the two bytes after `\x` is no lower-case hex digit. -/
def lit_error (quote : Int) : List Nat → Bool
  | [] => true
  | b :: rest =>
    if uchar b = quote then false
    else if uchar b = 92 then
      match rest with
      | [] => true
      | e :: rest1 =>
        if uchar e = 120 then
          match rest1 with
          | h1 :: h2 :: rest2 =>
            if is_hex (uchar h1) && is_hex (uchar h2) then lit_error quote rest2 else true
          | _ => true
        else if is_simple_escape (uchar e) then lit_error quote rest1
        else true
    else lit_error quote rest

/-- Value of a lower-case hexadecimal digit. -/
def hex_value (c : Int) : Int := if c ≤ 57 then c - 48 else c - 97 + 10

/-- The lower-case hexadecimal digit (ASCII) of `d < 16`. -/
def hex_digit (d : Nat) : Nat := if d < 10 then 48 + d else 87 + d

/-- The escaped text of one byte inside a literal quoted with `q`: `\r`, `\t`, `\n`
for CR, HT, LF; a backslash before a backslash or `q`; `\xHH` for any other byte
below `0x20` or above `0x7E`; the byte itself otherwise. -/
def esc_byte (q b : Nat) : List Nat :=
  if b = 13 then [92, 114]
  else if b = 9 then [92, 116]
  else if b = 10 then [92, 110]
  else if b = 92 ∨ b = q then [92, b]
  else if b < 0x20 ∨ b > 0x7E then [92, 120, hex_digit (b / 16), hex_digit (b % 16)]
  else [b]

/-- The escaped text of a byte sequence. -/
def esc (q : Nat) : List Nat → List Nat
  | [] => []
  | b :: s => esc_byte q b ++ esc q s

/-- The literal `lit(s, q)`: the quote, the escaped bytes, the quote. -/
def lit (q : Nat) (s : List Nat) : List Nat := q :: (esc q s ++ [q])

/-- The text `enc` decodes to the single byte `b` in the `Direct` state of `parse_str`. -/
def Encodes (q : Int) (enc : List Nat) (b : Nat) : Prop :=
  ∀ (tail : List Nat) (hp hx : Int) (buf : List Nat), ∃ hp' hx',
    parse_str_scan q (enc ++ tail) .Direct hp hx buf
      = parse_str_scan q tail .Direct hp' hx' (buf ++ [b])

/-- Values of the textual grammar: integers, byte strings, lists, sets, mappings. -/
inductive Value where
  | int (n : Int)
  | str (s : List Nat)
  | list (xs : List Value)
  | set (xs : List Value)
  | dict (kvs : List (Value × Value))

mutual

/-- The serialization `ser(V)`: integers and strings framed as in spec 4.3, a list
as `5D 28 children 65`, a set as `8F 28 children 90`, a mapping as
`7D 28 k1 v1 ... 75`. -/
def ser : Value → List Nat
  | .int n => int_frame n
  | .str s => str_frame_header s.length ++ s
  | .list xs => [0x5D, 0x28] ++ ser_list xs ++ [0x65]
  | .set xs => [0x8F, 0x28] ++ ser_list xs ++ [0x90]
  | .dict kvs => [0x7D, 0x28] ++ ser_pairs kvs ++ [0x75]

/-- The serializations of the children, one after the other. -/
def ser_list : List Value → List Nat
  | [] => []
  | v :: vs => ser v ++ ser_list vs

/-- The serializations of keys and values, alternating. -/
def ser_pairs : List (Value × Value) → List Nat
  | [] => []
  | (k, v) :: kvs => ser k ++ ser v ++ ser_pairs kvs
end

/-- The text of a string body with backslash and double quote backslash-escaped. -/
def esc_min : List Nat → List Nat
  | [] => []
  | b :: s => (if b = 92 ∨ b = 34 then [92, b] else [b]) ++ esc_min s

mutual

/-- The canonical text of a value: decimal integers, double-quoted strings,
`[a, b]`, `{a, b}`, `{k: v, k2: v2}`. -/
def text : Value → List Nat
  | .int n => dec n
  | .str s => 34 :: (esc_min s ++ [34])
  | .list xs => 91 :: (text_items xs ++ [93])
  | .set xs => 123 :: (text_items xs ++ [125])
  | .dict kvs => 123 :: (text_pairs kvs ++ [125])

/-- The items of a list or set, separated by `, `. -/
def text_items : List Value → List Nat
  | [] => []
  | v :: vs => text v ++ text_more vs

/-- The items after the first, each preceded by `, `. -/
def text_more : List Value → List Nat
  | [] => []
  | v :: vs => [44, 32] ++ text v ++ text_more vs

/-- The pairs of a mapping, written `k: v` and separated by `, `. -/
def text_pairs : List (Value × Value) → List Nat
  | [] => []
  | (k, v) :: kvs => text k ++ [58, 32] ++ text v ++ text_more_pairs kvs

/-- The pairs after the first, each preceded by `, `. -/
def text_more_pairs : List (Value × Value) → List Nat
  | [] => []
  | (k, v) :: kvs => [44, 32] ++ text k ++ [58, 32] ++ text v ++ text_more_pairs kvs
end

mutual

/-- Well-formed values: integers of the signed 32-bit range, strings of bytes,
sets that are not empty. -/
def Value.wf : Value → Bool
  | .int n => decide (-2 ^ 31 ≤ n ∧ n < 2 ^ 31)
  | .str s => s.all fun b => decide (b < 256)
  | .list xs => wf_list xs
  | .set xs => !xs.isEmpty && wf_list xs
  | .dict kvs => wf_pairs kvs

/-- Every value of the list is well-formed. -/
def wf_list : List Value → Bool
  | [] => true
  | v :: vs => v.wf && wf_list vs

/-- Every key and value is well-formed. -/
def wf_pairs : List (Value × Value) → Bool
  | [] => true
  | (k, v) :: kvs => k.wf && v.wf && wf_pairs kvs
end

/-- What `parse` does once a value is parsed: whitespace is skipped and the next
byte is read and returned (`EOF` at the end of the input). -/
def after_value : List Nat → Int × List Nat
  | [] => (EOF, [])
  | b :: rest => if isspace (uchar b) then after_value rest else (uchar b, rest)

/-- The value `v` is parsed and written: from the text of `v` followed by `rest`,
with room in the writer, `parse` writes `ser v`, skips whitespace and returns the
next byte with `parsed? = true`. -/
def Good (fl : FloatLib) (v : Value) : Prop :=
  ∀ (W : Writer) (n : Nat) (rest : List Nat), W.Room n → (ser v).length ≤ n →
    isnumch (read_next_char rest).1 = false →
    ∃ f0, ∀ f, f0 ≤ f → parse_loop fl f ⟨text v ++ rest, W, false⟩ false
      = .ok (⟨(after_value rest).2, W.write_data (ser v), false⟩, (after_value rest).1, true)

/-- What `full_pass` leaves on the input `inp` with the writer `W`: the bytes written
and the parser's error flag; `none` when a C++ exception ends the run. -/
def run_output (fl : FloatLib) (inp : List Nat) (W : Writer) : Option (List Nat × Bool) :=
  match (Parser.new inp W).full_pass fl with
  | .ok P => some (P.writer.output, P.got_error)
  | _ => none

/-- The bytes that a `MemReader` has not read yet. -/
def MemReader.unread (r : MemReader) : List Nat := r.data.drop r.p

/-- A property `I` of the parser state that every action of the parser keeps: reading,
writing, raising the error flag, and the backpatch of `make_set` to an offset with `J`,
where `J` holds of the writer position of every state with `I`. -/
structure Preserved (I : Parser → Prop) (J : Nat → Prop) : Prop where
  reader : ∀ (P : Parser) (r : List Nat), I P → I { P with reader := r }
  write_char : ∀ (P : Parser) (c : Nat), I P → I (P.write_char c)
  write_data : ∀ (P : Parser) (d : List Nat), I P → I (P.write_data d)
  parse_error : ∀ P : Parser, I P → I P.parse_error
  pos : ∀ P : Parser, I P → J P.writer.pos
  backpatch : ∀ (P : Parser) (s c : Nat), I P → J s →
    I { P with writer := ((P.writer.seek s).write_char c).seek P.writer.pos }

/-- A bounded writer of capacity `S` whose overflow flag is set and whose position is
within the capacity. -/
def Overflowed (S : Nat) : Writer → Prop
  | .mem m => m.size = S ∧ m.p ≤ S ∧ m.got_error = true
  | .file _ => False

/-- A continuation byte of UTF-8: `10xxxxxx`. -/
def utf8_cont (b : Nat) : Bool := 0x80 ≤ b && b ≤ 0xBF

/-- Well-formed UTF-8 (RFC 3629): one-byte to four-byte sequences, no overlong
form, no surrogate, nothing above U+10FFFF. -/
def utf8_valid : List Nat → Bool
  | [] => true
  | b0 :: rest =>
    if b0 < 0x80 then utf8_valid rest
    else if 0xC2 ≤ b0 ∧ b0 ≤ 0xDF then
      match rest with
      | b1 :: r => utf8_cont b1 && utf8_valid r
      | _ => false
    else if 0xE0 ≤ b0 ∧ b0 ≤ 0xEF then
      match rest with
      | b1 :: b2 :: r =>
        utf8_cont b1 && utf8_cont b2 && (b0 ≠ 0xE0 || 0xA0 ≤ b1) && (b0 ≠ 0xED || b1 ≤ 0x9F)
          && utf8_valid r
      | _ => false
    else if 0xF0 ≤ b0 ∧ b0 ≤ 0xF4 then
      match rest with
      | b1 :: b2 :: b3 :: r =>
        utf8_cont b1 && utf8_cont b2 && utf8_cont b3 && (b0 ≠ 0xF0 || 0x90 ≤ b1)
          && (b0 ≠ 0xF4 || b1 ≤ 0x8F) && utf8_valid r
      | _ => false
    else false

/-- Source `py_to_pickle`, from the allocation of the output buffer of `in_len + 1000`
bytes to the call of `full_pass`; the fresh buffer is taken to hold zeros. -/
def py_to_pickle (fl : FloatLib) (in_raw : List Nat) : Res Parser :=
  let out_len := in_raw.length + 1000
  (Parser.new in_raw (Writer.new_mem (List.replicate out_len 0) out_len)).full_pass fl

/-- The text `[-1,-1, ... ,-1]` of a list of `k + 1` integers `-1`. -/
def minus_ones (k : Nat) : List Nat :=
  91 :: ((List.replicate k [45, 49, 44]).flatten ++ [45, 49, 93])

/-- What a run has left: the unread input, the parser's error flag, the writer's
overflow flag and the writer's position. -/
def Res.summary : Res Parser → Option (List Nat × Bool × Bool × Nat)
  | .ok P => some (P.reader, P.got_error, P.writer.overflow, P.writer.pos)
  | _ => none

/-- The parser state `P` with the bytes `Y` appended to the unread input. -/
def Parser.more (P : Parser) (Y : List Nat) : Parser :=
  { P with reader := P.reader ++ Y }

/-- The outcome of an iteration of the dict loop, with more unread input. -/
def DictStep.more : DictStep → List Nat → DictStep
  | .ret P, Y => .ret (P.more Y)
  | .next P d, Y => .next (P.more Y) d

/-- Source lambda `make_set` of `parse_dict_or_set`, with the record of its calls of
`writer->seek`: every call appends the pair (writer position before the call, target). -/
def make_set_seeks (start_out_pos : Nat) (P : Parser) (d : DictState)
    (log : List (Nat × Nat)) : Parser × DictState × List (Nat × Nat) :=
  if d.count ≠ 1 then (P.parse_error, d, log)
  else
    let cur_pos := P.writer.pos
    let log := log ++ [(P.writer.pos, start_out_pos)]
    let P := { P with writer := P.writer.seek start_out_pos }
    let P := P.write_char EMPTY_SET
    let log := log ++ [(P.writer.pos, cur_pos)]
    let P := { P with writer := P.writer.seek cur_pos }
    (P, { d with cur := .Value, obj_type := .Set }, log)

/-- Source `Parser::parse_dict_or_set`, the body of the loop after `parse()` has
returned `(c, second)`, with the record of the calls of `writer->seek`. -/
def dict_step_seeks (start_out_pos : Nat) (P : Parser) (d : DictState) (c : Int)
    (second : Bool) (log : List (Nat × Nat)) : DictStep × List (Nat × Nat) :=
  let d := if second then { d with count := d.count + 1 } else d
  if c = 44 then
    if d.count = 1 then
      let r := make_set_seeks start_out_pos P d log
      if r.1.got_error then (.ret r.1, r.2.2) else (dict_comma r.1 r.2.1, r.2.2)
    else (dict_comma P d, log)
  else if c = 58 then
    if d.cur ≠ .Key then (.ret P.parse_error, log)
    else if d.obj_type = .Set then (.ret P.parse_error, log)
    else (.next P { d with cur := .Value }, log)
  else if c = 125 then
    if d.count = 1 then
      let r := make_set_seeks start_out_pos P d log
      if r.1.got_error then (.ret r.1, r.2.2) else (.ret (dict_finish r.1 r.2.1), r.2.2)
    else (.ret (dict_finish P d), log)
  else (.ret P.parse_error, log)

/-- Source `Parser::parse_dict_or_set`, the loop, with the record of the calls of
`writer->seek` that this activation makes (those of nested activations are not in it). -/
def parse_dict_loop_seeks (parse : Parser → Res ParseOut) (start_out_pos : Nat) :
    Nat → Parser → DictState → List (Nat × Nat) → Res (Parser × List (Nat × Nat))
  | 0, _, _, _ => .fuel
  | fuel + 1, P, d, log =>
    match parse P with
    | .ok (P, c, second) =>
      match dict_step_seeks start_out_pos P d c second log with
      | (.ret P, log) => .ok (P, log)
      | (.next P d, log) => parse_dict_loop_seeks parse start_out_pos fuel P d log
    | .exn => .exn
    | .fuel => .fuel

/-- Source `Parser::parse_dict_or_set`, with the record of the calls of `writer->seek`
of this activation. -/
def Parser.parse_dict_or_set_seeks (parse : Parser → Res ParseOut) (fuel : Nat) (P : Parser) :
    Res (Parser × List (Nat × Nat)) :=
  let start_out_pos := P.writer.pos
  parse_dict_loop_seeks parse start_out_pos fuel ((P.write_char EMPTY_DICT).write_char MARK)
    { count := 0, obj_type := .Dict, cur := .Key } []

/-- A result without its record of seeks. -/
def Res.forget : Res (Parser × List (Nat × Nat)) → Res Parser
  | .ok (P, _) => .ok P
  | .exn => .exn
  | .fuel => .fuel

/-- The calls of `seek` in a record that move the writer to an earlier offset. -/
def backward (log : List (Nat × Nat)) : List (Nat × Nat) :=
  log.filter fun e => decide (e.2 < e.1)

/-- Two parser states with the same unread input and the same error flag (the
writers may differ). -/
def SameParse (P1 P2 : Parser) : Prop :=
  P1.reader = P2.reader ∧ P1.got_error = P2.got_error

/-- What an iteration of the dict loop leaves, without the writer. -/
def DictStep.shape : DictStep → Option DictState × List Nat × Bool
  | .ret P => (none, P.reader, P.got_error)
  | .next P d => (some d, P.reader, P.got_error)

/-! # Theorems -/

/-! ## Bytes and writers -/

theorem toByte_uchar (b : Nat) : toByte (uchar b) = b % 256 := by
  unfold toByte uchar; omega

theorem uchar_of_lt (b : Nat) (h : b < 256) : uchar b = (b : Int) := by
  unfold uchar; rw [Nat.mod_eq_of_lt h]

theorem store_eq (buf : List Nat) (pos : Nat) (bytes : List Nat) (h : pos ≤ buf.length) :
    store buf pos bytes = buf.take pos ++ bytes ++ buf.drop (pos + bytes.length) := by
  unfold store
  have : pos - buf.length = 0 := by omega
  simp [this]

theorem store_length (buf : List Nat) (pos : Nat) (a : List Nat)
    (h : pos + a.length ≤ buf.length) : (store buf pos a).length = buf.length := by
  rw [store_eq _ _ _ (by omega)]; simp; omega

theorem store_end (buf bytes : List Nat) : store buf buf.length bytes = buf ++ bytes := by
  rw [store_eq _ _ _ (le_refl _)]
  simp

theorem store_store (buf : List Nat) (pos : Nat) (a b : List Nat)
    (h : pos + a.length ≤ buf.length) :
    store (store buf pos a) (pos + a.length) b = store buf pos (a ++ b) := by
  have hlen : (store buf pos a).length = buf.length := by
    rw [store_eq _ _ _ (by omega)]; simp; omega
  rw [store_eq _ _ _ (by omega), store_eq _ _ _ (by omega), store_eq _ _ _ (by omega)]
  have h1 : List.take (pos + a.length) (List.take pos buf ++ a ++ List.drop (pos + a.length) buf)
      = List.take pos buf ++ a := by
    rw [List.take_append_of_le_length (by simp; omega)]
    rw [List.take_of_length_le (by simp)]
  have h2 : List.drop (pos + a.length + b.length)
      (List.take pos buf ++ a ++ List.drop (pos + a.length) buf)
      = List.drop (pos + (a ++ b).length) buf := by
    rw [List.drop_append_eq_append_drop]
    rw [List.drop_of_length_le (by simp; omega)]
    simp
    have : min pos buf.length = pos := by omega
    rw [this]
    congr 1
    omega
  rw [h1, h2]
  simp

theorem Writer.write_data_append (w : Writer) (a b : List Nat) (h : w.Room (a.length + b.length)) :
    (w.write_data a).write_data b = w.write_data (a ++ b) := by
  cases w with
  | file f =>
    simp only [Writer.Room] at h
    simp only [Writer.write_data, FileWriter.write_data, h, store_end]
    congr 1
    have : (f.content ++ a).length = f.content.length + a.length := by simp
    rw [← this, store_end]
    simp [Nat.add_assoc]
  | mem m =>
    obtain ⟨h1, h2⟩ := h
    have ha : ¬ (m.p + a.length > m.size) := by omega
    have hab : ¬ (m.p + (a ++ b).length > m.size) := by simp; omega
    simp only [Writer.write_data, MemWriter.write_data, ha, hab, if_false]
    have hb : ¬ (m.p + a.length + b.length > m.size) := by omega
    simp only [hb, if_false]
    rw [store_store _ _ _ _ (by omega)]
    simp [Nat.add_assoc]

theorem Writer.write_char_eq (w : Writer) (c : Nat) (h : w.Room 1) :
    w.write_char c = w.write_data [c] := by
  cases w with
  | file f => simp [Writer.write_char, Writer.write_data, FileWriter.write_char, FileWriter.write_data]
  | mem m =>
    obtain ⟨h1, h2⟩ := h
    have h3 : ¬ (m.p ≥ m.size) := by omega
    have h4 : ¬ (m.p + [c].length > m.size) := by simp only [List.length_singleton]; omega
    have h5 : ¬ (m.p + 1 > m.size) := by omega
    simp only [Writer.write_char, Writer.write_data, MemWriter.write_char, MemWriter.write_data,
      h3, h5, if_false, List.length_singleton]

theorem Writer.room_write_data (w : Writer) (a : List Nat) (n : Nat) (h : w.Room (a.length + n)) :
    (w.write_data a).Room n := by
  cases w with
  | file f =>
    simp only [Writer.Room] at h
    simp [Writer.Room, Writer.write_data, FileWriter.write_data, h, store_end]
  | mem m =>
    obtain ⟨h1, h2⟩ := h
    have ha : ¬ (m.p + a.length > m.size) := by omega
    simp only [Writer.Room, Writer.write_data, MemWriter.write_data, ha, if_false]
    refine ⟨by omega, ?_⟩
    rw [store_eq _ _ _ (by omega)]
    simp; omega

theorem Writer.room_mono (w : Writer) (n k : Nat) (h : w.Room n) (hk : k ≤ n) : w.Room k := by
  cases w with
  | file f => exact h
  | mem m => exact ⟨by have := h.1; omega, h.2⟩

theorem Writer.output_write_data (w : Writer) (a : List Nat) (h : w.Room a.length) :
    (w.write_data a).output = w.output ++ a := by
  cases w with
  | file f =>
    simp only [Writer.Room] at h
    simp [Writer.output, Writer.write_data, FileWriter.write_data, h, store_end]
  | mem m =>
    obtain ⟨h1, h2⟩ := h
    have ha : ¬ (m.p + a.length > m.size) := by omega
    simp only [Writer.output, Writer.write_data, MemWriter.write_data, ha, if_false]
    rw [store_eq _ _ _ (by omega)]
    rw [List.take_append_of_le_length (by simp; omega)]
    rw [List.take_of_length_le (by simp)]

theorem Writer.pos_write_data (w : Writer) (a : List Nat) (h : w.Room a.length) :
    (w.write_data a).pos = w.pos + a.length := by
  cases w with
  | file f => simp [Writer.pos, Writer.write_data, FileWriter.write_data]
  | mem m =>
    obtain ⟨h1, h2⟩ := h
    have ha : ¬ (m.p + a.length > m.size) := by omega
    simp [Writer.pos, Writer.write_data, MemWriter.write_data, ha]

theorem Writer.overflow_write_data (w : Writer) (a : List Nat) (h : w.Room a.length) :
    (w.write_data a).overflow = w.overflow := by
  cases w with
  | file f => simp [Writer.overflow, Writer.write_data]
  | mem m =>
    obtain ⟨h1, h2⟩ := h
    have ha : ¬ (m.p + a.length > m.size) := by omega
    simp [Writer.overflow, Writer.write_data, MemWriter.write_data, ha]

/-- The backpatch of `make_set`: the header byte written first is replaced. -/
theorem Writer.backpatch (w : Writer) (x y : Nat) (bs : List Nat) (h : w.Room (bs.length + 1)) :
    (((w.write_data (x :: bs)).seek w.pos).write_char y).seek (w.write_data (x :: bs)).pos
      = w.write_data (y :: bs) := by
  cases w with
  | file f =>
    simp only [Writer.Room] at h
    simp only [Writer.write_data, FileWriter.write_data, Writer.seek, Writer.pos,
      Writer.write_char, FileWriter.write_char, h, store_end]
    congr 1
    rw [store_eq _ _ _ (by simp)]
    simp
  | mem m =>
    obtain ⟨h1, h2⟩ := h
    have ha : ¬ (m.p + (x :: bs).length > m.size) := by simp; omega
    have hb : ¬ (m.p + (y :: bs).length > m.size) := by simp; omega
    have hc : ¬ (m.p ≥ m.size) := by omega
    simp only [Writer.write_data, MemWriter.write_data, Writer.seek, Writer.pos,
      Writer.write_char, MemWriter.write_char, ha, hb, hc, if_false]
    congr 1
    have hl : (store m.data m.p (x :: bs)).length = m.data.length :=
      store_length _ _ _ (by simp only [List.length_cons]; omega)
    rw [store_eq _ _ [y] (by omega), store_eq _ _ (x :: bs) (by omega),
      store_eq _ _ (y :: bs) (by omega)]
    have hp : (List.take m.p m.data).length = m.p := by simp; omega
    have e1 : List.take m.p (List.take m.p m.data ++ x :: bs ++
        List.drop (m.p + (x :: bs).length) m.data) = List.take m.p m.data := by
      rw [List.append_assoc, List.take_append_of_le_length (by omega),
        List.take_of_length_le (by omega)]
    have e2 : List.drop (m.p + [y].length) (List.take m.p m.data ++ x :: bs ++
        List.drop (m.p + (x :: bs).length) m.data)
        = bs ++ List.drop (m.p + (x :: bs).length) m.data := by
      rw [List.append_assoc, List.drop_append_eq_append_drop,
        List.drop_of_length_le (by simp)]
      simp [hp]
    rw [e1, e2]
    simp

/-! ## Integers -/

theorem int_pdata_eq (n : Int) (h1 : -2 ^ 31 ≤ n) (h2 : n < 2 ^ 31) :
    int_pdata n = int_frame n := by
  unfold int_pdata int_frame toByte
  simp only []
  split_ifs <;> simp <;> omega

/-! ## Numbers -/

theorem digits_value_append (xs ys : List Nat) (acc : Nat) :
    digits_value (xs ++ ys) acc = digits_value ys (digits_value xs acc) := by
  induction xs generalizing acc with
  | nil => rfl
  | cons x xs ih => simp [digits_value, ih]

theorem nat_digits_value (fuel n : Nat) (h : n < fuel) :
    digits_value (nat_digits fuel n) 0 = n := by
  induction fuel generalizing n with
  | zero => omega
  | succ f ih =>
    unfold nat_digits
    split_ifs with h10
    · simp [digits_value]
    · rw [digits_value_append, ih (n / 10) (by omega)]
      simp [digits_value]; omega

theorem nat_digits_digit (fuel n : Nat) : ∀ d ∈ nat_digits fuel n, 48 ≤ d ∧ d ≤ 57 := by
  induction fuel generalizing n with
  | zero => simp [nat_digits]
  | succ f ih =>
    unfold nat_digits
    split_ifs with h10
    · simp; omega
    · intro d hd
      rcases List.mem_append.1 hd with hd | hd
      · exact ih _ d hd
      · simp at hd; omega

theorem nat_digits_ne_nil (fuel n : Nat) : nat_digits (fuel + 1) n ≠ [] := by
  unfold nat_digits
  split_ifs <;> simp

theorem takeWhile_all {α} (p : α → Bool) (l : List α) (h : ∀ x ∈ l, p x = true) :
    l.takeWhile p = l := by
  induction l with
  | nil => rfl
  | cons x xs ih =>
    simp only [List.takeWhile, h x (List.mem_cons_self _ _)]
    rw [ih (fun y hy => h y (List.mem_cons_of_mem _ hy))]

theorem stol_nat_digits (m : Nat) (h : (m : Int) ≤ 2 ^ 63 - 1) :
    stol (nat_digits (m + 1) m) = some (m : Int) := by
  have hne := nat_digits_ne_nil m m
  have hd := nat_digits_digit (m + 1) m
  unfold stol
  have hm : (match nat_digits (m + 1) m with
      | 45 :: t => (true, t)
      | 43 :: t => (false, t)
      | _ => (false, nat_digits (m + 1) m)) = (false, nat_digits (m + 1) m) := by
    split
    · rename_i t heq
      have := hd 45 (by rw [heq]; simp)
      omega
    · rename_i t heq
      have := hd 43 (by rw [heq]; simp)
      omega
    · rfl
  rw [hm]
  simp only []
  rw [takeWhile_all _ _ (by intro x hx; have := hd x hx; simp; omega)]
  simp only [hne, if_false, nat_digits_value _ _ (Nat.lt_succ_self m)]
  simp
  omega

theorem stol_neg_nat_digits (m : Nat) (h : (m : Int) ≤ 2 ^ 63) :
    stol (45 :: nat_digits (m + 1) m) = some (-(m : Int)) := by
  have hne := nat_digits_ne_nil m m
  have hd := nat_digits_digit (m + 1) m
  unfold stol
  simp only []
  rw [takeWhile_all _ _ (by intro x hx; have := hd x hx; simp; omega)]
  simp only [hne, if_false, nat_digits_value _ _ (Nat.lt_succ_self m)]
  simp
  omega

theorem stol_dec (n : Int) (h1 : -2 ^ 63 ≤ n) (h2 : n ≤ 2 ^ 63 - 1) : stol (dec n) = some n := by
  unfold dec
  split_ifs with hneg
  · rw [stol_neg_nat_digits _ (by omega)]
    congr 1; omega
  · rw [stol_nat_digits _ (by omega)]
    congr 1; omega

/-- Every byte of the decimal text is `-` or a digit. -/
theorem dec_chars (n : Int) : ∀ d ∈ dec n, d = 45 ∨ (48 ≤ d ∧ d ≤ 57) := by
  intro d hd
  unfold dec at hd
  split_ifs at hd
  · rcases List.mem_cons.1 hd with h | h
    · exact Or.inl h
    · exact Or.inr (nat_digits_digit _ _ d h)
  · exact Or.inr (nat_digits_digit _ _ d hd)

theorem dec_ne_nil (n : Int) : dec n ≠ [] := by
  unfold dec
  split_ifs
  · simp
  · exact nat_digits_ne_nil _ _

theorem parse_num_scan_run (ds rest : List Nat) (is_float : Bool) (buf : List Nat)
    (hds : ∀ d ∈ ds, d = 45 ∨ (48 ≤ d ∧ d ≤ 57))
    (hrest : isnumch (read_next_char rest).1 = false) :
    parse_num_scan (ds ++ rest) is_float buf
      = ((read_next_char rest).1, is_float, buf ++ ds, (read_next_char rest).2) := by
  induction ds generalizing buf with
  | nil =>
    cases rest with
    | nil => simp [parse_num_scan, read_next_char]
    | cons b r =>
      simp only [read_next_char] at hrest
      simp [parse_num_scan, read_next_char, hrest]
  | cons d ds ih =>
    have hd := hds d (List.mem_cons_self _ _)
    have hmod : d % 256 = d := by omega
    have hu : uchar d = (d : Int) := uchar_of_lt d (by omega)
    have hnum : isnumch (uchar d) = true := by
      rw [hu]; unfold isnumch; simp; omega
    have h46 : ¬ (uchar d = 46) := by rw [hu]; omega
    simp only [List.cons_append, parse_num_scan, hnum, if_true, toByte_uchar, hmod, h46,
      decide_False, Bool.or_false, List.append_eq]
    rw [ih _ (fun x hx => hds x (List.mem_cons_of_mem _ hx))]
    simp

theorem dec_bytes (n : Int) : dec n = (dec n).headD 0 :: (dec n).tail := by
  have := dec_ne_nil n
  cases h : dec n with
  | nil => exact absurd h this
  | cons a t => rfl

/-- On the decimal text of `n`, followed by a byte outside the numeric class or by
the end of input, `parse_num` writes the integer framing of `n` and returns that
byte. -/
theorem parse_num_dec (fl : FloatLib) (n : Int) (h1 : -2 ^ 31 ≤ n) (h2 : n < 2 ^ 31)
    (rest : List Nat) (w : Writer) (e : Bool)
    (hrest : isnumch (read_next_char rest).1 = false) :
    Parser.parse_num fl ⟨(dec n).tail ++ rest, w, e⟩ (uchar ((dec n).headD 0))
      = .ok (⟨(read_next_char rest).2, w.write_data (int_frame n), e⟩,
          (read_next_char rest).1) := by
  have hch := dec_chars n
  have hhd : (dec n).headD 0 ∈ dec n := by
    have := dec_bytes n
    rw [this]; simp
  have hh := hch _ hhd
  have hlt : (dec n).headD 0 % 256 = (dec n).headD 0 := by omega
  unfold Parser.parse_num
  simp only []
  rw [parse_num_scan_run _ _ _ _
    (fun d hd => hch d (by rw [dec_bytes n]; exact List.mem_cons_of_mem _ hd)) hrest]
  simp only [toByte_uchar, hlt]
  have : [(dec n).headD 0] ++ (dec n).tail = dec n := by
    rw [List.singleton_append]; exact (dec_bytes n).symm
  rw [this, stol_dec n (by omega) (by omega)]
  simp [Parser.write_data, int_pdata_eq n h1 h2]

/-- C3: for every integer `n` of the signed 32-bit range, `parse_num` on the decimal
text of `n` (followed by a byte outside the numeric class, or by the end of input)
writes `4B n` when `0 <= n <= 255`, `4D` and two little-endian bytes when
`256 <= n <= 65535`, and otherwise `4A` and the four little-endian bytes of
`n mod 2^32`; the width is the least of 1, 2, 4 bytes holding `n mod 2^32`, and a
negative `n` takes four bytes. -/
theorem C3_parse_num_int (fl : FloatLib) (n : Int) (h1 : -2 ^ 31 ≤ n) (h2 : n < 2 ^ 31)
    (rest : List Nat) (w : Writer) (e : Bool)
    (hrest : isnumch (read_next_char rest).1 = false) :
    Parser.parse_num fl ⟨(dec n).tail ++ rest, w, e⟩ (uchar ((dec n).headD 0))
        = .ok (⟨(read_next_char rest).2, w.write_data (int_frame n), e⟩, (read_next_char rest).1)
      ∧ ((int_frame n).length = 2 ↔ (n % 2 ^ 32).toNat < 256)
      ∧ ((int_frame n).length = 3 ↔ 256 ≤ (n % 2 ^ 32).toNat ∧ (n % 2 ^ 32).toNat < 65536)
      ∧ ((int_frame n).length = 5 ↔ 65536 ≤ (n % 2 ^ 32).toNat)
      ∧ (n < 0 → (int_frame n).length = 5) := by
  refine ⟨parse_num_dec fl n h1 h2 rest w e hrest, ?_⟩
  unfold int_frame; split_ifs <;> simp <;> omega

theorem C3_witness :
    Parser.parse_num FloatLib.throwing ⟨bytes_of "2", Writer.new_file, false⟩ 52
        = .ok (⟨[], Writer.new_file.write_data [0x4B, 0x2A], false⟩, EOF)
      ∧ Parser.parse_num FloatLib.throwing ⟨bytes_of "00", Writer.new_file, false⟩ 51
        = .ok (⟨[], Writer.new_file.write_data [0x4D, 0x2C, 0x01], false⟩, EOF) :=
  ⟨(C3_parse_num_int FloatLib.throwing 42 (by decide) (by decide) [] Writer.new_file false
      (by decide)).1,
   (C3_parse_num_int FloatLib.throwing 300 (by decide) (by decide) [] Writer.new_file false
      (by decide)).1⟩

theorem write_size64_eq (v : Nat) : _write_size64 v = le_bytes 8 v := by
  unfold _write_size64 le_bytes
  apply List.map_congr_left
  intro i _
  rw [pow_mul]
  norm_num

theorem str_header_eq (L : Nat) : str_header L = str_frame_header L := by
  unfold str_header str_frame_header
  have e : (2 : Nat) ^ 32 - 1 = 0xffffffff := by norm_num
  rw [e]
  split_ifs with h1 h2
  · have : L % 256 = L := by omega
    simp [this]
  · simp [le_bytes, List.range_succ]
  · simp [write_size64_eq]

theorem le_value_le_bytes4 (L : Nat) (h : L < 2 ^ 32) : le_value (le_bytes 4 L) = L := by
  simp [le_bytes, List.range_succ, le_value]
  omega

theorem le_value_le_bytes8 (L : Nat) (h : L < 2 ^ 64) : le_value (le_bytes 8 L) = L := by
  simp [le_bytes, List.range_succ, le_value]
  omega

/-- C4: when the scan of `parse_str` ends with the decoded bytes `s`, of length
`L < 2^64`, `parse_str` writes the header and then the `L` bytes of `s`; the header
is `8C L` iff `L <= 255`, `58` and four little-endian bytes iff
`256 <= L <= 2^32 - 1`, `8D` and eight little-endian bytes iff `L >= 2^32`, and its
length field decodes back to `L`. -/
theorem C4_parse_str_header (quote : Int) (P : Parser) (s rest : List Nat)
    (hscan : parse_str_scan quote P.reader .Direct 0 0 [] = (some s, rest))
    (hL : s.length < 2 ^ 64) :
    P.parse_str quote
        = ⟨rest, (P.writer.write_data (str_frame_header s.length)).write_data s, P.got_error⟩
      ∧ (∀ n, P.writer.Room n → (str_frame_header s.length).length + s.length ≤ n →
          (P.parse_str quote).writer.output
            = P.writer.output ++ str_frame_header s.length ++ s)
      ∧ ((str_frame_header s.length).head? = some 0x8C ↔ s.length ≤ 255)
      ∧ ((str_frame_header s.length).head? = some 0x58 ↔
          256 ≤ s.length ∧ s.length ≤ 2 ^ 32 - 1)
      ∧ ((str_frame_header s.length).head? = some 0x8D ↔ 2 ^ 32 ≤ s.length)
      ∧ le_value (str_frame_header s.length).tail = s.length := by
  have hmain : P.parse_str quote
        = ⟨rest, (P.writer.write_data (str_frame_header s.length)).write_data s, P.got_error⟩ := by
    unfold Parser.parse_str
    rw [hscan]
    simp [Parser.write_data, str_header_eq]
  refine ⟨hmain, ?_, ?_, ?_, ?_, ?_⟩
  · intro n hroom hn
    rw [hmain]
    simp only []
    rw [Writer.output_write_data _ _ (Writer.room_mono _ _ _
        (Writer.room_write_data _ _ (n - (str_frame_header s.length).length)
          (Writer.room_mono _ _ _ hroom (by omega))) (by omega)),
      Writer.output_write_data _ _ (Writer.room_mono _ _ _ hroom (by omega))]
  · unfold str_frame_header; split_ifs <;> simp <;> omega
  · unfold str_frame_header; split_ifs <;> simp <;> omega
  · unfold str_frame_header; split_ifs <;> simp <;> omega
  · unfold str_frame_header
    split_ifs with h1 h2
    · simp [le_value]
    · simp only [List.tail_cons]; exact le_value_le_bytes4 _ (by omega)
    · simp only [List.tail_cons]; exact le_value_le_bytes8 _ hL

theorem C4_witness :
    (Parser.new (bytes_of "ab\"") Writer.new_file).parse_str 34
      = ⟨[], (Writer.new_file.write_data [0x8C, 2]).write_data [0x61, 0x62], false⟩ :=
  (C4_parse_str_header 34 (Parser.new (bytes_of "ab\"") Writer.new_file) [0x61, 0x62] []
    (by decide) (by decide)).1

/-! ## Termination within the budget -/

theorem parse_str_scan_length (q : Int) (inp : List Nat) (mode : EscapeMode) (hp h : Int)
    (buf : List Nat) : (parse_str_scan q inp mode hp h buf).2.length ≤ inp.length := by
  induction inp generalizing mode hp h buf with
  | nil => simp [parse_str_scan]
  | cons b rest ih =>
    unfold parse_str_scan
    simp only []
    split <;> split_ifs <;> first
      | (simp only [List.length_cons]; exact Nat.le_succ _)
      | (simp only [List.length_cons]; exact Nat.le_succ_of_le (ih _ _ _ _))

theorem parse_num_scan_length (inp : List Nat) (f : Bool) (buf : List Nat) :
    (parse_num_scan inp f buf).2.2.2.length ≤ inp.length := by
  induction inp generalizing f buf with
  | nil => simp [parse_num_scan]
  | cons b rest ih =>
    unfold parse_num_scan
    simp only []
    split_ifs
    · simp only [List.length_cons]; exact Nat.le_succ_of_le (ih _ _)
    · simp

theorem parse_str_reader_length (P : Parser) (q : Int) :
    (P.parse_str q).reader.length ≤ P.reader.length := by
  have := parse_str_scan_length q P.reader .Direct 0 0 []
  unfold Parser.parse_str
  split
  · rename_i rest heq
    rw [heq] at this
    simpa [Parser.parse_error] using this
  · rename_i buf rest heq
    rw [heq] at this
    simpa [Parser.write_data] using this

theorem parse_num_reader_length (fl : FloatLib) (P Q : Parser) (first c : Int)
    (h : P.parse_num fl first = .ok (Q, c)) : Q.reader.length ≤ P.reader.length := by
  have := parse_num_scan_length P.reader false [toByte first]
  unfold Parser.parse_num at h
  revert h this
  rcases parse_num_scan P.reader false [toByte first] with ⟨c', isf, buf, rest⟩
  simp only []
  intro h hlen
  split_ifs at h
  · split at h
    · cases h
    · cases h; simpa [Parser.write_data] using hlen
  · split at h
    · cases h
    · cases h; simpa [Parser.write_data] using hlen

theorem parse_num_ne_fuel (fl : FloatLib) (P : Parser) (first : Int) :
    P.parse_num fl first ≠ .fuel := by
  unfold Parser.parse_num
  rcases parse_num_scan P.reader false [toByte first] with ⟨c', isf, buf, rest⟩
  simp only []
  split_ifs <;> split <;> simp


@[simp] theorem Parser.write_char_reader (P : Parser) (c : Nat) :
    (P.write_char c).reader = P.reader := rfl

@[simp] theorem Parser.write_data_reader (P : Parser) (d : List Nat) :
    (P.write_data d).reader = P.reader := rfl

@[simp] theorem Parser.parse_error_reader (P : Parser) : P.parse_error.reader = P.reader := rfl

theorem make_set_reader (s : Nat) (P : Parser) (d : DictState) :
    (make_set s P d).1.reader = P.reader := by
  unfold make_set
  split_ifs <;> rfl

theorem parse_list_loop_total (parse : Parser → Res ParseOut) (n : Nat)
    (hp : ParseTotal parse n) :
    ∀ (f : Nat) (P : Parser), P.reader.length ≤ n → P.reader.length < f →
      parse_list_loop parse f P ≠ .fuel ∧
      ∀ P', parse_list_loop parse f P = .ok P' → P'.reader.length ≤ P.reader.length := by
  intro f
  induction f with
  | zero => intro P _ h; omega
  | succ f ih =>
    intro P hn hf
    obtain ⟨h1, h2⟩ := hp P hn
    unfold parse_list_loop
    cases hr : parse P with
    | fuel => exact absurd hr h1
    | exn => simp
    | ok out =>
      obtain ⟨Q, c, b⟩ := out
      obtain ⟨h3, h4⟩ := h2 Q c b hr
      simp only []
      split_ifs with hc1 hc2
      · have hlt := h4 (by omega)
        obtain ⟨i1, i2⟩ := ih Q (by omega) (by omega)
        exact ⟨i1, fun P' hP' => le_trans (i2 P' hP') h3⟩
      · refine ⟨by simp, ?_⟩
        intro P' hP'
        cases hP'
        simpa using h3
      · refine ⟨by simp, ?_⟩
        intro P' hP'
        cases hP'
        simpa using h3


theorem dict_finish_reader (P : Parser) (d : DictState) :
    (dict_finish P d).reader = P.reader := by
  unfold dict_finish
  split_ifs <;> rfl

theorem dict_comma_reader (P : Parser) (d : DictState) :
    (dict_comma P d).parser.reader = P.reader := by
  unfold dict_comma
  split_ifs <;> rfl

theorem dict_step_reader (s : Nat) (P : Parser) (d : DictState) (c : Int) (b : Bool) :
    (dict_step s P d c b).parser.reader = P.reader := by
  unfold dict_step
  simp only []
  split_ifs <;> (try rw [dict_comma_reader]) <;>
    simp only [make_set_reader, dict_finish_reader, DictStep.parser, Parser.parse_error_reader]

theorem dict_step_next (s : Nat) (P Q : Parser) (d e : DictState) (c : Int) (b : Bool)
    (h : dict_step s P d c b = .next Q e) : c = 44 ∨ c = 58 := by
  unfold dict_step at h
  simp only [] at h
  split_ifs at h with h1 h2 h3 h4 h5 h6 h7 h8 h9 <;> first
    | exact Or.inl h1
    | exact Or.inr (by assumption)

theorem parse_dict_loop_total (parse : Parser → Res ParseOut) (n s : Nat)
    (hp : ParseTotal parse n) :
    ∀ (f : Nat) (P : Parser) (d : DictState), P.reader.length ≤ n → P.reader.length < f →
      parse_dict_loop parse s f P d ≠ .fuel ∧
      ∀ P', parse_dict_loop parse s f P d = .ok P' → P'.reader.length ≤ P.reader.length := by
  intro f
  induction f with
  | zero => intro P _ _ h; omega
  | succ f ih =>
    intro P d hn hf
    obtain ⟨h1, h2⟩ := hp P hn
    unfold parse_dict_loop
    cases hr : parse P with
    | fuel => exact absurd hr h1
    | exn => simp
    | ok out =>
      obtain ⟨Q, c, b⟩ := out
      obtain ⟨h3, h4⟩ := h2 Q c b hr
      have s1 := dict_step_reader s Q d c b
      simp only []
      cases hs : dict_step s Q d c b with
      | ret R =>
        simp only []
        refine ⟨by simp, ?_⟩
        intro P' hP'
        cases hP'
        rw [hs] at s1
        simp only [DictStep.parser] at s1
        rw [s1]; exact h3
      | next R e =>
        simp only []
        have e2 : 0 ≤ c := by rcases dict_step_next _ _ _ _ _ _ _ hs with h | h <;> omega
        rw [hs] at s1
        simp only [DictStep.parser] at s1
        have e1 := s1
        have hlt := h4 e2
        obtain ⟨i1, i2⟩ := ih R e (by rw [e1]; omega) (by rw [e1]; omega)
        refine ⟨i1, fun P' hP' => ?_⟩
        have := i2 P' hP'
        rw [e1] at this
        omega

theorem parseTotal_mono (parse : Parser → Res ParseOut) (n m : Nat) (h : ParseTotal parse n)
    (hm : m ≤ n) : ParseTotal parse m :=
  fun Q hQ => h Q (le_trans hQ hm)

theorem parse_loop_total (fl : FloatLib) :
    ∀ (f : Nat) (P : Parser) (had : Bool), P.reader.length < f →
      parse_loop fl f P had ≠ .fuel ∧
      ∀ Q c b, parse_loop fl f P had = .ok (Q, c, b) →
        Q.reader.length ≤ P.reader.length ∧ (0 ≤ c → Q.reader.length < P.reader.length) := by
  intro f
  induction f with
  | zero => intro P _ h; omega
  | succ f ih =>
    intro P had hf
    unfold parse_loop
    cases hrd : P.reader with
    | nil =>
      simp only []
      refine ⟨by simp, ?_⟩
      intro Q c b h
      cases h
      simp [hrd]
    | cons x rest =>
      simp only []
      rw [hrd] at hf
      simp only [List.length_cons] at hf ⊢
      have hrest : rest.length < f := by omega
      have htot : ParseTotal (fun Q => parse_loop fl f Q false) rest.length :=
        fun Q hQ => ih Q false (by omega)
      -- the continuation `parse_loop fl f R true` from a state with no more input than `rest`
      have cont : ∀ (R : Parser) (hd : Bool), R.reader.length ≤ rest.length →
          parse_loop fl f R hd ≠ .fuel ∧
          ∀ Q c b, parse_loop fl f R hd = .ok (Q, c, b) →
            Q.reader.length ≤ rest.length + 1 ∧ (0 ≤ c → Q.reader.length < rest.length + 1) := by
        intro R hd hR
        obtain ⟨i1, i2⟩ := ih R hd (by omega)
        refine ⟨i1, fun Q c b h => ?_⟩
        have := (i2 Q c b h).1
        exact ⟨by omega, fun _ => by omega⟩
      split_ifs with h1 h2 h3 h4 h5 h6
      · exact cont _ _ (le_refl _)
      · refine ⟨by simp, ?_⟩
        intro Q c b h
        cases h
        exact ⟨by simp, fun _ => by simp⟩
      · exact cont _ _ (parse_str_reader_length _ _)
      · obtain ⟨l1, l2⟩ := parse_list_loop_total _ _ htot f
          (({ P with reader := rest }.write_char EMPTY_LIST).write_char MARK)
          (le_refl _) hrest
        unfold Parser.parse_list
        cases hl : parse_list_loop (fun Q => parse_loop fl f Q false) f
            (({ P with reader := rest }.write_char EMPTY_LIST).write_char MARK) with
        | fuel => exact absurd hl l1
        | exn => simp
        | ok R => exact cont _ _ (l2 R hl)
      · obtain ⟨l1, l2⟩ := parse_dict_loop_total _ _
          ({ P with reader := rest } : Parser).writer.pos htot f
          (({ P with reader := rest }.write_char EMPTY_DICT).write_char MARK)
          { count := 0, obj_type := .Dict, cur := .Key } (le_refl _) hrest
        unfold Parser.parse_dict_or_set
        simp only []
        cases hl : parse_dict_loop (fun Q => parse_loop fl f Q false)
            ({ P with reader := rest } : Parser).writer.pos f
            (({ P with reader := rest }.write_char EMPTY_DICT).write_char MARK)
            { count := 0, obj_type := .Dict, cur := .Key } with
        | fuel => exact absurd hl l1
        | exn => simp
        | ok R => exact cont _ _ (l2 R hl)
      · cases hn : ({ P with reader := rest } : Parser).parse_num fl (uchar x) with
        | fuel => exact absurd hn (parse_num_ne_fuel _ _ _)
        | exn => simp
        | ok out =>
          obtain ⟨R, c'⟩ := out
          have hR := parse_num_reader_length fl _ R _ c' hn
          simp only [] at hR ⊢
          split_ifs
          · refine ⟨by simp, ?_⟩
            intro Q c b h
            cases h
            exact ⟨by omega, fun _ => by omega⟩
          · exact cont _ _ hR
      · refine ⟨by simp, ?_⟩
        intro Q c b h
        cases h
        exact ⟨by simp, fun _ => by simp⟩

/-! ## The result does not depend on the budget -/

theorem parse_list_loop_mono (parse parse' : Parser → Res ParseOut)
    (hpp : ∀ Q, parse Q ≠ .fuel → parse' Q = parse Q) :
    ∀ (f f' : Nat) (P : Parser), f ≤ f' → parse_list_loop parse f P ≠ .fuel →
      parse_list_loop parse' f' P = parse_list_loop parse f P := by
  intro f
  induction f with
  | zero => intro f' P _ h; exact absurd rfl h
  | succ f ih =>
    intro f' P hle h
    obtain ⟨g, rfl⟩ : ∃ g, f' = g + 1 := ⟨f' - 1, by omega⟩
    unfold parse_list_loop at h ⊢
    cases hr : parse P with
    | fuel => rw [hr] at h; exact absurd rfl h
    | exn => rw [hpp P (by rw [hr]; simp), hr]
    | ok out =>
      obtain ⟨Q, c, b⟩ := out
      rw [hpp P (by rw [hr]; simp), hr]
      rw [hr] at h
      simp only [] at h ⊢
      split_ifs with h1 h2
      · rw [if_pos h1] at h
        exact ih g Q (by omega) h
      · rfl
      · rfl

theorem parse_dict_loop_mono (parse parse' : Parser → Res ParseOut) (s : Nat)
    (hpp : ∀ Q, parse Q ≠ .fuel → parse' Q = parse Q) :
    ∀ (f f' : Nat) (P : Parser) (d : DictState), f ≤ f' →
      parse_dict_loop parse s f P d ≠ .fuel →
      parse_dict_loop parse' s f' P d = parse_dict_loop parse s f P d := by
  intro f
  induction f with
  | zero => intro f' P d _ h; exact absurd rfl h
  | succ f ih =>
    intro f' P d hle h
    obtain ⟨g, rfl⟩ : ∃ g, f' = g + 1 := ⟨f' - 1, by omega⟩
    unfold parse_dict_loop at h ⊢
    cases hr : parse P with
    | fuel => rw [hr] at h; exact absurd rfl h
    | exn => rw [hpp P (by rw [hr]; simp), hr]
    | ok out =>
      obtain ⟨Q, c, b⟩ := out
      rw [hpp P (by rw [hr]; simp), hr]
      rw [hr] at h
      simp only [] at h ⊢
      cases hs : dict_step s Q d c b with
      | ret R => rfl
      | next R e =>
        rw [hs] at h
        exact ih g R e (by omega) h

theorem parse_loop_mono (fl : FloatLib) :
    ∀ (f f' : Nat) (P : Parser) (had : Bool), f ≤ f' → parse_loop fl f P had ≠ .fuel →
      parse_loop fl f' P had = parse_loop fl f P had := by
  intro f
  induction f with
  | zero => intro f' P had _ h; exact absurd rfl h
  | succ f ih =>
    intro f' P had hle h
    obtain ⟨g, rfl⟩ : ∃ g, f' = g + 1 := ⟨f' - 1, by omega⟩
    have hg : f ≤ g := by omega
    have hpp : ∀ Q, (fun Q => parse_loop fl f Q false) Q ≠ .fuel →
        (fun Q => parse_loop fl g Q false) Q = (fun Q => parse_loop fl f Q false) Q :=
      fun Q hQ => ih g Q false hg hQ
    unfold parse_loop at h ⊢
    cases hrd : P.reader with
    | nil => rfl
    | cons x rest =>
      rw [hrd] at h
      simp only [] at h ⊢
      split_ifs at h ⊢ with h1 h2 h3 h4 h5 h6
      · exact ih g _ _ hg h
      · rfl
      · exact ih g _ _ hg h
      · unfold Parser.parse_list at h ⊢
        cases hl : parse_list_loop (fun Q => parse_loop fl f Q false) f
            (({ P with reader := rest }.write_char EMPTY_LIST).write_char MARK) with
        | fuel => rw [hl] at h; exact absurd rfl h
        | exn =>
          rw [parse_list_loop_mono _ _ hpp f g _ hg (by rw [hl]; simp), hl]
        | ok R =>
          rw [parse_list_loop_mono _ _ hpp f g _ hg (by rw [hl]; simp), hl]
          rw [hl] at h
          exact ih g _ _ hg h
      · unfold Parser.parse_dict_or_set at h ⊢
        simp only [] at h ⊢
        cases hl : parse_dict_loop (fun Q => parse_loop fl f Q false)
            ({ P with reader := rest } : Parser).writer.pos f
            (({ P with reader := rest }.write_char EMPTY_DICT).write_char MARK)
            { count := 0, obj_type := .Dict, cur := .Key } with
        | fuel => rw [hl] at h; exact absurd rfl h
        | exn =>
          rw [parse_dict_loop_mono _ _ _ hpp f g _ _ hg (by rw [hl]; simp), hl]
        | ok R =>
          rw [parse_dict_loop_mono _ _ _ hpp f g _ _ hg (by rw [hl]; simp), hl]
          rw [hl] at h
          exact ih g _ _ hg h
      · cases hn : ({ P with reader := rest } : Parser).parse_num fl (uchar x) with
        | fuel => rfl
        | exn => rfl
        | ok out =>
          obtain ⟨R, c'⟩ := out
          rw [hn] at h
          simp only [] at h ⊢
          split_ifs at h ⊢
          · rfl
          · exact ih g _ _ hg h
      · rfl

/-- With a budget above the number of unread bytes, `parse_loop` gives the result
that any budget on which it ends gives. -/
theorem parse_loop_budget (fl : FloatLib) (f g : Nat) (P : Parser) (had : Bool)
    (hf : parse_loop fl f P had ≠ .fuel) (hg : P.reader.length < g) :
    parse_loop fl g P had = parse_loop fl f P had := by
  rcases Nat.le_total f g with h | h
  · exact parse_loop_mono fl f g P had h hf
  · exact (parse_loop_mono fl g f P had h (parse_loop_total fl g P had hg).1).symm

/-! ## The root value -/

theorem parse_loop_no_root (fl : FloatLib) (w : Writer) (e : Bool) :
    ∀ (inp : List Nat) (f : Nat), no_root inp = true → inp.length < f →
      ∃ r c, parse_loop fl f ⟨inp, w, e⟩ false = .ok (⟨r, w, e⟩, c, false) := by
  intro inp
  induction inp with
  | nil =>
    intro f _ hf
    obtain ⟨g, rfl⟩ : ∃ g, f = g + 1 := ⟨f - 1, by simp at hf; omega⟩
    exact ⟨[], EOF, by simp [parse_loop]⟩
  | cons b rest ih =>
    intro f h hf
    obtain ⟨g, rfl⟩ : ∃ g, f = g + 1 := ⟨f - 1, by simp at hf; omega⟩
    simp only [List.length_cons] at hf
    unfold no_root at h
    unfold parse_loop
    simp only []
    split_ifs at h with hs
    · simp only [hs, if_true]
      exact ih g h (by omega)
    · simp only [starts_value, Bool.not_eq_true', Bool.or_eq_false_iff,
        decide_eq_false_iff_not] at h
      obtain ⟨⟨⟨⟨a1, a2⟩, a3⟩, a4⟩, a5⟩ := h
      simp [hs, a1, a2, a3, a4, a5]

theorem Parser.start_eq (inp : List Nat) (w : Writer) (e : Bool) :
    (⟨inp, w, e⟩ : Parser).start = ⟨inp, (w.write_char PROTO).write_char protocol, e⟩ := rfl

/-! ## Strings: errors -/

theorem scan_nil (q : Int) (mode : EscapeMode) (hp hx : Int) (buf : List Nat) :
    parse_str_scan q [] mode hp hx buf = (none, []) := by
  unfold parse_str_scan; rfl

theorem scan_direct (q : Int) (b : Nat) (rest : List Nat) (hp hx : Int) (buf : List Nat) :
    parse_str_scan q (b :: rest) .Direct hp hx buf =
      if uchar b = q then (some buf, rest)
      else if uchar b = 92 then parse_str_scan q rest .EscapeInit hp hx buf
      else parse_str_scan q rest .Direct hp hx (buf ++ [toByte (uchar b)]) := by
  conv => lhs; unfold parse_str_scan

theorem scan_init (q : Int) (b : Nat) (rest : List Nat) (hp hx : Int) (buf : List Nat) :
    parse_str_scan q (b :: rest) .EscapeInit hp hx buf =
      if uchar b = 120 then parse_str_scan q rest .EscapeHex 0 0 buf
      else if uchar b = 114 then parse_str_scan q rest .Direct hp hx (buf ++ [13])
      else if uchar b = 116 then parse_str_scan q rest .Direct hp hx (buf ++ [9])
      else if uchar b = 110 then parse_str_scan q rest .Direct hp hx (buf ++ [10])
      else if uchar b = 92 ∨ uchar b = 34 ∨ uchar b = 39 ∨ uchar b = 10 then
        parse_str_scan q rest .Direct hp hx (buf ++ [toByte (uchar b)])
      else (none, rest) := by
  conv => lhs; unfold parse_str_scan

theorem scan_hex (q : Int) (b : Nat) (rest : List Nat) (hp hx : Int) (buf : List Nat) :
    parse_str_scan q (b :: rest) .EscapeHex hp hx buf =
      if 48 ≤ uchar b ∧ uchar b ≤ 57 then
        if hp + 1 = 2 then
          parse_str_scan q rest .Direct (hp + 1) (hx * 16 + (uchar b - 48))
            (buf ++ [toByte (hx * 16 + (uchar b - 48))])
        else parse_str_scan q rest .EscapeHex (hp + 1) (hx * 16 + (uchar b - 48)) buf
      else if 97 ≤ uchar b ∧ uchar b ≤ 102 then
        if hp + 1 = 2 then
          parse_str_scan q rest .Direct (hp + 1) (hx * 16 + (uchar b - 97 + 10))
            (buf ++ [toByte (hx * 16 + (uchar b - 97 + 10))])
        else parse_str_scan q rest .EscapeHex (hp + 1) (hx * 16 + (uchar b - 97 + 10)) buf
      else (none, rest) := by
  conv => lhs; unfold parse_str_scan

theorem scan_hex2 (quote : Int) (h1 h2 : Nat) (rest : List Nat) (buf : List Nat) :
    parse_str_scan quote (h1 :: h2 :: rest) .EscapeHex 0 0 buf =
      if is_hex (uchar h1) && is_hex (uchar h2) then
        parse_str_scan quote rest .Direct 2
          (hex_value (uchar h1) * 16 + hex_value (uchar h2))
          (buf ++ [toByte (hex_value (uchar h1) * 16 + hex_value (uchar h2))])
      else (none, if is_hex (uchar h1) then rest else h2 :: rest) := by
  rw [scan_hex]
  unfold is_hex hex_value
  generalize uchar h1 = a
  by_cases a1 : 48 ≤ a ∧ a ≤ 57
  · rw [if_pos a1, if_neg (by decide), scan_hex]
    generalize uchar h2 = b
    have ha : a ≤ 57 := a1.2
    by_cases b1 : 48 ≤ b ∧ b ≤ 57
    · simp [a1, b1]
    · by_cases b2 : 97 ≤ b ∧ b ≤ 102
      · have : ¬ b ≤ 57 := by omega
        simp [a1, b1, b2, this]
      · simp [a1, b1, b2]
  · by_cases a2 : 97 ≤ a ∧ a ≤ 102
    · rw [if_neg a1, if_pos a2, if_neg (by decide), scan_hex]
      generalize uchar h2 = b
      have ha : ¬ a ≤ 57 := by omega
      by_cases b1 : 48 ≤ b ∧ b ≤ 57
      · simp [a1, a2, b1, ha]
      · by_cases b2 : 97 ≤ b ∧ b ≤ 102
        · have : ¬ b ≤ 57 := by omega
          simp [a1, a2, b1, b2, this, ha]
        · simp [a1, a2, b1, b2]
    · simp [a1, a2]

theorem parse_str_scan_error (quote : Int) :
    ∀ (n : Nat) (inp : List Nat) (hp hx : Int) (buf : List Nat), inp.length ≤ n →
      ((parse_str_scan quote inp .Direct hp hx buf).1 = none ↔ lit_error quote inp = true) := by
  intro n
  induction n with
  | zero =>
    intro inp hp hx buf h
    have : inp = [] := List.length_eq_zero.1 (by omega)
    subst this
    simp [scan_nil, lit_error]
  | succ n ih =>
    intro inp hp hx buf h
    match inp, h with
    | [], _ => simp [scan_nil, lit_error]
    | b :: rest, h =>
      simp only [List.length_cons] at h
      rw [scan_direct]
      unfold lit_error
      by_cases hq : uchar b = quote
      · simp [hq]
      · simp only [hq, if_false]
        by_cases hb : uchar b = 92
        · simp only [hb, if_true]
          match rest, h with
          | [], _ => simp [scan_nil]
          | e :: rest1, h =>
            simp only [List.length_cons] at h
            rw [scan_init]
            by_cases hx' : uchar e = 120
            · simp only [hx', if_true]
              match rest1, h with
              | [], _ => simp [scan_nil]
              | [h1], _ =>
                rw [scan_hex]
                split_ifs <;> simp [scan_nil]
              | h1 :: h2 :: rest2, h =>
                simp only [List.length_cons] at h
                rw [scan_hex2]
                by_cases hh : (is_hex (uchar h1) && is_hex (uchar h2)) = true
                · simp only [hh, if_true]
                  exact ih rest2 _ _ _ (by omega)
                · simp only [hh, if_false]
                  simp
            · simp only [hx', if_false]
              by_cases e1 : uchar e = 114
              · have hse : is_simple_escape (uchar e) = true := by simp [is_simple_escape, e1]
                rw [if_pos hse]; simp only [e1, if_true]; exact ih rest1 _ _ _ (by omega)
              · by_cases e2 : uchar e = 116
                · have hse : is_simple_escape (uchar e) = true := by simp [is_simple_escape, e2]
                  rw [if_pos hse]; simp only [e2, if_true]; exact ih rest1 _ _ _ (by omega)
                · by_cases e3 : uchar e = 110
                  · have hse : is_simple_escape (uchar e) = true := by
                      simp [is_simple_escape, e3]
                    rw [if_pos hse]; simp only [e3, if_true]; exact ih rest1 _ _ _ (by omega)
                  · by_cases e4 : uchar e = 92 ∨ uchar e = 34 ∨ uchar e = 39 ∨ uchar e = 10
                    · have hse : is_simple_escape (uchar e) = true := by
                        rcases e4 with h | h | h | h <;> simp [is_simple_escape, h]
                      simp only [e1, e2, e3, e4, if_true, if_false, hse]
                      exact ih rest1 _ _ _ (by omega)
                    · have hse : is_simple_escape (uchar e) = false := by
                        simp only [not_or] at e4
                        simp [is_simple_escape, e1, e2, e3, e4.1, e4.2.1, e4.2.2.1, e4.2.2.2]
                      simp [e1, e2, e3, e4, hse]
        · simp only [hb, if_false]
          exact ih rest _ _ _ (by omega)

theorem parse_str_scan_error0 (quote : Int) (inp : List Nat) :
    (parse_str_scan quote inp .Direct 0 0 []).1 = none ↔ lit_error quote inp = true :=
  parse_str_scan_error quote inp.length inp 0 0 [] (le_refl _)

/-- C7: `parse_str` sets the error flag exactly when the bytes after the opening
quote end before an unescaped closing quote, or hold a backslash followed by a byte
other than `x r t n \ " '` and newline, or hold `\x` followed within two bytes by a
byte outside `0-9a-f`; and in these cases it leaves the writer as it was. -/
theorem C7_parse_str_error (quote : Int) (P : Parser) :
    (P.parse_str quote).got_error = (P.got_error || lit_error quote P.reader)
      ∧ (lit_error quote P.reader = true → (P.parse_str quote).writer = P.writer) := by
  have key := parse_str_scan_error0 quote P.reader
  unfold Parser.parse_str
  cases hs : parse_str_scan quote P.reader .Direct 0 0 [] with
  | mk r rest =>
    rw [hs] at key
    cases r with
    | none =>
      have hl : lit_error quote P.reader = true := key.1 rfl
      simp [Parser.parse_error, hl]
    | some buf =>
      have hl : lit_error quote P.reader = false := by
        cases h : lit_error quote P.reader with
        | false => rfl
        | true => have := key.2 h; simp at this
      simp [Parser.write_data, hl]

theorem C7_witness :
    ((Parser.new (bytes_of "ab") Writer.new_file).parse_str 34).got_error = true
      ∧ ((Parser.new (bytes_of "ab") Writer.new_file).parse_str 34).writer = Writer.new_file
      ∧ ((Parser.new (bytes_of "\\q\"") Writer.new_file).parse_str 34).got_error = true
      ∧ ((Parser.new (bytes_of "\\q\"") Writer.new_file).parse_str 34).writer = Writer.new_file
      ∧ ((Parser.new (bytes_of "\\xZZ\"") Writer.new_file).parse_str 34).got_error = true
      ∧ ((Parser.new (bytes_of "\\xZZ\"") Writer.new_file).parse_str 34).writer
          = Writer.new_file :=
  ⟨(C7_parse_str_error 34 (Parser.new (bytes_of "ab") Writer.new_file)).1,
   (C7_parse_str_error 34 (Parser.new (bytes_of "ab") Writer.new_file)).2 (by decide),
   (C7_parse_str_error 34 (Parser.new (bytes_of "\\q\"") Writer.new_file)).1,
   (C7_parse_str_error 34 (Parser.new (bytes_of "\\q\"") Writer.new_file)).2 (by decide),
   (C7_parse_str_error 34 (Parser.new (bytes_of "\\xZZ\"") Writer.new_file)).1,
   (C7_parse_str_error 34 (Parser.new (bytes_of "\\xZZ\"") Writer.new_file)).2 (by decide)⟩

/-! ## Strings: escapes -/

theorem encodes_raw (q : Int) (b : Nat) (hb : b < 256) (h1 : (b : Int) ≠ q) (h2 : b ≠ 92) :
    Encodes q [b] b := by
  intro tail hp hx buf
  refine ⟨hp, hx, ?_⟩
  have hu := uchar_of_lt b hb
  rw [List.singleton_append, scan_direct, hu, if_neg h1, if_neg (by omega)]
  unfold toByte
  congr 3
  omega

theorem encodes_simple (q : Int) (e b : Nat)
    (h : (e = 114 ∧ b = 13) ∨ (e = 116 ∧ b = 9) ∨ (e = 110 ∧ b = 10)
      ∨ ((e = 92 ∨ e = 34 ∨ e = 39 ∨ e = 10) ∧ b = e)) (hq : q = 34 ∨ q = 39) :
    Encodes q [92, e] b := by
  intro tail hp hx buf
  refine ⟨hp, hx, ?_⟩
  have h92 : uchar 92 = 92 := by decide
  have hq' : ¬ ((92 : Int) = q) := by omega
  simp only [List.cons_append, List.nil_append]
  rw [scan_direct, h92, if_neg hq', if_pos rfl, scan_init]
  rcases h with ⟨rfl, rfl⟩ | ⟨rfl, rfl⟩ | ⟨rfl, rfl⟩ | ⟨h | h | h | h, rfl⟩ <;> subst_vars <;>
    simp only [show uchar 114 = 114 by decide, show uchar 116 = 116 by decide,
      show uchar 110 = 110 by decide, show uchar 92 = 92 by decide,
      show uchar 34 = 34 by decide, show uchar 39 = 39 by decide,
      show uchar 10 = 10 by decide] <;> simp [toByte]

theorem hex_digit_value (d : Nat) (h : d < 16) :
    is_hex (uchar (hex_digit d)) = true ∧ hex_value (uchar (hex_digit d)) = (d : Int) := by
  unfold hex_digit
  split_ifs with h10
  · rw [uchar_of_lt _ (by omega)]
    unfold is_hex hex_value
    constructor
    · simp; omega
    · rw [if_pos (by omega)]; omega
  · rw [uchar_of_lt _ (by omega)]
    unfold is_hex hex_value
    constructor
    · simp; omega
    · rw [if_neg (by omega)]; omega

theorem encodes_hex (q : Int) (b : Nat) (hb : b < 256) (hq : q = 34 ∨ q = 39) :
    Encodes q [92, 120, hex_digit (b / 16), hex_digit (b % 16)] b := by
  intro tail hp hx buf
  have h92 : uchar 92 = 92 := by decide
  have h120 : uchar 120 = 120 := by decide
  have hq' : ¬ ((92 : Int) = q) := by omega
  obtain ⟨a1, a2⟩ := hex_digit_value (b / 16) (by omega)
  obtain ⟨b1, b2⟩ := hex_digit_value (b % 16) (by omega)
  refine ⟨2, (b / 16 : Nat) * 16 + (b % 16 : Nat), ?_⟩
  simp only [List.cons_append, List.nil_append]
  rw [scan_direct, h92, if_neg hq', if_pos rfl, scan_init, h120, if_pos rfl, scan_hex2,
    a1, b1, a2, b2]
  simp only [Bool.and_self, if_true]
  congr 3
  unfold toByte
  omega

theorem encodes_esc_byte (q b : Nat) (hq : q = 34 ∨ q = 39) (hb : b < 256) :
    Encodes (q : Int) (esc_byte q b) b := by
  have hq' : (q : Int) = 34 ∨ (q : Int) = 39 := by omega
  unfold esc_byte
  split_ifs with h1 h2 h3 h4 h5
  · exact encodes_simple _ _ _ (Or.inl ⟨rfl, h1⟩) hq'
  · exact encodes_simple _ _ _ (Or.inr (Or.inl ⟨rfl, h2⟩)) hq'
  · exact encodes_simple _ _ _ (Or.inr (Or.inr (Or.inl ⟨rfl, h3⟩))) hq'
  · exact encodes_simple _ _ _ (Or.inr (Or.inr (Or.inr ⟨by omega, rfl⟩))) hq'
  · exact encodes_hex _ _ hb hq'
  · exact encodes_raw _ _ hb (by omega) (by omega)

/-- A text made of encodings of the bytes of `s`, then the closing quote: the scan
of `parse_str` ends at the quote with `s` appended to the decode buffer. -/
theorem parse_str_scan_encoded (q : Nat) (hq : q < 256) (enc : Nat → List Nat)
    (henc : ∀ b, b < 256 → Encodes (q : Int) (enc b) b) :
    ∀ (s : List Nat), (∀ b ∈ s, b < 256) → ∀ (rest : List Nat) (hp hx : Int) (buf : List Nat),
      parse_str_scan (q : Int) ((s.map enc).flatten ++ q :: rest) .Direct hp hx buf
        = (some (buf ++ s), rest) := by
  intro s
  induction s with
  | nil =>
    intro _ rest hp hx buf
    simp only [List.map_nil, List.flatten_nil, List.nil_append, List.append_nil]
    rw [scan_direct, uchar_of_lt _ hq, if_pos rfl]
  | cons b s ih =>
    intro hs rest hp hx buf
    obtain ⟨hp', hx', h⟩ := henc b (hs b (List.mem_cons_self _ _))
      ((s.map enc).flatten ++ q :: rest) hp hx buf
    simp only [List.map_cons, List.flatten_cons, List.append_assoc]
    rw [h, ih (fun x hx => hs x (List.mem_cons_of_mem _ hx))]
    simp

theorem esc_eq_flatten (q : Nat) (s : List Nat) : esc q s = (s.map (esc_byte q)).flatten := by
  induction s with
  | nil => rfl
  | cons b s ih => simp [esc, ih]

/-- C5: for a quote `q` (`"` or `'`) and bytes `s`, the scan of `parse_str` on
`lit(s, q)` after its opening quote ends at the closing quote with the decode buffer
equal to `s`, and `parse_str` writes the string framing of `s` and leaves the error
flag as it was; `\xHH` with lower-case digits decodes to the byte `16 * H1 + H2`. -/
theorem C5_escape_round_trip (q : Nat) (s : List Nat) (hq : q = 34 ∨ q = 39)
    (hs : ∀ b ∈ s, b < 256) (rest : List Nat) (w : Writer) (e : Bool) :
    parse_str_scan (q : Int) ((lit q s).tail ++ rest) .Direct 0 0 [] = (some s, rest)
      ∧ Parser.parse_str ⟨(lit q s).tail ++ rest, w, e⟩ (q : Int)
          = ⟨rest, (w.write_data (str_frame_header s.length)).write_data s, e⟩
      ∧ ∀ d1 d2 : Nat, d1 < 16 → d2 < 16 →
          parse_str_scan (q : Int) ([92, 120, hex_digit d1, hex_digit d2] ++ q :: rest)
            .Direct 0 0 [] = (some [16 * d1 + d2], rest) := by
  have hscan : parse_str_scan (q : Int) ((lit q s).tail ++ rest) .Direct 0 0 []
      = (some s, rest) := by
    have := parse_str_scan_encoded q (by omega) (esc_byte q)
      (fun b hb => encodes_esc_byte q b hq hb) s hs rest 0 0 []
    simpa [lit, esc_eq_flatten] using this
  refine ⟨hscan, ?_, ?_⟩
  · unfold Parser.parse_str
    simp only [hscan, Parser.write_data, str_header_eq]
  · intro d1 d2 h1 h2
    obtain ⟨hp', hx', h⟩ := encodes_hex (q : Int) (16 * d1 + d2) (by omega) (by omega)
      (q :: rest) 0 0 []
    have e1 : (16 * d1 + d2) / 16 = d1 := by omega
    have e2 : (16 * d1 + d2) % 16 = d2 := by omega
    rw [e1, e2] at h
    rw [h, scan_direct, uchar_of_lt _ (by omega), if_pos rfl]
    rfl

theorem C5_witness :
    parse_str_scan 34 ((lit 34 [97, 34, 39, 92, 10, 0, 255]).tail ++ [44]) .Direct 0 0 []
        = (some [97, 34, 39, 92, 10, 0, 255], [44])
      ∧ Parser.parse_str ⟨(lit 34 [97, 34, 39, 92, 10, 0, 255]).tail ++ [44],
            Writer.new_file, false⟩ 34
          = ⟨[44], (Writer.new_file.write_data (str_frame_header 7)).write_data
              [97, 34, 39, 92, 10, 0, 255], false⟩ :=
  ⟨(C5_escape_round_trip 34 [97, 34, 39, 92, 10, 0, 255] (by decide) (by decide) [44]
      Writer.new_file false).1,
   (C5_escape_round_trip 34 [97, 34, 39, 92, 10, 0, 255] (by decide) (by decide) [44]
      Writer.new_file false).2.1⟩

/-! ## Steps of `parse` -/

theorem parse_loop_ok_mono (fl : FloatLib) (f g : Nat) (P : Parser) (had : Bool) (out : ParseOut)
    (h : parse_loop fl f P had = .ok out) (hfg : f ≤ g) : parse_loop fl g P had = .ok out := by
  rw [parse_loop_mono fl f g P had hfg (by rw [h]; simp), h]

theorem parse_loop_nil (fl : FloatLib) (f : Nat) (W : Writer) (e had : Bool) :
    parse_loop fl (f + 1) ⟨[], W, e⟩ had = .ok (⟨[], W, e⟩, EOF, had) := by
  rw [parse_loop]

theorem parse_loop_space (fl : FloatLib) (f : Nat) (b : Nat) (r : List Nat) (W : Writer)
    (e had : Bool) (hb : isspace (uchar b) = true) :
    parse_loop fl (f + 1) ⟨b :: r, W, e⟩ had = parse_loop fl f ⟨r, W, e⟩ had := by
  rw [parse_loop]
  simp only [hb, if_true]

theorem parse_loop_had (fl : FloatLib) (f : Nat) (b : Nat) (r : List Nat) (W : Writer)
    (e : Bool) (hb : isspace (uchar b) = false) :
    parse_loop fl (f + 1) ⟨b :: r, W, e⟩ true = .ok (⟨r, W, e⟩, uchar b, true) := by
  rw [parse_loop]
  simp [hb]

theorem parse_loop_other (fl : FloatLib) (f : Nat) (b : Nat) (r : List Nat) (W : Writer)
    (e : Bool) (hb : isspace (uchar b) = false) (hs : starts_value (uchar b) = false) :
    parse_loop fl (f + 1) ⟨b :: r, W, e⟩ false = .ok (⟨r, W, e⟩, uchar b, false) := by
  rw [parse_loop]
  simp only [starts_value, Bool.or_eq_false_iff, decide_eq_false_iff_not] at hs
  obtain ⟨⟨⟨⟨a1, a2⟩, a3⟩, a4⟩, a5⟩ := hs
  simp [hb, a1, a2, a3, a4, a5]

theorem parse_loop_quote (fl : FloatLib) (f : Nat) (r : List Nat) (W : Writer) (e : Bool) :
    parse_loop fl (f + 1) ⟨34 :: r, W, e⟩ false
      = parse_loop fl f (Parser.parse_str ⟨r, W, e⟩ 34) true := by
  rw [parse_loop]
  have h : uchar 34 = 34 := by decide
  simp only [h]
  rfl

theorem parse_loop_list (fl : FloatLib) (f : Nat) (r : List Nat) (W : Writer) (e : Bool) :
    parse_loop fl (f + 1) ⟨91 :: r, W, e⟩ false
      = match Parser.parse_list (fun Q => parse_loop fl f Q false) f ⟨r, W, e⟩ with
        | .ok P => parse_loop fl f P true
        | .exn => .exn
        | .fuel => .fuel := by
  rw [parse_loop]
  have h : uchar 91 = 91 := by decide
  simp only [h]
  rfl

theorem parse_loop_brace (fl : FloatLib) (f : Nat) (r : List Nat) (W : Writer) (e : Bool) :
    parse_loop fl (f + 1) ⟨123 :: r, W, e⟩ false
      = match Parser.parse_dict_or_set (fun Q => parse_loop fl f Q false) f ⟨r, W, e⟩ with
        | .ok P => parse_loop fl f P true
        | .exn => .exn
        | .fuel => .fuel := by
  rw [parse_loop]
  have h : uchar 123 = 123 := by decide
  simp only [h]
  rfl

theorem parse_loop_num (fl : FloatLib) (f : Nat) (b : Nat) (r : List Nat) (W : Writer)
    (e : Bool) (hb : isnumch (uchar b) = true) :
    parse_loop fl (f + 1) ⟨b :: r, W, e⟩ false
      = match Parser.parse_num fl ⟨r, W, e⟩ (uchar b) with
        | .ok (P, c) => if c < 0 ∨ (!isspace c) = true then .ok (P, c, true)
            else parse_loop fl f P true
        | .exn => .exn
        | .fuel => .fuel := by
  rw [parse_loop]
  have h1 : isspace (uchar b) = false := by
    unfold isnumch at hb; unfold isspace
    simp at hb ⊢; omega
  have h2 : ¬ (uchar b = 39 ∨ uchar b = 34) := by
    unfold isnumch at hb; simp at hb; omega
  have h3 : ¬ (uchar b = 91) := by
    unfold isnumch at hb; simp at hb; omega
  have h4 : ¬ (uchar b = 123) := by
    unfold isnumch at hb; simp at hb; omega
  simp only [h1, h2, h3, h4, hb, if_true, if_false, Bool.false_eq_true]
  try rfl

/-- After a value, `parse` skips whitespace and returns the next byte. -/
theorem parse_loop_after (fl : FloatLib) (W : Writer) (e : Bool) :
    ∀ (rest : List Nat) (f : Nat), rest.length < f →
      parse_loop fl f ⟨rest, W, e⟩ true
        = .ok (⟨(after_value rest).2, W, e⟩, (after_value rest).1, true) := by
  intro rest
  induction rest with
  | nil =>
    intro f hf
    obtain ⟨g, rfl⟩ : ∃ g, f = g + 1 := ⟨f - 1, by simp at hf; omega⟩
    rw [parse_loop_nil]; rfl
  | cons b r ih =>
    intro f hf
    obtain ⟨g, rfl⟩ : ∃ g, f = g + 1 := ⟨f - 1, by simp at hf; omega⟩
    simp only [List.length_cons] at hf
    unfold after_value
    cases hb : isspace (uchar b) with
    | true => rw [parse_loop_space _ _ _ _ _ _ _ hb, ih g (by omega)]; simp
    | false => rw [parse_loop_had _ _ _ _ _ _ hb]; simp

/-- Leading whitespace is skipped. -/
theorem parse_loop_ws (fl : FloatLib) (W : Writer) (e had : Bool) :
    ∀ (ws rest : List Nat) (f : Nat), (∀ b ∈ ws, isspace (uchar b) = true) →
      parse_loop fl (f + ws.length) ⟨ws ++ rest, W, e⟩ had = parse_loop fl f ⟨rest, W, e⟩ had := by
  intro ws
  induction ws with
  | nil => intro rest f _; rfl
  | cons b ws ih =>
    intro rest f h
    have hb := h b (List.mem_cons_self _ _)
    simp only [List.length_cons, List.cons_append]
    rw [← Nat.add_assoc, parse_loop_space _ _ _ _ _ _ _ hb,
      ih rest f (fun x hx => h x (List.mem_cons_of_mem _ hx))]

/-! ## Values are parsed and written -/

theorem after_value_eq_read (rest : List Nat) (h : isspace (read_next_char rest).1 = false) :
    after_value rest = read_next_char rest := by
  cases rest with
  | nil => rfl
  | cons b r =>
    simp only [read_next_char] at h
    simp [after_value, read_next_char, h]

theorem good_int (fl : FloatLib) (n : Int) (h1 : -2 ^ 31 ≤ n) (h2 : n < 2 ^ 31) :
    Good fl (.int n) := by
  intro W m rest _ _ hrest
  refine ⟨rest.length + 2, fun f hf => ?_⟩
  obtain ⟨g, rfl⟩ : ∃ g, f = g + 1 := ⟨f - 1, by omega⟩
  have hd := dec_bytes n
  have hch := dec_chars n ((dec n).headD 0) (by rw [hd]; simp)
  have hlt : (dec n).headD 0 < 256 := by rcases hch with h | h <;> omega
  have hnum : isnumch (uchar ((dec n).headD 0)) = true := by
    rw [uchar_of_lt _ hlt]
    unfold isnumch
    rcases hch with h | h
    · rw [h]; decide
    · simp only [Bool.or_eq_true, Bool.and_eq_true, decide_eq_true_eq]; omega
  show parse_loop fl (g + 1) ⟨dec n ++ rest, W, false⟩ false = _
  rw [hd, List.cons_append, parse_loop_num _ _ _ _ _ _ hnum,
    parse_num_dec fl n h1 h2 rest W false hrest]
  simp only [ser]
  cases rest with
  | nil => simp [read_next_char, after_value]
  | cons b r =>
    simp only [read_next_char, after_value]
    cases hb : isspace (uchar b) with
    | true =>
      have hnn : ¬ (uchar b < 0) := by unfold uchar; omega
      simp only [hnn, hb, Bool.not_true, Bool.false_eq_true, or_self, if_false, if_true]
      rw [parse_loop_after fl _ _ r g (by simp at hf; omega)]
    | false => simp

theorem esc_min_eq_flatten (s : List Nat) :
    esc_min s = (s.map fun b => if b = 92 ∨ b = 34 then [92, b] else [b]).flatten := by
  induction s with
  | nil => rfl
  | cons b s ih => simp [esc_min, ih]

theorem encodes_esc_min (b : Nat) (hb : b < 256) :
    Encodes 34 (if b = 92 ∨ b = 34 then [92, b] else [b]) b := by
  split_ifs with h
  · exact encodes_simple 34 b b (Or.inr (Or.inr (Or.inr ⟨by omega, rfl⟩))) (Or.inl rfl)
  · exact encodes_raw 34 b hb (by omega) (by omega)

theorem parse_str_esc_min (s rest : List Nat) (hs : ∀ b ∈ s, b < 256) (W : Writer) (e : Bool) :
    Parser.parse_str ⟨esc_min s ++ 34 :: rest, W, e⟩ 34
      = ⟨rest, (W.write_data (str_frame_header s.length)).write_data s, e⟩ := by
  have h := parse_str_scan_encoded 34 (by decide) _ (fun b hb => encodes_esc_min b hb)
    s hs rest 0 0 []
  unfold Parser.parse_str
  rw [esc_min_eq_flatten]
  simp only [Nat.cast_ofNat] at h
  simp only [h, Parser.write_data, str_header_eq, List.nil_append]

theorem good_str (fl : FloatLib) (s : List Nat) (hs : ∀ b ∈ s, b < 256) :
    Good fl (.str s) := by
  intro W m rest hroom hlen _
  refine ⟨rest.length + 2, fun f hf => ?_⟩
  obtain ⟨g, rfl⟩ : ∃ g, f = g + 1 := ⟨f - 1, by omega⟩
  simp only [ser, List.length_append] at hlen
  show parse_loop fl (g + 1) ⟨(34 :: (esc_min s ++ [34])) ++ rest, W, false⟩ false = _
  simp only [List.cons_append, List.append_assoc, List.singleton_append, List.nil_append]
  rw [parse_loop_quote, parse_str_esc_min s rest hs,
    Writer.write_data_append _ _ _ (Writer.room_mono _ _ _ hroom hlen),
    parse_loop_after fl _ _ rest g (by omega)]
  simp only [ser]

/-! ## Containers -/

theorem good_ws (fl : FloatLib) (v : Value) (hv : Good fl v) (W : Writer) (n : Nat)
    (ws rest : List Nat) (hroom : W.Room n) (hlen : (ser v).length ≤ n)
    (hrest : isnumch (read_next_char rest).1 = false)
    (hws : ∀ b ∈ ws, isspace (uchar b) = true) :
    ∃ f0, ∀ f, f0 ≤ f → parse_loop fl f ⟨ws ++ (text v ++ rest), W, false⟩ false
      = .ok (⟨(after_value rest).2, W.write_data (ser v), false⟩, (after_value rest).1, true) := by
  obtain ⟨f1, h1⟩ := hv W n rest hroom hlen hrest
  refine ⟨f1 + ws.length, fun f hf => ?_⟩
  obtain ⟨g, rfl⟩ : ∃ g, f = g + ws.length := ⟨f - ws.length, by omega⟩
  rw [parse_loop_ws fl W false false ws _ g hws]
  exact h1 g (by omega)

theorem isnumch_text_more (xs : List Value) (c : Nat) (rest : List Nat)
    (hc : isnumch (uchar c) = false) :
    isnumch (read_next_char (text_more xs ++ c :: rest)).1 = false := by
  cases xs with
  | nil => simpa [text_more, read_next_char] using hc
  | cons x xs => simp [text_more, read_next_char]; decide

theorem after_value_cons (b : Nat) (r : List Nat) (h : isspace (uchar b) = false) :
    after_value (b :: r) = (uchar b, r) := by
  simp [after_value, h]

theorem space32 : ∀ b ∈ [32], isspace (uchar b) = true := by
  intro b hb
  simp at hb
  subst hb
  decide

theorem list_loop_items (fl : FloatLib) :
    ∀ (xs : List Value), (∀ x ∈ xs, Good fl x) → ∀ (v : Value), Good fl v →
      ∀ (W : Writer) (n : Nat) (rest ws : List Nat), W.Room n →
        (ser v).length + (ser_list xs).length + 1 ≤ n →
        (∀ b ∈ ws, isspace (uchar b) = true) →
        ∃ f0, ∀ F f, f0 ≤ F → f0 ≤ f →
          parse_list_loop (fun Q => parse_loop fl F Q false) f
            ⟨ws ++ (text v ++ (text_more xs ++ 93 :: rest)), W, false⟩
            = .ok ⟨rest, W.write_data (ser v ++ ser_list xs ++ [0x65]), false⟩ := by
  intro xs
  induction xs with
  | nil =>
    intro _ v hv W n rest ws hroom hlen hws
    simp only [ser_list, List.length_nil, Nat.add_zero] at hlen
    obtain ⟨f1, h1⟩ := good_ws fl v hv W n ws (text_more [] ++ 93 :: rest) hroom (by omega)
      (isnumch_text_more [] 93 rest (by decide)) hws
    refine ⟨f1 + 1, fun F f hF hf => ?_⟩
    obtain ⟨g, rfl⟩ : ∃ g, f = g + 1 := ⟨f - 1, by omega⟩
    rw [parse_list_loop]
    rw [h1 F (by omega)]
    have e1 : after_value (text_more [] ++ 93 :: rest) = (93, rest) :=
      after_value_cons 93 rest (by decide)
    rw [e1]
    simp only [ser_list, List.append_nil, if_true, if_false, Parser.write_char]
    have e2 : ¬ ((93 : Int) = 44) := by decide
    simp only [e2, if_false]
    rw [Writer.write_char_eq _ _ (Writer.room_write_data _ _ 1 (Writer.room_mono _ _ _ hroom hlen)),
      Writer.write_data_append _ _ _ (Writer.room_mono _ _ _ hroom (by simpa using hlen))]
  | cons x xs ih =>
    intro hxs v hv W n rest ws hroom hlen hws
    simp only [ser_list, List.length_append] at hlen
    obtain ⟨f1, h1⟩ := good_ws fl v hv W n ws (text_more (x :: xs) ++ 93 :: rest) hroom
      (by omega) (isnumch_text_more (x :: xs) 93 rest (by decide)) hws
    obtain ⟨f2, h2⟩ := ih (fun y hy => hxs y (List.mem_cons_of_mem _ hy)) x
      (hxs x (List.mem_cons_self _ _)) (W.write_data (ser v)) (n - (ser v).length) rest [32]
      (Writer.room_write_data _ _ _ (Writer.room_mono _ _ _ hroom (by omega))) (by omega) space32
    refine ⟨max f1 f2 + 1, fun F f hF hf => ?_⟩
    obtain ⟨g, rfl⟩ : ∃ g, f = g + 1 := ⟨f - 1, by omega⟩
    rw [parse_list_loop]
    rw [h1 F (by omega)]
    have e1 : after_value (text_more (x :: xs) ++ 93 :: rest)
        = (44, [32] ++ (text x ++ (text_more xs ++ 93 :: rest))) := by
      have := after_value_cons 44 ([32] ++ (text x ++ (text_more xs ++ 93 :: rest))) (by decide)
      simpa [text_more] using this
    rw [e1]
    simp only [if_true]
    rw [h2 F g (by omega) (by omega),
      Writer.write_data_append _ _ _ (Writer.room_mono _ _ _ hroom (by simp; omega))]
    simp [ser_list]

theorem isnumch_text_more_pairs (kvs : List (Value × Value)) (c : Nat) (rest : List Nat)
    (hc : isnumch (uchar c) = false) :
    isnumch (read_next_char (text_more_pairs kvs ++ c :: rest)).1 = false := by
  cases kvs with
  | nil => simpa [text_more_pairs, read_next_char] using hc
  | cons x xs =>
    obtain ⟨k, v⟩ := x
    simp [text_more_pairs, read_next_char]; decide

theorem cur_value_ne_key : ¬ (Cur.Value = Cur.Key) := by decide

theorem set_ne_dict : ¬ (ObjType.Set = ObjType.Dict) := by decide

theorem parse_dict_loop_succ (parse : Parser → Res ParseOut) (s f : Nat) (P : Parser)
    (d : DictState) (Q : Parser) (c : Int) (b : Bool) (h : parse P = .ok (Q, c, b)) :
    parse_dict_loop parse s (f + 1) P d =
      match dict_step s Q d c b with
      | .ret R => .ok R
      | .next R e => parse_dict_loop parse s f R e := by
  rw [parse_dict_loop]
  simp only [h]

/-- The elements of a set after the first: the loop of `parse_dict_or_set` in the
state `Set`, `Value`. -/
theorem set_loop_items (fl : FloatLib) (s : Nat) :
    ∀ (xs : List Value), (∀ x ∈ xs, Good fl x) → ∀ (v : Value), Good fl v →
      ∀ (W : Writer) (n : Nat) (rest ws : List Nat) (cnt : Nat), W.Room n →
        (ser v).length + (ser_list xs).length + 1 ≤ n →
        (∀ b ∈ ws, isspace (uchar b) = true) → 1 ≤ cnt →
        ∃ f0, ∀ F f, f0 ≤ F → f0 ≤ f →
          parse_dict_loop (fun Q => parse_loop fl F Q false) s f
            ⟨ws ++ (text v ++ (text_more xs ++ 125 :: rest)), W, false⟩
            ⟨cnt, .Set, .Value⟩
            = .ok ⟨rest, W.write_data (ser v ++ ser_list xs ++ [0x90]), false⟩ := by
  intro xs
  induction xs with
  | nil =>
    intro _ v hv W n rest ws cnt hroom hlen hws hcnt
    simp only [ser_list, List.length_nil, Nat.add_zero] at hlen
    obtain ⟨f1, h1⟩ := good_ws fl v hv W n ws (text_more [] ++ 125 :: rest) hroom (by omega)
      (isnumch_text_more [] 125 rest (by decide)) hws
    refine ⟨f1 + 1, fun F f hF hf => ?_⟩
    obtain ⟨g, rfl⟩ : ∃ g, f = g + 1 := ⟨f - 1, by omega⟩
    rw [parse_dict_loop_succ _ _ _ _ _ _ _ _ (h1 F (by omega))]
    have e1 : after_value (text_more [] ++ 125 :: rest) = (125, rest) :=
      after_value_cons 125 rest (by decide)
    rw [e1]
    have e2 : ¬ (cnt + 1 = 1) := by omega
    simp only [dict_step, dict_finish, if_true, if_false, e2, Parser.write_char, ser_list,
      List.append_nil, cur_value_ne_key, set_ne_dict, false_and]
    have e3 : ¬ ((125 : Int) = 44) := by decide
    have e4 : ¬ ((125 : Int) = 58) := by decide
    simp only [e3, e4, if_false, if_true]
    rw [Writer.write_char_eq _ _ (Writer.room_write_data _ _ 1 (Writer.room_mono _ _ _ hroom hlen)),
      Writer.write_data_append _ _ _ (Writer.room_mono _ _ _ hroom (by simpa using hlen))]
  | cons x xs ih =>
    intro hxs v hv W n rest ws cnt hroom hlen hws hcnt
    simp only [ser_list, List.length_append] at hlen
    obtain ⟨f1, h1⟩ := good_ws fl v hv W n ws (text_more (x :: xs) ++ 125 :: rest) hroom
      (by omega) (isnumch_text_more (x :: xs) 125 rest (by decide)) hws
    obtain ⟨f2, h2⟩ := ih (fun y hy => hxs y (List.mem_cons_of_mem _ hy)) x
      (hxs x (List.mem_cons_self _ _)) (W.write_data (ser v)) (n - (ser v).length) rest [32]
      (cnt + 1)
      (Writer.room_write_data _ _ _ (Writer.room_mono _ _ _ hroom (by omega))) (by omega) space32
      (by omega)
    refine ⟨max f1 f2 + 1, fun F f hF hf => ?_⟩
    obtain ⟨g, rfl⟩ : ∃ g, f = g + 1 := ⟨f - 1, by omega⟩
    rw [parse_dict_loop_succ _ _ _ _ _ _ _ _ (h1 F (by omega))]
    have e1 : after_value (text_more (x :: xs) ++ 125 :: rest)
        = (44, [32] ++ (text x ++ (text_more xs ++ 125 :: rest))) := by
      have := after_value_cons 44 ([32] ++ (text x ++ (text_more xs ++ 125 :: rest))) (by decide)
      simpa [text_more] using this
    rw [e1]
    have e2 : ¬ (cnt + 1 = 1) := by omega
    simp only [dict_step, dict_comma, if_true, if_false, e2, cur_value_ne_key, set_ne_dict]
    rw [h2 F g (by omega) (by omega),
      Writer.write_data_append _ _ _ (Writer.room_mono _ _ _ hroom (by simp; omega))]
    simp [ser_list]

theorem cur_key_ne_value : ¬ (Cur.Key = Cur.Value) := by decide

theorem dict_ne_set : ¬ (ObjType.Dict = ObjType.Set) := by decide

/-- The pairs of a mapping: the loop of `parse_dict_or_set` in the state `Dict`,
`Key`, with an even count. -/
theorem dict_loop_pairs (fl : FloatLib) (s : Nat) :
    ∀ (kvs : List (Value × Value)), (∀ p ∈ kvs, Good fl p.1 ∧ Good fl p.2) →
      ∀ (k v : Value), Good fl k → Good fl v →
      ∀ (W : Writer) (n : Nat) (rest ws : List Nat) (cnt : Nat), W.Room n →
        (ser k).length + (ser v).length + (ser_pairs kvs).length + 1 ≤ n →
        (∀ b ∈ ws, isspace (uchar b) = true) → cnt % 2 = 0 →
        ∃ f0, ∀ F f, f0 ≤ F → f0 ≤ f →
          parse_dict_loop (fun Q => parse_loop fl F Q false) s f
            ⟨ws ++ (text k ++ ([58, 32] ++ (text v ++ (text_more_pairs kvs ++ 125 :: rest)))),
              W, false⟩
            ⟨cnt, .Dict, .Key⟩
            = .ok ⟨rest, W.write_data (ser k ++ ser v ++ ser_pairs kvs ++ [0x75]), false⟩ := by
  intro kvs
  induction kvs with
  | nil =>
    intro _ k v hk hv W n rest ws cnt hroom hlen hws hcnt
    simp only [ser_pairs, List.length_nil, Nat.add_zero] at hlen
    obtain ⟨f1, h1⟩ := good_ws fl k hk W n ws
      ([58, 32] ++ (text v ++ (text_more_pairs [] ++ 125 :: rest))) hroom (by omega)
      (by simp [read_next_char]; decide) hws
    obtain ⟨f2, h2⟩ := good_ws fl v hv (W.write_data (ser k)) (n - (ser k).length) [32]
      (text_more_pairs [] ++ 125 :: rest)
      (Writer.room_write_data _ _ _ (Writer.room_mono _ _ _ hroom (by omega))) (by omega)
      (isnumch_text_more_pairs [] 125 rest (by decide)) space32
    refine ⟨max f1 f2 + 2, fun F f hF hf => ?_⟩
    obtain ⟨g, rfl⟩ : ∃ g, f = g + 2 := ⟨f - 2, by omega⟩
    rw [parse_dict_loop_succ _ _ _ _ _ _ _ _ (h1 F (by omega))]
    have e1 : after_value ([58, 32] ++ (text v ++ (text_more_pairs [] ++ 125 :: rest)))
        = (58, [32] ++ (text v ++ (text_more_pairs [] ++ 125 :: rest))) :=
      after_value_cons 58 _ (by decide)
    rw [e1]
    have e3 : ¬ ((58 : Int) = 44) := by decide
    simp only [dict_step, if_true, if_false, e3, cur_key_ne_value, dict_ne_set, ne_eq,
      not_true_eq_false]
    rw [parse_dict_loop_succ _ _ _ _ _ _ _ _ (h2 F (by omega))]
    have e4 : after_value (text_more_pairs [] ++ 125 :: rest) = (125, rest) :=
      after_value_cons 125 rest (by decide)
    rw [e4]
    have e5 : ¬ ((125 : Int) = 44) := by decide
    have e6 : ¬ ((125 : Int) = 58) := by decide
    have e7 : ¬ (cnt + 1 + 1 = 1) := by omega
    have e8 : (cnt + 1 + 1) % 2 = 0 := by omega
    simp only [dict_step, dict_finish, if_true, if_false, e5, e6, e7, e8, Parser.write_char,
      ne_eq, not_true_eq_false, and_false, ser_pairs, List.append_nil]
    rw [Writer.write_char_eq _ _ (Writer.room_write_data _ _ 1
        (Writer.room_write_data _ _ _ (Writer.room_mono _ _ _ hroom (by omega)))),
      Writer.write_data_append _ _ _
        (Writer.room_write_data _ _ _ (Writer.room_mono _ _ _ hroom (by simp; omega))),
      Writer.write_data_append _ _ _ (Writer.room_mono _ _ _ hroom (by simp; omega))]
    simp
  | cons p kvs ih =>
    obtain ⟨k', v'⟩ := p
    intro hkvs k v hk hv W n rest ws cnt hroom hlen hws hcnt
    simp only [ser_pairs, List.length_append] at hlen
    obtain ⟨f1, h1⟩ := good_ws fl k hk W n ws
      ([58, 32] ++ (text v ++ (text_more_pairs ((k', v') :: kvs) ++ 125 :: rest))) hroom
      (by omega) (by simp [read_next_char]; decide) hws
    obtain ⟨f2, h2⟩ := good_ws fl v hv (W.write_data (ser k)) (n - (ser k).length) [32]
      (text_more_pairs ((k', v') :: kvs) ++ 125 :: rest)
      (Writer.room_write_data _ _ _ (Writer.room_mono _ _ _ hroom (by omega))) (by omega)
      (isnumch_text_more_pairs ((k', v') :: kvs) 125 rest (by decide)) space32
    obtain ⟨f3, h3⟩ := ih (fun y hy => hkvs y (List.mem_cons_of_mem _ hy)) k' v'
      (hkvs (k', v') (List.mem_cons_self _ _)).1 (hkvs (k', v') (List.mem_cons_self _ _)).2
      ((W.write_data (ser k)).write_data (ser v)) (n - (ser k).length - (ser v).length)
      rest [32] (cnt + 1 + 1)
      (Writer.room_write_data _ _ _ (Writer.room_mono _ _ _
        (Writer.room_write_data _ _ (n - (ser k).length)
          (Writer.room_mono _ _ _ hroom (by omega))) (by omega)))
      (by omega) space32 (by omega)
    refine ⟨max f1 (max f2 f3) + 2, fun F f hF hf => ?_⟩
    obtain ⟨g, rfl⟩ : ∃ g, f = g + 2 := ⟨f - 2, by omega⟩
    rw [parse_dict_loop_succ _ _ _ _ _ _ _ _ (h1 F (by omega))]
    have e1 : after_value ([58, 32] ++ (text v ++ (text_more_pairs ((k', v') :: kvs)
        ++ 125 :: rest)))
        = (58, [32] ++ (text v ++ (text_more_pairs ((k', v') :: kvs) ++ 125 :: rest))) :=
      after_value_cons 58 _ (by decide)
    rw [e1]
    have e3 : ¬ ((58 : Int) = 44) := by decide
    simp only [dict_step, if_true, if_false, e3, cur_key_ne_value, dict_ne_set, ne_eq,
      not_true_eq_false]
    rw [parse_dict_loop_succ _ _ _ _ _ _ _ _ (h2 F (by omega))]
    have e4 : after_value (text_more_pairs ((k', v') :: kvs) ++ 125 :: rest)
        = (44, [32] ++ (text k' ++ ([58, 32] ++ (text v' ++ (text_more_pairs kvs
            ++ 125 :: rest))))) := by
      have := after_value_cons 44 ([32] ++ (text k' ++ ([58, 32] ++ (text v'
        ++ (text_more_pairs kvs ++ 125 :: rest))))) (by decide)
      simpa [text_more_pairs] using this
    rw [e4]
    have e7 : ¬ (cnt + 1 + 1 = 1) := by omega
    simp only [dict_step, dict_comma, if_true, if_false, e7, cur_value_ne_key]
    rw [h3 F g (by omega) (by omega),
      Writer.write_data_append _ _ _
        (Writer.room_write_data _ _ _ (Writer.room_mono _ _ _ hroom (by simp; omega))),
      Writer.write_data_append _ _ _ (Writer.room_mono _ _ _ hroom (by simp; omega))]
    simp [ser_pairs]

theorem Writer.write_char2 (W : Writer) (a b : Nat) (n : Nat) (h : W.Room n) (hn : 2 ≤ n) :
    (W.write_char a).write_char b = W.write_data [a, b] := by
  rw [Writer.write_char_eq _ _ (Writer.room_mono _ _ _ h (by omega)),
    Writer.write_char_eq _ _ (Writer.room_write_data _ [a] 1 (Writer.room_mono _ _ _ h hn)),
    Writer.write_data_append W [a] [b] (Writer.room_mono _ _ _ h hn)]
  rfl

theorem good_list (fl : FloatLib) (xs : List Value) (hxs : ∀ x ∈ xs, Good fl x) :
    Good fl (.list xs) := by
  intro W n rest hroom hlen _
  cases xs with
  | nil =>
    simp only [ser, ser_list, List.append_nil, List.length_append, List.length_cons,
      List.length_nil] at hlen
    refine ⟨rest.length + 3, fun f hf => ?_⟩
    obtain ⟨g, rfl⟩ : ∃ g, f = g + 2 := ⟨f - 2, by omega⟩
    show parse_loop fl (g + 1 + 1) ⟨(91 :: ([] ++ [93])) ++ rest, W, false⟩ false = _
    simp only [List.nil_append, List.cons_append]
    rw [parse_loop_list]
    unfold Parser.parse_list
    simp only [Parser.write_char]
    rw [parse_list_loop, parse_loop_other fl g 93 rest _ _ (by decide) (by decide)]
    have e1 : uchar 93 = 93 := by decide
    have e2 : ¬ ((93 : Int) = 44) := by decide
    simp only [e1, e2, if_true, if_false, Parser.write_char]
    rw [parse_loop_after fl _ _ rest (g + 1) (by omega),
      Writer.write_char2 W _ _ n hroom (by omega),
      Writer.write_char_eq _ _ (Writer.room_write_data W [EMPTY_LIST, MARK] 1
        (Writer.room_mono _ _ _ hroom (by simp; omega))),
      Writer.write_data_append W [EMPTY_LIST, MARK] [APPENDS]
        (Writer.room_mono _ _ _ hroom (by simp; omega))]
    rfl
  | cons x xs =>
    simp only [ser, ser_list, List.length_append, List.length_cons, List.length_nil] at hlen
    obtain ⟨f1, h1⟩ := list_loop_items fl xs (fun y hy => hxs y (List.mem_cons_of_mem _ hy)) x
      (hxs x (List.mem_cons_self _ _)) (W.write_data [EMPTY_LIST, MARK]) (n - 2) rest []
      (Writer.room_write_data W [EMPTY_LIST, MARK] (n - 2)
        (Writer.room_mono _ _ _ hroom (by simp; omega)))
      (by omega) (by simp)
    refine ⟨max f1 rest.length + 2, fun f hf => ?_⟩
    obtain ⟨g, rfl⟩ : ∃ g, f = g + 1 := ⟨f - 1, by omega⟩
    show parse_loop fl (g + 1) ⟨(91 :: (text_items (x :: xs) ++ [93])) ++ rest, W, false⟩ false
      = _
    simp only [text_items, List.cons_append, List.append_assoc, List.singleton_append,
      List.nil_append]
    rw [parse_loop_list]
    unfold Parser.parse_list
    simp only [Parser.write_char]
    rw [Writer.write_char2 W _ _ n hroom (by omega)]
    have h1' := h1 g g (by omega) (by omega)
    simp only [List.nil_append] at h1'
    rw [h1']
    simp only []
    rw [parse_loop_after fl _ _ rest g (by omega),
      Writer.write_data_append W [EMPTY_LIST, MARK] _
        (Writer.room_mono _ _ _ hroom (by simp; omega))]
    simp [ser, ser_list]

theorem good_dict (fl : FloatLib) (kvs : List (Value × Value))
    (hkvs : ∀ p ∈ kvs, Good fl p.1 ∧ Good fl p.2) : Good fl (.dict kvs) := by
  intro W n rest hroom hlen _
  cases kvs with
  | nil =>
    simp only [ser, ser_pairs, List.append_nil, List.length_append, List.length_cons,
      List.length_nil] at hlen
    refine ⟨rest.length + 3, fun f hf => ?_⟩
    obtain ⟨g, rfl⟩ : ∃ g, f = g + 2 := ⟨f - 2, by omega⟩
    show parse_loop fl (g + 1 + 1) ⟨(123 :: ([] ++ [125])) ++ rest, W, false⟩ false = _
    simp only [List.nil_append, List.cons_append]
    rw [parse_loop_brace]
    unfold Parser.parse_dict_or_set
    simp only [Parser.write_char]
    rw [parse_dict_loop_succ _ _ _ _ _ _ _ _
      (parse_loop_other fl g 125 rest _ _ (by decide) (by decide))]
    have e1 : uchar 125 = 125 := by decide
    have e2 : ¬ ((125 : Int) = 44) := by decide
    have e3 : ¬ ((125 : Int) = 58) := by decide
    simp only [dict_step, dict_finish, e1, e2, e3, if_true, if_false, Parser.write_char,
      Bool.false_eq_true, Nat.zero_mod, ne_eq, not_true_eq_false, and_false, zero_ne_one]
    rw [parse_loop_after fl _ _ rest (g + 1) (by omega),
      Writer.write_char2 W _ _ n hroom (by omega),
      Writer.write_char_eq _ _ (Writer.room_write_data W [EMPTY_DICT, MARK] 1
        (Writer.room_mono _ _ _ hroom (by simp; omega))),
      Writer.write_data_append W [EMPTY_DICT, MARK] [SETITEMS]
        (Writer.room_mono _ _ _ hroom (by simp; omega))]
    rfl
  | cons p kvs =>
    obtain ⟨k, v⟩ := p
    simp only [ser, ser_pairs, List.length_append, List.length_cons, List.length_nil] at hlen
    obtain ⟨f1, h1⟩ := dict_loop_pairs fl W.pos kvs
      (fun y hy => hkvs y (List.mem_cons_of_mem _ hy)) k v
      (hkvs (k, v) (List.mem_cons_self _ _)).1 (hkvs (k, v) (List.mem_cons_self _ _)).2
      (W.write_data [EMPTY_DICT, MARK]) (n - 2) rest [] 0
      (Writer.room_write_data W [EMPTY_DICT, MARK] (n - 2)
        (Writer.room_mono _ _ _ hroom (by simp; omega)))
      (by omega) (by simp) rfl
    refine ⟨max f1 rest.length + 2, fun f hf => ?_⟩
    obtain ⟨g, rfl⟩ : ∃ g, f = g + 1 := ⟨f - 1, by omega⟩
    show parse_loop fl (g + 1)
      ⟨(123 :: (text_pairs ((k, v) :: kvs) ++ [125])) ++ rest, W, false⟩ false = _
    simp only [text_pairs, List.cons_append, List.append_assoc, List.singleton_append,
      List.nil_append]
    rw [parse_loop_brace]
    unfold Parser.parse_dict_or_set
    simp only [Parser.write_char]
    rw [Writer.write_char2 W _ _ n hroom (by omega)]
    have h1' := h1 g g (by omega) (by omega)
    simp only [List.nil_append, List.cons_append, List.append_assoc] at h1'
    rw [h1']
    simp only []
    rw [parse_loop_after fl _ _ rest g (by omega),
      Writer.write_data_append W [EMPTY_DICT, MARK] _
        (Writer.room_mono _ _ _ hroom (by simp; omega))]
    simp [ser, ser_pairs]

theorem make_set_backpatch (W : Writer) (bs : List Nat) (n : Nat) (hroom : W.Room n)
    (hn : bs.length + 1 ≤ n) (rd : List Nat) (e : Bool) (d : DictState) (hd : d.count = 1) :
    make_set W.pos ⟨rd, W.write_data (EMPTY_DICT :: bs), e⟩ d
      = (⟨rd, W.write_data (EMPTY_SET :: bs), e⟩, { d with cur := .Value, obj_type := .Set }) := by
  unfold make_set
  simp only [hd, ne_eq, not_true_eq_false, if_false, Parser.write_char]
  rw [Writer.backpatch W EMPTY_DICT EMPTY_SET bs (Writer.room_mono _ _ _ hroom hn)]

theorem good_set (fl : FloatLib) (x : Value) (xs : List Value) (hx : Good fl x)
    (hxs : ∀ y ∈ xs, Good fl y) : Good fl (.set (x :: xs)) := by
  intro W n rest hroom hlen _
  simp only [ser, ser_list, List.length_append, List.length_cons, List.length_nil] at hlen
  have hW' : (W.write_data [EMPTY_DICT, MARK]).Room (n - 2) :=
    Writer.room_write_data W [EMPTY_DICT, MARK] (n - 2)
      (Writer.room_mono _ _ _ hroom (by simp; omega))
  obtain ⟨f1, h1⟩ := hx (W.write_data [EMPTY_DICT, MARK]) (n - 2)
    (text_more xs ++ 125 :: rest) hW' (by omega) (isnumch_text_more xs 125 rest (by decide))
  have hwx : (W.write_data [EMPTY_DICT, MARK]).write_data (ser x)
      = W.write_data (EMPTY_DICT :: (MARK :: ser x)) := by
    rw [Writer.write_data_append W [EMPTY_DICT, MARK] (ser x)
      (Writer.room_mono _ _ _ hroom (by simp; omega))]
    rfl
  cases xs with
  | nil =>
    refine ⟨max f1 rest.length + 3, fun f hf => ?_⟩
    obtain ⟨g, rfl⟩ : ∃ g, f = g + 2 := ⟨f - 2, by omega⟩
    show parse_loop fl (g + 1 + 1)
      ⟨(123 :: (text_items [x] ++ [125])) ++ rest, W, false⟩ false = _
    simp only [text_items, text_more, List.cons_append, List.append_assoc,
      List.singleton_append, List.nil_append, List.append_nil]
    rw [parse_loop_brace]
    unfold Parser.parse_dict_or_set
    simp only [Parser.write_char]
    rw [Writer.write_char2 W _ _ n hroom (by omega)]
    have h1' := h1 (g + 1) (by omega)
    simp only [text_more, List.nil_append] at h1'
    rw [parse_dict_loop_succ _ _ _ _ _ _ _ _ h1']
    have e1 : after_value (125 :: rest) = (125, rest) := after_value_cons 125 rest (by decide)
    rw [e1, hwx]
    have e2 : ¬ ((125 : Int) = 44) := by decide
    have e3 : ¬ ((125 : Int) = 58) := by decide
    simp only [dict_step, e2, e3, if_true, if_false, Nat.zero_add]
    rw [make_set_backpatch W (MARK :: ser x) n hroom (by simp; omega) _ _ _ rfl]
    simp only [dict_finish, set_ne_dict, false_and, if_false, Bool.false_eq_true,
      Parser.write_char]
    rw [parse_loop_after fl _ _ rest (g + 1) (by omega),
      Writer.write_char_eq _ _ (Writer.room_write_data W (EMPTY_SET :: (MARK :: ser x)) 1
        (Writer.room_mono _ _ _ hroom (by simp; omega))),
      Writer.write_data_append W (EMPTY_SET :: (MARK :: ser x)) [ADDITEMS]
        (Writer.room_mono _ _ _ hroom (by simp; omega))]
    simp [ser, ser_list]
  | cons y ys =>
    simp only [ser_list, List.length_append] at hlen
    have hW2 : (W.write_data (EMPTY_SET :: (MARK :: ser x))).Room (n - 2 - (ser x).length) :=
      Writer.room_write_data W (EMPTY_SET :: (MARK :: ser x)) _
        (Writer.room_mono _ _ _ hroom (by simp; omega))
    obtain ⟨f2, h2⟩ := set_loop_items fl W.pos ys
      (fun z hz => hxs z (List.mem_cons_of_mem _ hz)) y (hxs y (List.mem_cons_self _ _))
      (W.write_data (EMPTY_SET :: (MARK :: ser x))) (n - 2 - (ser x).length) rest [32] 1
      hW2 (by omega) space32 (le_refl _)
    refine ⟨max (max f1 f2) rest.length + 3, fun f hf => ?_⟩
    obtain ⟨g, rfl⟩ : ∃ g, f = g + 2 := ⟨f - 2, by omega⟩
    show parse_loop fl (g + 1 + 1)
      ⟨(123 :: (text_items (x :: y :: ys) ++ [125])) ++ rest, W, false⟩ false = _
    simp only [text_items, List.cons_append, List.append_assoc,
      List.singleton_append, List.nil_append]
    rw [parse_loop_brace]
    unfold Parser.parse_dict_or_set
    simp only [Parser.write_char]
    rw [Writer.write_char2 W _ _ n hroom (by omega)]
    rw [parse_dict_loop_succ _ _ _ _ _ _ _ _ (h1 (g + 1) (by omega))]
    have e1 : after_value (text_more (y :: ys) ++ 125 :: rest)
        = (44, [32] ++ (text y ++ (text_more ys ++ 125 :: rest))) := by
      have := after_value_cons 44 ([32] ++ (text y ++ (text_more ys ++ 125 :: rest))) (by decide)
      simpa [text_more] using this
    rw [e1, hwx]
    simp only [dict_step, if_true, if_false, Nat.zero_add]
    rw [make_set_backpatch W (MARK :: ser x) n hroom (by simp; omega) _ _ _ rfl]
    simp only [dict_comma, cur_value_ne_key, set_ne_dict, if_false, Bool.false_eq_true]
    rw [h2 (g + 1) g (by omega) (by omega)]
    simp only []
    rw [parse_loop_after fl _ _ rest (g + 1) (by omega),
      Writer.write_data_append W (EMPTY_SET :: (MARK :: ser x)) _
        (Writer.room_mono _ _ _ hroom (by simp; omega))]
    simp [ser, ser_list]

mutual

/-- Every well-formed value is parsed and written. -/
theorem good_value (fl : FloatLib) : ∀ v : Value, v.wf = true → Good fl v
  | .int n, h => by
    simp only [Value.wf, decide_eq_true_eq] at h
    exact good_int fl n h.1 h.2
  | .str s, h => by
    simp only [Value.wf, List.all_eq_true, decide_eq_true_eq] at h
    exact good_str fl s h
  | .list xs, h => by
    simp only [Value.wf] at h
    exact good_list fl xs (good_values fl xs h)
  | .set [], h => by
    simp [Value.wf] at h
  | .set (x :: xs), h => by
    simp only [Value.wf, wf_list, List.isEmpty_cons, Bool.not_false, Bool.true_and,
      Bool.and_eq_true] at h
    exact good_set fl x xs (good_value fl x h.1) (good_values fl xs h.2)
  | .dict kvs, h => by
    simp only [Value.wf] at h
    exact good_dict fl kvs (good_pairs fl kvs h)

/-- Every value of a well-formed list is parsed and written. -/
theorem good_values (fl : FloatLib) : ∀ xs : List Value, wf_list xs = true → ∀ x ∈ xs, Good fl x
  | [], _ => by simp
  | v :: vs, h => by
    simp only [wf_list, Bool.and_eq_true] at h
    intro x hx
    rcases List.mem_cons.1 hx with rfl | hx
    · exact good_value fl x h.1
    · exact good_values fl vs h.2 x hx

/-- Every key and value of well-formed pairs is parsed and written. -/
theorem good_pairs (fl : FloatLib) :
    ∀ kvs : List (Value × Value), wf_pairs kvs = true → ∀ p ∈ kvs, Good fl p.1 ∧ Good fl p.2
  | [], _ => by simp
  | (k, v) :: kvs, h => by
    simp only [wf_pairs, Bool.and_eq_true] at h
    intro p hp
    rcases List.mem_cons.1 hp with rfl | hp
    · exact ⟨good_value fl k h.1.1, good_value fl v h.1.2⟩
    · exact good_pairs fl kvs h.2 p hp
end

/-! ## The transcoding of a value -/

theorem Writer.room_new_file (n : Nat) : Writer.new_file.Room n := rfl

theorem Writer.room_new_mem (data : List Nat) (size : Nat) (h : data.length = size) :
    (Writer.new_mem data size).Room size := by
  simp [Writer.new_mem, Writer.Room, h]

theorem Writer.output_new_file : Writer.new_file.output = [] := rfl

theorem Writer.output_new_mem (data : List Nat) (size : Nat) :
    (Writer.new_mem data size).output = [] := by
  simp [Writer.new_mem, Writer.output]

/-- `full_pass` in terms of one run of `parse` that ends within some budget. -/
theorem full_pass_of_parse (fl : FloatLib) (inp : List Nat) (W : Writer) (e : Bool) (f : Nat)
    (out : ParseOut)
    (h : parse_loop fl f ⟨inp, (W.write_char PROTO).write_char protocol, e⟩ false = .ok out) :
    Parser.full_pass fl ⟨inp, W, e⟩
      = if (!out.2.2) = true then .ok out.1.parse_error else .ok out.1.end_ := by
  unfold Parser.full_pass Parser.parse
  simp only [Parser.start_eq]
  rw [parse_loop_budget fl f _ _ _ (by rw [h]; simp) (by simp [budget]; omega), h]

/-- A well-formed value alone on the input: `full_pass` writes the prologue, the
serialization and the stop opcode. -/
theorem full_pass_value (fl : FloatLib) (V : Value) (hV : V.wf = true) (W : Writer) (n : Nat)
    (hroom : W.Room n) (hn : (ser V).length + 3 ≤ n) :
    (Parser.new (text V) W).full_pass fl
      = .ok ⟨[], W.write_data ([0x80, 0x03] ++ ser V ++ [0x2E]), false⟩ := by
  have hW1 : (W.write_data [PROTO, protocol]).Room (n - 2) :=
    Writer.room_write_data W [PROTO, protocol] (n - 2) (Writer.room_mono _ _ _ hroom (by simp; omega))
  obtain ⟨f0, h0⟩ := good_value fl V hV (W.write_data [PROTO, protocol]) (n - 2) [] hW1
    (by omega) (by decide)
  have h0' := h0 f0 (le_refl _)
  simp only [List.append_nil] at h0'
  rw [← Writer.write_char2 W PROTO protocol n hroom (by omega)] at h0'
  unfold Parser.new
  rw [full_pass_of_parse fl (text V) W false f0 _ h0']
  simp only [after_value, Bool.not_true, Bool.false_eq_true, if_false, Parser.end_,
    Parser.write_char]
  rw [Writer.write_char2 W PROTO protocol n hroom (by omega),
    Writer.write_data_append W [PROTO, protocol] (ser V)
      (Writer.room_mono _ _ _ hroom (by simp; omega)),
    Writer.write_char_eq _ _ (Writer.room_write_data W ([PROTO, protocol] ++ ser V) 1
      (Writer.room_mono _ _ _ hroom (by simp; omega))),
    Writer.write_data_append W ([PROTO, protocol] ++ ser V) [STOP]
      (Writer.room_mono _ _ _ hroom (by simp; omega))]

/-- C1: for every well-formed value `V` (integers of the signed 32-bit range, byte
strings, lists, non-empty sets, mappings, nested to any depth), `full_pass` on the
canonical text of `V` ends with the error flag clear and writes exactly `80 03`,
then `ser V`, then `2E`: on a new file, on a memory buffer of at least that size
(without overflow), and after the earlier bytes of any writer with that much room. -/
theorem C1_full_pass_value (fl : FloatLib) (V : Value) (hV : V.wf = true) :
    run_output fl (text V) Writer.new_file = some ([0x80, 0x03] ++ ser V ++ [0x2E], false)
      ∧ (∀ (data : List Nat) (size : Nat), data.length = size → (ser V).length + 3 ≤ size →
          run_output fl (text V) (Writer.new_mem data size)
              = some ([0x80, 0x03] ++ ser V ++ [0x2E], false)
            ∧ ∃ P, (Parser.new (text V) (Writer.new_mem data size)).full_pass fl = .ok P
                ∧ P.writer.overflow = false)
      ∧ (∀ (W : Writer) (n : Nat), W.Room n → (ser V).length + 3 ≤ n →
          (Parser.new (text V) W).full_pass fl
            = .ok ⟨[], W.write_data ([0x80, 0x03] ++ ser V ++ [0x2E]), false⟩) := by
  refine ⟨?_, ?_, fun W n hroom hn => full_pass_value fl V hV W n hroom hn⟩
  · unfold run_output
    rw [full_pass_value fl V hV _ _ (Writer.room_new_file ((ser V).length + 3)) (le_refl _)]
    simp only []
    rw [Writer.output_write_data _ _ (Writer.room_new_file _), Writer.output_new_file]
    rfl
  · intro data size hd hs
    have hroom := Writer.room_new_mem data size hd
    have hl : ([0x80, 0x03] ++ ser V ++ [0x2E]).length ≤ size := by simp; omega
    refine ⟨?_, _, full_pass_value fl V hV _ _ hroom hs, ?_⟩
    · unfold run_output
      rw [full_pass_value fl V hV _ _ hroom hs]
      simp only []
      rw [Writer.output_write_data _ _ (Writer.room_mono _ _ _ hroom hl),
        Writer.output_new_mem]
      rfl
    · simp only []
      rw [Writer.overflow_write_data _ _ (Writer.room_mono _ _ _ hroom hl)]
      rfl

theorem C1_witness :
    run_output FloatLib.throwing (bytes_of "[1, 2, 3]") Writer.new_file
        = some ([0x80, 0x03, 0x5D, 0x28, 0x4B, 0x01, 0x4B, 0x02, 0x4B, 0x03, 0x65, 0x2E], false)
      ∧ run_output FloatLib.throwing (bytes_of "{1: 2}") Writer.new_file
        = some ([0x80, 0x03, 0x7D, 0x28, 0x4B, 0x01, 0x4B, 0x02, 0x75, 0x2E], false)
      ∧ run_output FloatLib.throwing (bytes_of "{1, 2}") Writer.new_file
        = some ([0x80, 0x03, 0x8F, 0x28, 0x4B, 0x01, 0x4B, 0x02, 0x90, 0x2E], false)
      ∧ run_output FloatLib.throwing (bytes_of "{}") Writer.new_file
        = some ([0x80, 0x03, 0x7D, 0x28, 0x75, 0x2E], false) :=
  ⟨(C1_full_pass_value FloatLib.throwing (.list [.int 1, .int 2, .int 3]) (by decide)).1,
   (C1_full_pass_value FloatLib.throwing (.dict [(.int 1, .int 2)]) (by decide)).1,
   (C1_full_pass_value FloatLib.throwing (.set [.int 1, .int 2]) (by decide)).1,
   (C1_full_pass_value FloatLib.throwing (.dict []) (by decide)).1⟩

/-! ## A missing root value -/

theorem prologue_output (W : Writer) (hroom : W.Room 2) :
    ((W.write_char 0x80).write_char 0x03).output = W.output ++ [0x80, 0x03] := by
  rw [Writer.write_char2 W _ _ 2 hroom (le_refl _),
    Writer.output_write_data W [0x80, 0x03] hroom]

/-- C9: on an input that is empty, or only whitespace, or whose first byte that is
not whitespace is none of `'`, `"`, `[`, `{`, a digit, `+`, `-`, `.`, `full_pass`
ends with the error flag set after exactly the two writes of the prologue: the
output is `80 03`, and no stop opcode is written. -/
theorem C9_missing_root (fl : FloatLib) (inp : List Nat) (h : no_root inp = true) :
    run_output fl inp Writer.new_file = some ([0x80, 0x03], true)
      ∧ (∀ (data : List Nat) (size : Nat), data.length = size → 2 ≤ size →
          run_output fl inp (Writer.new_mem data size) = some ([0x80, 0x03], true))
      ∧ (∀ w : Writer, ∃ r, (Parser.new inp w).full_pass fl
          = .ok ⟨r, (w.write_char 0x80).write_char 0x03, true⟩) := by
  have key : ∀ w : Writer, ∃ r, (Parser.new inp w).full_pass fl
      = .ok ⟨r, (w.write_char 0x80).write_char 0x03, true⟩ := by
    intro w
    obtain ⟨r, c, hp⟩ := parse_loop_no_root fl ((w.write_char PROTO).write_char protocol) false
      inp (2 * inp.length + 2) h (by omega)
    refine ⟨r, ?_⟩
    unfold Parser.full_pass Parser.parse budget Parser.new
    simp only [Parser.start_eq]
    rw [hp]
    rfl
  refine ⟨?_, ?_, key⟩
  · obtain ⟨r, hr⟩ := key Writer.new_file
    unfold run_output
    rw [hr]
    simp only []
    rw [prologue_output _ (Writer.room_new_file 2), Writer.output_new_file]
    rfl
  · intro data size hd hs
    obtain ⟨r, hr⟩ := key (Writer.new_mem data size)
    unfold run_output
    rw [hr]
    simp only []
    rw [prologue_output _ (Writer.room_mono _ _ _ (Writer.room_new_mem data size hd) hs),
      Writer.output_new_mem]
    rfl

theorem C9_witness :
    run_output FloatLib.throwing (bytes_of "  ]") Writer.new_file = some ([0x80, 0x03], true)
      ∧ run_output FloatLib.throwing (bytes_of "") Writer.new_file
        = some ([0x80, 0x03], true) :=
  ⟨(C9_missing_root FloatLib.throwing (bytes_of "  ]") (by decide)).1,
   (C9_missing_root FloatLib.throwing (bytes_of "") (by decide)).1⟩

/-! ## Mixed brace literals -/

/-- The pairs of a mapping followed by `,`: the loop of `parse_dict_or_set` goes
through the pairs and comes back to the state `Dict`, `Key`. -/
theorem dict_loop_prefix (fl : FloatLib) (s : Nat) :
    ∀ (kvs : List (Value × Value)), (∀ p ∈ kvs, Good fl p.1 ∧ Good fl p.2) →
      ∀ (k v : Value), Good fl k → Good fl v →
      ∀ (W : Writer) (n : Nat) (tail ws : List Nat) (cnt : Nat), W.Room n →
        (ser k).length + (ser v).length + (ser_pairs kvs).length ≤ n →
        (∀ b ∈ ws, isspace (uchar b) = true) →
        ∃ f0, ∀ F f, f0 ≤ F →
          parse_dict_loop (fun Q => parse_loop fl F Q false) s (f + 2 * (kvs.length + 1))
            ⟨ws ++ (text k ++ ([58, 32] ++ (text v ++ (text_more_pairs kvs ++ 44 :: tail)))),
              W, false⟩
            ⟨cnt, .Dict, .Key⟩
            = parse_dict_loop (fun Q => parse_loop fl F Q false) s f
                ⟨tail, W.write_data (ser k ++ ser v ++ ser_pairs kvs), false⟩
                ⟨cnt + 2 * (kvs.length + 1), .Dict, .Key⟩ := by
  intro kvs
  induction kvs with
  | nil =>
    intro _ k v hk hv W n tail ws cnt hroom hlen hws
    simp only [ser_pairs, List.length_nil, Nat.add_zero] at hlen
    obtain ⟨f1, h1⟩ := good_ws fl k hk W n ws
      ([58, 32] ++ (text v ++ (text_more_pairs [] ++ 44 :: tail))) hroom (by omega)
      (by simp [read_next_char]; decide) hws
    obtain ⟨f2, h2⟩ := good_ws fl v hv (W.write_data (ser k)) (n - (ser k).length) [32]
      (text_more_pairs [] ++ 44 :: tail)
      (Writer.room_write_data _ _ _ (Writer.room_mono _ _ _ hroom (by omega))) (by omega)
      (isnumch_text_more_pairs [] 44 tail (by decide)) space32
    refine ⟨max f1 f2, fun F f hF => ?_⟩
    show parse_dict_loop _ s (f + 1 + 1) _ _ = _
    rw [parse_dict_loop_succ _ _ _ _ _ _ _ _ (h1 F (by omega))]
    have e1 : after_value ([58, 32] ++ (text v ++ (text_more_pairs [] ++ 44 :: tail)))
        = (58, [32] ++ (text v ++ (text_more_pairs [] ++ 44 :: tail))) :=
      after_value_cons 58 _ (by decide)
    rw [e1]
    have e3 : ¬ ((58 : Int) = 44) := by decide
    simp only [dict_step, if_true, if_false, e3, cur_key_ne_value, dict_ne_set, ne_eq,
      not_true_eq_false]
    rw [parse_dict_loop_succ _ _ _ _ _ _ _ _ (h2 F (by omega))]
    have e4 : after_value (text_more_pairs [] ++ 44 :: tail) = (44, tail) :=
      after_value_cons 44 tail (by decide)
    rw [e4]
    have e7 : ¬ (cnt + 1 + 1 = 1) := by omega
    simp only [dict_step, dict_comma, if_true, if_false, e7, cur_value_ne_key, ser_pairs,
      List.append_nil, List.length_nil]
    rw [Writer.write_data_append _ _ _ (Writer.room_mono _ _ _ hroom (by omega))]
  | cons p kvs ih =>
    obtain ⟨k', v'⟩ := p
    intro hkvs k v hk hv W n tail ws cnt hroom hlen hws
    simp only [ser_pairs, List.length_append] at hlen
    obtain ⟨f1, h1⟩ := good_ws fl k hk W n ws
      ([58, 32] ++ (text v ++ (text_more_pairs ((k', v') :: kvs) ++ 44 :: tail))) hroom
      (by omega) (by simp [read_next_char]; decide) hws
    obtain ⟨f2, h2⟩ := good_ws fl v hv (W.write_data (ser k)) (n - (ser k).length) [32]
      (text_more_pairs ((k', v') :: kvs) ++ 44 :: tail)
      (Writer.room_write_data _ _ _ (Writer.room_mono _ _ _ hroom (by omega))) (by omega)
      (isnumch_text_more_pairs ((k', v') :: kvs) 44 tail (by decide)) space32
    obtain ⟨f3, h3⟩ := ih (fun y hy => hkvs y (List.mem_cons_of_mem _ hy)) k' v'
      (hkvs (k', v') (List.mem_cons_self _ _)).1 (hkvs (k', v') (List.mem_cons_self _ _)).2
      ((W.write_data (ser k)).write_data (ser v)) (n - (ser k).length - (ser v).length)
      tail [32] (cnt + 1 + 1)
      (Writer.room_write_data _ _ _ (Writer.room_mono _ _ _
        (Writer.room_write_data _ _ (n - (ser k).length)
          (Writer.room_mono _ _ _ hroom (by omega))) (by omega)))
      (by omega) space32
    refine ⟨max f1 (max f2 f3), fun F f hF => ?_⟩
    have ef : f + 2 * ((((k', v') :: kvs) : List (Value × Value)).length + 1)
        = (f + 2 * (kvs.length + 1)) + 1 + 1 := by simp; omega
    rw [ef, parse_dict_loop_succ _ _ _ _ _ _ _ _ (h1 F (by omega))]
    have e1 : after_value ([58, 32] ++ (text v ++ (text_more_pairs ((k', v') :: kvs)
        ++ 44 :: tail)))
        = (58, [32] ++ (text v ++ (text_more_pairs ((k', v') :: kvs) ++ 44 :: tail))) :=
      after_value_cons 58 _ (by decide)
    rw [e1]
    have e3 : ¬ ((58 : Int) = 44) := by decide
    simp only [dict_step, if_true, if_false, e3, cur_key_ne_value, dict_ne_set, ne_eq,
      not_true_eq_false]
    rw [parse_dict_loop_succ _ _ _ _ _ _ _ _ (h2 F (by omega))]
    have e4 : after_value (text_more_pairs ((k', v') :: kvs) ++ 44 :: tail)
        = (44, [32] ++ (text k' ++ ([58, 32] ++ (text v' ++ (text_more_pairs kvs
            ++ 44 :: tail))))) := by
      have := after_value_cons 44 ([32] ++ (text k' ++ ([58, 32] ++ (text v'
        ++ (text_more_pairs kvs ++ 44 :: tail))))) (by decide)
      simpa [text_more_pairs] using this
    rw [e4]
    have e7 : ¬ (cnt + 1 + 1 = 1) := by omega
    simp only [dict_step, dict_comma, if_true, if_false, e7, cur_value_ne_key]
    rw [h3 F f (by omega),
      Writer.write_data_append _ _ _
        (Writer.room_write_data _ _ _ (Writer.room_mono _ _ _ hroom (by simp; omega))),
      Writer.write_data_append _ _ _ (Writer.room_mono _ _ _ hroom (by simp; omega))]
    have ec : cnt + 1 + 1 + 2 * (kvs.length + 1)
        = cnt + 2 * ((((k', v') :: kvs) : List (Value × Value)).length + 1) := by simp; omega
    rw [ec]
    simp [ser_pairs]

/-- A mapping of at least one pair followed by `, e` and then `}` or `,`: the error
flag is set and no finalizer is written. -/
theorem full_pass_mixed_dict (fl : FloatLib) (k v : Value) (kvs : List (Value × Value))
    (e : Value) (c : Nat) (tail : List Nat) (hk : k.wf = true) (hv : v.wf = true)
    (hkvs : wf_pairs kvs = true) (he : e.wf = true) (hc : c = 125 ∨ c = 44)
    (W : Writer) (n : Nat) (hroom : W.Room n)
    (hn : (ser_pairs ((k, v) :: kvs)).length + (ser e).length + 5 ≤ n) :
    (Parser.new (123 :: (text_pairs ((k, v) :: kvs) ++ ([44, 32] ++ (text e ++ c :: tail)))) W
        ).full_pass fl
      = .ok ⟨(after_value tail).2,
          W.write_data ([0x80, 0x03, 0x7D, 0x28] ++ ser_pairs ((k, v) :: kvs) ++ ser e ++ [0x2E]),
          true⟩ := by
  simp only [ser_pairs, List.length_append] at hn
  have hW1 : (W.write_data [PROTO, protocol]).Room (n - 2) :=
    Writer.room_write_data W [PROTO, protocol] (n - 2)
      (Writer.room_mono _ _ _ hroom (by simp; omega))
  have hW2 : ((W.write_data [PROTO, protocol]).write_data [EMPTY_DICT, MARK]).Room (n - 4) :=
    Writer.room_write_data _ [EMPTY_DICT, MARK] (n - 4)
      (Writer.room_mono _ _ _ hW1 (by simp; omega))
  have hW3 : (((W.write_data [PROTO, protocol]).write_data [EMPTY_DICT, MARK]).write_data
      (ser k ++ (ser v ++ ser_pairs kvs))).Room (n - 4 - (ser k ++ (ser v ++ ser_pairs kvs)).length) :=
    Writer.room_write_data _ _ _ (Writer.room_mono _ _ _ hW2 (by simp; omega))
  obtain ⟨f1, h1⟩ := dict_loop_prefix fl (W.write_data [PROTO, protocol]).pos kvs
    (good_pairs fl kvs hkvs) k v (good_value fl k hk) (good_value fl v hv)
    ((W.write_data [PROTO, protocol]).write_data [EMPTY_DICT, MARK]) (n - 4)
    ([32] ++ (text e ++ c :: tail)) [] 0 hW2 (by omega) (by simp)
  simp only [List.append_assoc] at h1
  have hcnum' : isnumch (uchar c) = false := by
    rcases hc with rfl | rfl <;> decide
  have hcnum : isnumch (read_next_char (c :: tail)).1 = false := hcnum'
  have hcsp : isspace (uchar c) = false := by
    rcases hc with rfl | rfl <;> decide
  obtain ⟨f2, h2⟩ := good_ws fl e (good_value fl e he) _ _ [32] (c :: tail) hW3
    (by simp; omega) hcnum space32
  obtain ⟨g, hg1, hg2, hg3⟩ : ∃ g, f1 ≤ g ∧ f2 ≤ g ∧ tail.length + 1 ≤ g :=
    ⟨max (max f1 f2) (tail.length + 1), by omega, by omega, by omega⟩
  have hparse : parse_loop fl (g + 1 + 2 * (kvs.length + 1) + 1)
      ⟨123 :: (text_pairs ((k, v) :: kvs) ++ ([44, 32] ++ (text e ++ c :: tail))),
        (W.write_char PROTO).write_char protocol, false⟩ false
      = .ok (⟨(after_value tail).2,
          (((W.write_data [PROTO, protocol]).write_data [EMPTY_DICT, MARK]).write_data
            (ser k ++ (ser v ++ ser_pairs kvs))).write_data (ser e), true⟩,
          (after_value tail).1, true) := by
    rw [parse_loop_brace]
    unfold Parser.parse_dict_or_set
    simp only [Parser.write_char]
    rw [Writer.write_char2 W _ _ n hroom (by omega),
      Writer.write_char2 _ EMPTY_DICT MARK (n - 2) hW1 (by omega)]
    have h1' := h1 (g + 1 + 2 * (kvs.length + 1)) (g + 1) (by omega)
    simp only [List.nil_append, Nat.zero_add] at h1'
    simp only [text_pairs, List.append_assoc, List.cons_append, List.nil_append,
      List.singleton_append] at h1' ⊢
    have h2' := h2 (g + 1 + 2 * (kvs.length + 1)) (by omega)
    simp only [List.append_assoc, List.cons_append, List.nil_append,
      List.singleton_append] at h2'
    rw [h1', parse_dict_loop_succ _ _ _ _ _ _ _ _ h2']
    rw [after_value_cons c tail hcsp]
    have e7 : ¬ (2 * (kvs.length + 1) + 1 = 1) := by omega
    have e8 : (2 * (kvs.length + 1) + 1) % 2 = 1 := by omega
    have hstep : dict_step (W.write_data [PROTO, protocol]).pos
        ⟨tail, (((W.write_data [PROTO, protocol]).write_data [EMPTY_DICT, MARK]).write_data
            (ser k ++ (ser v ++ ser_pairs kvs))).write_data (ser e), false⟩
        ⟨2 * (kvs.length + 1), .Dict, .Key⟩ (uchar c) true
        = .ret ⟨tail, (((W.write_data [PROTO, protocol]).write_data [EMPTY_DICT, MARK]
            ).write_data (ser k ++ (ser v ++ ser_pairs kvs))).write_data (ser e), true⟩ := by
      rcases hc with rfl | rfl
      · have e1 : uchar 125 = 125 := by decide
        have e2 : ¬ ((125 : Int) = 44) := by decide
        have e3 : ¬ ((125 : Int) = 58) := by decide
        simp [dict_step, dict_finish, e1, e2, e3, e7, e8, Parser.parse_error]
      · have e1 : uchar 44 = 44 := by decide
        simp [dict_step, dict_comma, e1, e7, Parser.parse_error]
    rw [hstep]
    simp only []
    rw [parse_loop_after fl _ _ tail _ (by omega)]
  unfold Parser.new
  rw [full_pass_of_parse fl _ W false _ _ hparse]
  simp only [Bool.not_true, Bool.false_eq_true, if_false, Parser.end_, Parser.write_char]
  have r1 := Writer.write_data_append W [PROTO, protocol] [EMPTY_DICT, MARK]
    (Writer.room_mono _ _ _ hroom (by simp; omega))
  rw [r1]
  have r2 := Writer.write_data_append W ([PROTO, protocol] ++ [EMPTY_DICT, MARK])
    (ser k ++ (ser v ++ ser_pairs kvs)) (Writer.room_mono _ _ _ hroom (by simp; omega))
  rw [r2]
  have r3 := Writer.write_data_append W
    ([PROTO, protocol] ++ [EMPTY_DICT, MARK] ++ (ser k ++ (ser v ++ ser_pairs kvs))) (ser e)
    (Writer.room_mono _ _ _ hroom (by simp; omega))
  rw [r3]
  rw [Writer.write_char_eq _ _ (Writer.room_write_data W _ 1
      (Writer.room_mono _ _ _ hroom (by simp; omega))),
    Writer.write_data_append W _ [STOP] (Writer.room_mono _ _ _ hroom (by simp; omega))]
  simp [ser_pairs]

/-- Two set elements followed by `:`: the error flag is set and no finalizer is
written. -/
theorem full_pass_set_colon (fl : FloatLib) (e1 e2 : Value) (tail : List Nat)
    (h1 : e1.wf = true) (h2 : e2.wf = true) (W : Writer) (n : Nat) (hroom : W.Room n)
    (hn : (ser e1).length + (ser e2).length + 5 ≤ n) :
    (Parser.new (123 :: (text e1 ++ ([44, 32] ++ (text e2 ++ 58 :: tail)))) W).full_pass fl
      = .ok ⟨(after_value tail).2,
          W.write_data ([0x80, 0x03, 0x8F, 0x28] ++ ser e1 ++ ser e2 ++ [0x2E]), true⟩ := by
  have hW1 : (W.write_data [PROTO, protocol]).Room (n - 2) :=
    Writer.room_write_data W [PROTO, protocol] (n - 2)
      (Writer.room_mono _ _ _ hroom (by simp; omega))
  have hW2 : ((W.write_data [PROTO, protocol]).write_data [EMPTY_DICT, MARK]).Room (n - 4) :=
    Writer.room_write_data _ [EMPTY_DICT, MARK] (n - 4)
      (Writer.room_mono _ _ _ hW1 (by simp; omega))
  have hW3 : ((W.write_data [PROTO, protocol]).write_data (EMPTY_SET :: (MARK :: ser e1))).Room
      (n - 4 - (ser e1).length) :=
    Writer.room_write_data _ _ _ (Writer.room_mono _ _ _ hW1 (by simp; omega))
  obtain ⟨f1, g1⟩ := good_value fl e1 h1
    ((W.write_data [PROTO, protocol]).write_data [EMPTY_DICT, MARK]) (n - 4)
    ([44, 32] ++ (text e2 ++ 58 :: tail)) hW2 (by omega) (by simp [read_next_char]; decide)
  obtain ⟨f2, g2⟩ := good_ws fl e2 (good_value fl e2 h2) _ _ [32] (58 :: tail) hW3
    (by omega) (by simp [read_next_char]; decide) space32
  obtain ⟨g, hg1, hg2, hg3⟩ : ∃ g, f1 ≤ g ∧ f2 ≤ g ∧ tail.length + 1 ≤ g :=
    ⟨max (max f1 f2) (tail.length + 1), by omega, by omega, by omega⟩
  have hwx : ((W.write_data [PROTO, protocol]).write_data [EMPTY_DICT, MARK]).write_data (ser e1)
      = (W.write_data [PROTO, protocol]).write_data (EMPTY_DICT :: (MARK :: ser e1)) := by
    rw [Writer.write_data_append _ [EMPTY_DICT, MARK] (ser e1)
      (Writer.room_mono _ _ _ hW1 (by simp; omega))]
    rfl
  have hparse : parse_loop fl (g + 2 + 1)
      ⟨123 :: (text e1 ++ ([44, 32] ++ (text e2 ++ 58 :: tail))),
        (W.write_char PROTO).write_char protocol, false⟩ false
      = .ok (⟨(after_value tail).2,
          ((W.write_data [PROTO, protocol]).write_data (EMPTY_SET :: (MARK :: ser e1))
            ).write_data (ser e2), true⟩,
          (after_value tail).1, true) := by
    rw [parse_loop_brace]
    unfold Parser.parse_dict_or_set
    simp only [Parser.write_char]
    rw [Writer.write_char2 W _ _ n hroom (by omega),
      Writer.write_char2 _ EMPTY_DICT MARK (n - 2) hW1 (by omega)]
    rw [parse_dict_loop_succ _ _ _ _ _ _ _ _ (g1 (g + 2) (by omega))]
    have e1' : after_value ([44, 32] ++ (text e2 ++ 58 :: tail))
        = (44, [32] ++ (text e2 ++ 58 :: tail)) := after_value_cons 44 _ (by decide)
    rw [e1', hwx]
    simp only [dict_step, if_true, if_false, Nat.zero_add]
    rw [make_set_backpatch (W.write_data [PROTO, protocol]) (MARK :: ser e1) (n - 2) hW1
      (by simp; omega) _ _ _ rfl]
    simp only [dict_comma, cur_value_ne_key, set_ne_dict, if_false, Bool.false_eq_true]
    rw [parse_dict_loop_succ _ _ _ _ _ _ _ _ (g2 (g + 2) (by omega))]
    rw [after_value_cons 58 tail (by decide)]
    have e3 : uchar 58 = 58 := by decide
    have e4 : ¬ ((58 : Int) = 44) := by decide
    simp only [dict_step, e3, e4, if_true, if_false, ne_eq, cur_value_ne_key,
      not_false_eq_true, Parser.parse_error]
    rw [parse_loop_after fl _ _ tail _ (by omega)]
  unfold Parser.new
  rw [full_pass_of_parse fl _ W false _ _ hparse]
  simp only [Bool.not_true, Bool.false_eq_true, if_false, Parser.end_, Parser.write_char]
  have r1 := Writer.write_data_append W [PROTO, protocol] (EMPTY_SET :: (MARK :: ser e1))
    (Writer.room_mono _ _ _ hroom (by simp; omega))
  rw [r1]
  have r3 := Writer.write_data_append W
    ([PROTO, protocol] ++ (EMPTY_SET :: (MARK :: ser e1))) (ser e2)
    (Writer.room_mono _ _ _ hroom (by simp; omega))
  rw [r3]
  rw [Writer.write_char_eq _ _ (Writer.room_write_data W _ 1
      (Writer.room_mono _ _ _ hroom (by simp; omega))),
    Writer.write_data_append W _ [STOP] (Writer.room_mono _ _ _ hroom (by simp; omega))]
  simp

/-- C8: a brace literal of mixed shape is rejected.  For well-formed values, an input
that starts with `{k: v, ..., e` (at least one pair, then one more value) followed by
`}` or `,` sets the error flag, and so does an input that starts with `{k, e`
followed by `:`; the output holds the header `7D 28` (or `8F 28`) and the children,
and neither finalizer `75` nor `90` follows them. -/
theorem C8_mixed_shape_rejected (fl : FloatLib) (k v e : Value) (kvs : List (Value × Value))
    (tail : List Nat) (hk : k.wf = true) (hv : v.wf = true) (hkvs : wf_pairs kvs = true)
    (he : e.wf = true) :
    (∀ c, c = 125 ∨ c = 44 →
      run_output fl
          (123 :: (text_pairs ((k, v) :: kvs) ++ ([44, 32] ++ (text e ++ c :: tail))))
          Writer.new_file
        = some ([0x80, 0x03, 0x7D, 0x28] ++ ser_pairs ((k, v) :: kvs) ++ ser e ++ [0x2E], true))
      ∧ run_output fl (123 :: (text k ++ ([44, 32] ++ (text e ++ 58 :: tail)))) Writer.new_file
        = some ([0x80, 0x03, 0x8F, 0x28] ++ ser k ++ ser e ++ [0x2E], true) := by
  constructor
  · intro c hc
    unfold run_output
    rw [full_pass_mixed_dict fl k v kvs e c tail hk hv hkvs he hc _ _
      (Writer.room_new_file _) (le_refl _)]
    simp only []
    rw [Writer.output_write_data _ _ (Writer.room_new_file _), Writer.output_new_file]
    rfl
  · unfold run_output
    rw [full_pass_set_colon fl k e tail hk he _ _ (Writer.room_new_file _) (le_refl _)]
    simp only []
    rw [Writer.output_write_data _ _ (Writer.room_new_file _), Writer.output_new_file]
    rfl

theorem C8_witness :
    run_output FloatLib.throwing (bytes_of "{1: 2, 3}") Writer.new_file
        = some ([0x80, 0x03, 0x7D, 0x28, 0x4B, 0x01, 0x4B, 0x02, 0x4B, 0x03, 0x2E], true)
      ∧ run_output FloatLib.throwing (bytes_of "\x7b1: 2, 3,") Writer.new_file
        = some ([0x80, 0x03, 0x7D, 0x28, 0x4B, 0x01, 0x4B, 0x02, 0x4B, 0x03, 0x2E], true)
      ∧ run_output FloatLib.throwing (bytes_of "\x7b1, 3:") Writer.new_file
        = some ([0x80, 0x03, 0x8F, 0x28, 0x4B, 0x01, 0x4B, 0x03, 0x2E], true) :=
  ⟨(C8_mixed_shape_rejected FloatLib.throwing (.int 1) (.int 2) (.int 3) [] [] (by decide)
      (by decide) (by decide) (by decide)).1 125 (Or.inl rfl),
   (C8_mixed_shape_rejected FloatLib.throwing (.int 1) (.int 2) (.int 3) [] [] (by decide)
      (by decide) (by decide) (by decide)).1 44 (Or.inr rfl),
   (C8_mixed_shape_rejected FloatLib.throwing (.int 1) (.int 2) (.int 3) [] [] (by decide)
      (by decide) (by decide) (by decide)).2⟩

/-! ## The code at the inputs where a property fails -/

/-- C2 at `4294967296` and `2147483648`: `full_pass` accepts both texts with the error
flag clear, and writes for `4294967296` the bytes it writes for `0` (`4B 00`), and
for `2147483648` the bytes it writes for `-2147483648` (`4A 00 00 00 80`): the
integer is cut to its low four bytes, so no decoder gives back the value. -/
theorem C2_integer_truncated :
    run_output FloatLib.throwing (bytes_of "4294967296") Writer.new_file
        = some ([0x80, 0x03, 0x4B, 0x00, 0x2E], false)
      ∧ run_output FloatLib.throwing (bytes_of "0") Writer.new_file
        = some ([0x80, 0x03, 0x4B, 0x00, 0x2E], false)
      ∧ run_output FloatLib.throwing (bytes_of "2147483648") Writer.new_file
        = some ([0x80, 0x03, 0x4A, 0x00, 0x00, 0x00, 0x80, 0x2E], false)
      ∧ run_output FloatLib.throwing (bytes_of "-2147483648") Writer.new_file
        = some ([0x80, 0x03, 0x4A, 0x00, 0x00, 0x00, 0x80, 0x2E], false) := by
  decide

/-- C6 at the tokens `[`, `[`, `1`, `",'"`, `'x'`: without whitespace the output is
`80 03 5D 28 5D 28 4B 01 8C 01 22 2E`, with one space before the last token it is
`80 03 5D 28 5D 28 4B 01 8C 02 22 20 2E`; the error flag is set in both runs. -/
theorem C6_whitespace_after_error :
    run_output FloatLib.throwing (bytes_of "[[1\",'\"'x'") Writer.new_file
        = some ([0x80, 0x03, 0x5D, 0x28, 0x5D, 0x28, 0x4B, 0x01, 0x8C, 0x01, 0x22, 0x2E], true)
      ∧ run_output FloatLib.throwing (bytes_of "[[1\",'\" 'x'") Writer.new_file
        = some ([0x80, 0x03, 0x5D, 0x28, 0x5D, 0x28, 0x4B, 0x01, 0x8C, 0x02, 0x22, 0x20, 0x2E],
            true) := by
  decide

/-- C10 at `[}` and `[[}, 1]`: `parse_list` returns on `}` with the error flag set and
the output `80 03 5D 28`, and `full_pass` then writes the stop opcode `2E`; on
`[[}, 1]` the outer list goes on after the error of the inner one and writes
`4B 01`, `65` and `2E`. -/
theorem C10_output_after_error :
    Parser.parse_list (fun Q => parse_loop FloatLib.throwing 2 Q false) 2
        ⟨bytes_of "\x7d", Writer.new_file.write_data [0x80, 0x03], false⟩
        = .ok ⟨[], Writer.new_file.write_data [0x80, 0x03, 0x5D, 0x28], true⟩
      ∧ run_output FloatLib.throwing (bytes_of "[\x7d") Writer.new_file
        = some ([0x80, 0x03, 0x5D, 0x28, 0x2E], true)
      ∧ run_output FloatLib.throwing (bytes_of "[[\x7d, 1]") Writer.new_file
        = some ([0x80, 0x03, 0x5D, 0x28, 0x5D, 0x28, 0x4B, 0x01, 0x65, 0x2E], true) := by
  decide

/-! ## The bounded writer (C17) -/

theorem store_getElem_in (buf : List Nat) (pos : Nat) (bytes : List Nat) (h : pos ≤ buf.length)
    (i : Nat) (hi : i < bytes.length) : (store buf pos bytes)[pos + i]? = bytes[i]? := by
  rw [store_eq buf pos bytes h]
  have hl : (List.take pos buf).length = pos := by simp; omega
  rw [List.append_assoc, List.getElem?_append_right (by omega)]
  rw [List.getElem?_append_left (by omega)]
  congr 1
  omega

theorem store_getElem_out (buf : List Nat) (pos : Nat) (bytes : List Nat)
    (h : pos + bytes.length ≤ buf.length)
    (j : Nat) (hj : j < pos ∨ pos + bytes.length ≤ j) : (store buf pos bytes)[j]? = buf[j]? := by
  rw [store_eq buf pos bytes (by omega)]
  rcases hj with hj | hj
  · have hl : (List.take pos buf).length = pos := by simp; omega
    rw [List.append_assoc, List.getElem?_append_left (by omega)]
    rw [List.getElem?_take_of_lt hj]
  · have hl : (List.take pos buf ++ bytes).length = pos + bytes.length := by simp; omega
    rw [List.getElem?_append_right (by omega)]
    rw [List.getElem?_drop, hl]
    congr 1
    omega

theorem MemWriter.write_char_eq_data (m : MemWriter) (c : Nat) :
    m.write_char c = m.write_data [c] := by
  unfold MemWriter.write_char MemWriter.write_data
  by_cases h : m.p ≥ m.size
  · have h2 : m.p + [c].length > m.size := by simp; omega
    rw [if_pos h, if_pos h2]
  · have h2 : ¬ (m.p + [c].length > m.size) := by simp; omega
    rw [if_neg h, if_neg h2]
    rfl

/-- C17: the bounded writer contract.  For a `MemWriter` whose position is within its
capacity (and whose buffer holds `size` bytes), `write_data` of bytes that fit copies them
to the offsets `[p, p + len)`, leaves every other byte, the capacity and the overflow flag
as they were and advances the position by `len`; when they do not fit it only sets the
overflow flag.  `write_char` is `write_data` of one byte.  The position stays within the
capacity and a set overflow flag stays set. -/
theorem C17_mem_writer_contract (m : MemWriter) (d : List Nat) (c : Nat)
    (hp : m.p ≤ m.size) (hs : m.size ≤ m.data.length) :
    (m.p + d.length ≤ m.size →
      (∀ i, i < d.length → (m.write_data d).data[m.p + i]? = d[i]?) ∧
      (∀ j, j < m.p ∨ m.p + d.length ≤ j → (m.write_data d).data[j]? = m.data[j]?) ∧
      (m.write_data d).data.length = m.data.length ∧
      (m.write_data d).got_error = m.got_error ∧
      (m.write_data d).p = m.p + d.length ∧
      (m.write_data d).size = m.size) ∧
    (m.p + d.length > m.size →
      m.write_data d = { m with got_error := true }) ∧
    m.write_char c = m.write_data [c] ∧
    (m.write_data d).p ≤ (m.write_data d).size ∧
    (m.write_char c).p ≤ (m.write_char c).size ∧
    (m.got_error = true → (m.write_data d).got_error = true ∧ (m.write_char c).got_error = true) := by
  refine ⟨?_, ?_, MemWriter.write_char_eq_data m c, ?_, ?_, ?_⟩
  · intro hfit
    have h2 : ¬ (m.p + d.length > m.size) := by omega
    unfold MemWriter.write_data
    rw [if_neg h2]
    refine ⟨?_, ?_, ?_, rfl, rfl, rfl⟩
    · intro i hi
      exact store_getElem_in m.data m.p d (by omega) i hi
    · intro j hj
      exact store_getElem_out m.data m.p d (by omega) j hj
    · exact store_length m.data m.p d (by omega)
  · intro hov
    unfold MemWriter.write_data
    rw [if_pos hov]
    rfl
  · unfold MemWriter.write_data
    split
    · exact hp
    · simp only; omega
  · unfold MemWriter.write_char
    split
    · exact hp
    · simp only; omega
  · intro he
    unfold MemWriter.write_char MemWriter.write_data MemWriter._overflow_error
    constructor <;> split <;> simp [he]

/-- C17 at a four-byte buffer: a write that fits, and one that does not. -/
theorem C17_witness :
    (MemWriter.write_data ⟨[9, 9, 9, 9], 4, 1, false⟩ [7, 8]) = ⟨[9, 7, 8, 9], 4, 3, false⟩ ∧
    (MemWriter.write_data ⟨[9, 9, 9, 9], 4, 3, false⟩ [7, 8]) = ⟨[9, 9, 9, 9], 4, 3, true⟩ ∧
    (MemWriter.write_data ⟨[9, 9, 9, 9], 4, 1, false⟩ [7, 8]).p = 3 :=
  ⟨by decide, by decide,
   ((C17_mem_writer_contract ⟨[9, 9, 9, 9], 4, 1, false⟩ [7, 8] 0 (by decide) (by decide)).1
      (by decide)).2.2.2.2.1⟩

/-! ## Termination (C19) -/

theorem full_pass_ne_fuel (fl : FloatLib) (P : Parser) : P.full_pass fl ≠ .fuel := by
  unfold Parser.full_pass Parser.parse
  simp only []
  have h := (parse_loop_total fl (budget P.start) P.start false
    (by simp [budget]; omega)).1
  split
  · split <;> simp
  · simp
  · rename_i heq
    exact absurd heq h

theorem memReader_read_unread (r : MemReader) (hs : r.size = r.data.length) :
    read_next_char r.unread = (r.read_next_char.1, r.read_next_char.2.unread) := by
  unfold MemReader.read_next_char MemReader.unread
  by_cases h : r.p ≥ r.size
  · rw [if_pos h, List.drop_eq_nil_of_le (by omega)]
    rfl
  · rw [if_neg h]
    have hlt : r.p < r.data.length := by omega
    rw [List.drop_eq_getElem_cons hlt]
    simp only [read_next_char]
    rw [List.getD_eq_getElem _ _ hlt]

theorem memReader_read_bounds (r : MemReader) (hp : r.p ≤ r.size) :
    r.read_next_char.2.p ≤ r.read_next_char.2.size ∧
    r.p ≤ r.read_next_char.2.p ∧
    r.read_next_char.2.size = r.size ∧
    r.read_next_char.2.data = r.data ∧
    (r.p < r.size → r.read_next_char.2.p = r.p + 1 ∧ 0 ≤ r.read_next_char.1) ∧
    (r.p = r.size → r.read_next_char = (EOF, r)) := by
  unfold MemReader.read_next_char
  by_cases h : r.p ≥ r.size
  · rw [if_pos h]
    refine ⟨hp, le_refl _, rfl, rfl, fun h2 => by omega, fun _ => rfl⟩
  · rw [if_neg h]
    refine ⟨by simp only; omega, by simp only; omega, rfl, rfl, fun _ => ⟨rfl, ?_⟩, fun h2 => by omega⟩
    simp only [uchar]
    omega

/-- C19: `full_pass` ends on every input, with a result or with an exception of the
numeric conversion, never by running out of recursion budget.  The measure is the number
of unread bytes: with a budget above it `parse` ends, never leaves more bytes unread
than it found, and has read at least one byte whenever it does not return the
end-of-input sentinel.  A `MemReader` keeps `p ≤ size`, never moves its position back,
advances it by one on every byte it yields and stays put once it yields `EOF`; read
through it, the input is the list of unread bytes that the parser consumes. -/
theorem C19_full_pass_terminates (fl : FloatLib) :
    (∀ P : Parser, P.full_pass fl ≠ .fuel) ∧
    (∀ (f : Nat) (P : Parser) (had : Bool), P.reader.length < f →
      parse_loop fl f P had ≠ .fuel ∧
      ∀ Q c b, parse_loop fl f P had = .ok (Q, c, b) →
        Q.reader.length ≤ P.reader.length ∧ (0 ≤ c → Q.reader.length < P.reader.length)) ∧
    (∀ r : MemReader, r.p ≤ r.size →
      r.read_next_char.2.p ≤ r.read_next_char.2.size ∧
      r.p ≤ r.read_next_char.2.p ∧
      r.read_next_char.2.size = r.size ∧
      r.read_next_char.2.data = r.data ∧
      (r.p < r.size → r.read_next_char.2.p = r.p + 1 ∧ 0 ≤ r.read_next_char.1) ∧
      (r.p = r.size → r.read_next_char = (EOF, r))) ∧
    (∀ r : MemReader, r.size = r.data.length →
      read_next_char r.unread = (r.read_next_char.1, r.read_next_char.2.unread)) :=
  ⟨full_pass_ne_fuel fl, parse_loop_total fl, memReader_read_bounds, memReader_read_unread⟩

/-- C19 at the input `[1, [2]]`: the pass ends, and the first read of a `MemReader`
on it moves the position from 0 to 1. -/
theorem C19_witness :
    (Parser.new (bytes_of "[1, [2]]") Writer.new_file).full_pass FloatLib.throwing ≠ .fuel ∧
    (MemReader.read_next_char ⟨bytes_of "[1, [2]]", 8, 0⟩).2.p = 1 :=
  ⟨(C19_full_pass_terminates FloatLib.throwing).1 _,
   (((C19_full_pass_terminates FloatLib.throwing).2.2.1 ⟨bytes_of "[1, [2]]", 8, 0⟩
      (by decide)).2.2.2.2.1 (by decide)).1⟩

/-! ## Properties that every action of the parser keeps -/

theorem parse_str_inv {I : Parser → Prop} {J : Nat → Prop} (hI : Preserved I J)
    (P : Parser) (q : Int) (h : I P) : I (P.parse_str q) := by
  unfold Parser.parse_str
  split
  · exact hI.parse_error _ (hI.reader _ _ h)
  · exact hI.write_data _ _ (hI.write_data _ _ (hI.reader _ _ h))

theorem parse_num_inv {I : Parser → Prop} {J : Nat → Prop} (hI : Preserved I J)
    (fl : FloatLib) (P Q : Parser) (first c : Int)
    (hr : P.parse_num fl first = .ok (Q, c)) (h : I P) : I Q := by
  unfold Parser.parse_num at hr
  revert hr
  rcases parse_num_scan P.reader false [toByte first] with ⟨c', isf, buf, rest⟩
  simp only []
  intro hr
  split_ifs at hr
  · split at hr
    · cases hr
    · simp only [Res.ok.injEq, Prod.mk.injEq] at hr
      rw [← hr.1]
      exact hI.write_data _ _ (hI.reader _ _ h)
  · split at hr
    · cases hr
    · simp only [Res.ok.injEq, Prod.mk.injEq] at hr
      rw [← hr.1]
      exact hI.write_data _ _ (hI.reader _ _ h)

theorem make_set_inv {I : Parser → Prop} {J : Nat → Prop} (hI : Preserved I J)
    (s : Nat) (P : Parser) (d : DictState) (h : I P) (hs : J s) : I (make_set s P d).1 := by
  unfold make_set
  split_ifs
  · exact hI.parse_error _ h
  · exact hI.backpatch P s EMPTY_SET h hs

theorem dict_finish_inv {I : Parser → Prop} {J : Nat → Prop} (hI : Preserved I J)
    (P : Parser) (d : DictState) (h : I P) : I (dict_finish P d) := by
  unfold dict_finish
  split_ifs
  · exact hI.parse_error _ h
  · exact hI.write_char _ _ h
  · exact hI.write_char _ _ h

theorem dict_comma_inv {I : Parser → Prop} {J : Nat → Prop} (hI : Preserved I J)
    (P : Parser) (d : DictState) (h : I P) : I (dict_comma P d).parser := by
  unfold dict_comma
  split_ifs
  · exact hI.parse_error _ h
  · exact h
  · exact h

theorem dict_step_inv {I : Parser → Prop} {J : Nat → Prop} (hI : Preserved I J)
    (s : Nat) (P : Parser) (d : DictState) (c : Int) (b : Bool) (h : I P) (hs : J s) :
    I (dict_step s P d c b).parser := by
  unfold dict_step
  simp only []
  split_ifs
  all_goals first
    | exact make_set_inv hI s P _ h hs
    | exact dict_comma_inv hI _ _ (make_set_inv hI s P _ h hs)
    | exact dict_finish_inv hI _ _ (make_set_inv hI s P _ h hs)
    | exact dict_comma_inv hI _ _ h
    | exact dict_finish_inv hI _ _ h
    | exact hI.parse_error _ h
    | exact h

theorem parse_list_loop_inv {I : Parser → Prop} {J : Nat → Prop} (hI : Preserved I J)
    (parse : Parser → Res ParseOut)
    (hp : ∀ P Q c b, parse P = .ok (Q, c, b) → I P → I Q) :
    ∀ (f : Nat) (P Q : Parser), parse_list_loop parse f P = .ok Q → I P → I Q := by
  intro f
  induction f with
  | zero => intro P Q h; simp [parse_list_loop] at h
  | succ f ih =>
    intro P Q h hP
    unfold parse_list_loop at h
    split at h
    · rename_i P1 c b heq
      have h1 := hp _ _ _ _ heq hP
      split_ifs at h
      · exact ih _ _ h h1
      · cases h; exact hI.write_char _ _ h1
      · cases h; exact hI.parse_error _ h1
    · cases h
    · cases h

theorem parse_dict_loop_inv {I : Parser → Prop} {J : Nat → Prop} (hI : Preserved I J)
    (parse : Parser → Res ParseOut) (s : Nat) (hs : J s)
    (hp : ∀ P Q c b, parse P = .ok (Q, c, b) → I P → I Q) :
    ∀ (f : Nat) (P Q : Parser) (d : DictState),
      parse_dict_loop parse s f P d = .ok Q → I P → I Q := by
  intro f
  induction f with
  | zero => intro P Q d h; simp [parse_dict_loop] at h
  | succ f ih =>
    intro P Q d h hP
    unfold parse_dict_loop at h
    split at h
    · rename_i P1 c b heq
      have h1 := hp _ _ _ _ heq hP
      have h2 := dict_step_inv hI s P1 d c b h1 hs
      split at h
      · rename_i P2 heq2
        rw [heq2] at h2
        cases h; exact h2
      · rename_i P2 d2 heq2
        rw [heq2] at h2
        exact ih _ _ _ h h2
    · cases h
    · cases h

theorem parse_loop_inv {I : Parser → Prop} {J : Nat → Prop} (hI : Preserved I J)
    (fl : FloatLib) :
    ∀ (f : Nat) (P : Parser) (had : Bool) (Q : Parser) (c : Int) (b : Bool),
      parse_loop fl f P had = .ok (Q, c, b) → I P → I Q := by
  intro f
  induction f with
  | zero => intro P had Q c b h; simp [parse_loop] at h
  | succ f ih =>
    intro P had Q c b h hP
    unfold parse_loop at h
    split at h
    · cases h; exact hP
    · rename_i x rest hx
      simp only [] at h
      have hR : I { P with reader := rest } := hI.reader _ _ hP
      split_ifs at h
      · exact ih _ _ _ _ _ h hR
      · cases h; exact hR
      · exact ih _ _ _ _ _ h (parse_str_inv hI _ _ hR)
      · split at h
        · rename_i P1 heq
          refine ih _ _ _ _ _ h ?_
          unfold Parser.parse_list at heq
          exact parse_list_loop_inv hI _ (fun A B c b hh hA => ih A false B c b hh hA) _ _ _ heq
            (hI.write_char _ _ (hI.write_char _ _ hR))
        · cases h
        · cases h
      · split at h
        · rename_i P1 heq
          refine ih _ _ _ _ _ h ?_
          unfold Parser.parse_dict_or_set at heq
          exact parse_dict_loop_inv hI _ _ (hI.pos _ hR)
            (fun A B c b hh hA => ih A false B c b hh hA) _ _ _ _ heq
            (hI.write_char _ _ (hI.write_char _ _ hR))
        · cases h
        · cases h
      · split at h
        · rename_i P1 c1 heq
          have h1 := parse_num_inv hI fl _ _ _ _ heq hR
          split_ifs at h
          · cases h; exact h1
          · exact ih _ _ _ _ _ h h1
        · cases h
        · cases h
      · cases h; exact hR

theorem full_pass_inv {I : Parser → Prop} {J : Nat → Prop} (hI : Preserved I J)
    (fl : FloatLib) (P Q : Parser) (h : P.full_pass fl = .ok Q) (hP : I P) : I Q := by
  unfold Parser.full_pass Parser.parse at h
  simp only [] at h
  have h0 : I P.start := hI.write_char _ _ (hI.write_char _ _ hP)
  split at h
  · rename_i P1 c b heq
    have h1 := parse_loop_inv hI fl _ _ _ _ _ _ heq h0
    split_ifs at h
    · cases h; exact hI.parse_error _ h1
    · cases h; exact hI.write_char _ _ h1
  · cases h
  · cases h

/-! ## After an overflow of the bounded writer (C15) -/

theorem overflowed_write_char (S : Nat) (W : Writer) (c : Nat) (h : Overflowed S W) :
    Overflowed S (W.write_char c) := by
  cases W with
  | file w => exact h.elim
  | mem m =>
    obtain ⟨h1, h2, h3⟩ := h
    simp only [Writer.write_char, MemWriter.write_char, MemWriter._overflow_error, Overflowed]
    split_ifs
    · exact ⟨h1, h2, rfl⟩
    · exact ⟨h1, by simp only; omega, h3⟩

theorem overflowed_write_data (S : Nat) (W : Writer) (d : List Nat) (h : Overflowed S W) :
    Overflowed S (W.write_data d) := by
  cases W with
  | file w => exact h.elim
  | mem m =>
    obtain ⟨h1, h2, h3⟩ := h
    simp only [Writer.write_data, MemWriter.write_data, MemWriter._overflow_error, Overflowed]
    split_ifs
    · exact ⟨h1, h2, rfl⟩
    · exact ⟨h1, by simp only; omega, h3⟩

theorem overflowed_pos (S : Nat) (W : Writer) (h : Overflowed S W) : W.pos ≤ S := by
  cases W with
  | file w => exact h.elim
  | mem m => exact h.2.1

theorem overflowed_seek (S : Nat) (W : Writer) (s : Nat) (h : Overflowed S W) (hs : s ≤ S) :
    Overflowed S (W.seek s) := by
  cases W with
  | file w => exact h.elim
  | mem m => exact ⟨h.1, hs, h.2.2⟩

theorem overflowed_preserved (S : Nat) :
    Preserved (fun P => Overflowed S P.writer) (fun s => s ≤ S) where
  reader := fun _ _ h => h
  write_char := fun P c h => overflowed_write_char S P.writer c h
  write_data := fun P d h => overflowed_write_data S P.writer d h
  parse_error := fun _ h => h
  pos := fun P h => overflowed_pos S P.writer h
  backpatch := fun P s c h hs =>
    overflowed_seek S _ _ (overflowed_write_char S _ c (overflowed_seek S _ s h hs))
      (overflowed_pos S P.writer h)

/-- C15 fails at the input `[-1, 2]` with a buffer of five bytes.  The write of the
five bytes of `-1` at position 4 sets the overflow flag.  From that state the parser
goes on: it reads the rest ` 2]` of the input to its end, and the later one-byte write
of `APPENDS` is stored at offset 4 and moves the position to 5. -/
theorem C15_counterexample :
    Parser.parse_num FloatLib.throwing
        ⟨bytes_of "1, 2]", .mem ⟨[0x80, 3, 0x5D, 0x28, 0], 5, 4, false⟩, false⟩ 45
      = .ok (⟨bytes_of " 2]", .mem ⟨[0x80, 3, 0x5D, 0x28, 0], 5, 4, true⟩, false⟩, 44) ∧
    parse_list_loop (fun Q => parse_loop FloatLib.throwing 7 Q false) 7
        ⟨bytes_of " 2]", .mem ⟨[0x80, 3, 0x5D, 0x28, 0], 5, 4, true⟩, false⟩
      = .ok ⟨[], .mem ⟨[0x80, 3, 0x5D, 0x28, 0x65], 5, 5, true⟩, false⟩ ∧
    (Parser.new (bytes_of "[-1, 2]") (Writer.new_mem [0, 0, 0, 0, 0] 5)).full_pass
        FloatLib.throwing
      = .ok ⟨[], .mem ⟨[0x80, 3, 0x5D, 0x28, 0x65], 5, 5, true⟩, false⟩ := by
  decide

/-! ## UTF-8 (C16) -/

/-- C16 fails at the input `"\xff"` (six ASCII bytes, hence valid UTF-8): the pass ends
with the error flag clear and writes the string opcode `8C 01` with the one-byte
payload `FF`, which is not valid UTF-8.  The same holds of `parse_str` alone. -/
theorem C16_hex_escape_not_utf8 :
    utf8_valid (bytes_of "\"\\xff\"") = true ∧
    run_output FloatLib.throwing (bytes_of "\"\\xff\"") Writer.new_file
      = some ([0x80, 3, 0x8C, 1, 0xFF, 0x2E], false) ∧
    parse_str_scan 34 (bytes_of "\\xff\"") .Direct 0 0 [] = (some [0xFF], []) ∧
    utf8_valid [0xFF] = false := by
  decide

/-! ## The flag parsed?, the set demotion and the numeric conversion (C11, C12, C18) -/

theorem parse_loop_had_true (fl : FloatLib) :
    ∀ (f : Nat) (P Q : Parser) (c : Int) (b : Bool),
      parse_loop fl f P true = .ok (Q, c, b) →
        b = true ∧ Q.writer = P.writer ∧ Q.got_error = P.got_error := by
  intro f
  induction f with
  | zero => intro P Q c b h; simp [parse_loop] at h
  | succ f ih =>
    intro P Q c b h
    unfold parse_loop at h
    split at h
    · cases h; exact ⟨rfl, rfl, rfl⟩
    · simp only [if_true] at h
      split_ifs at h
      · have := ih _ _ _ _ h
        exact this
      · cases h; exact ⟨rfl, rfl, rfl⟩

theorem parse_loop_not_parsed (fl : FloatLib) :
    ∀ (f : Nat) (P Q : Parser) (c : Int),
      parse_loop fl f P false = .ok (Q, c, false) →
        Q.writer = P.writer ∧ Q.got_error = P.got_error := by
  intro f
  induction f with
  | zero => intro P Q c h; simp [parse_loop] at h
  | succ f ih =>
    intro P Q c h
    unfold parse_loop at h
    split at h
    · cases h; exact ⟨rfl, rfl⟩
    · simp only [Bool.false_eq_true, if_false] at h
      split_ifs at h
      · have := ih _ _ _ h
        exact this
      · have := parse_loop_had_true fl _ _ _ _ _ h
        exact absurd this.1 (by simp)
      · split at h
        · exact absurd (parse_loop_had_true fl _ _ _ _ _ h).1 (by simp)
        · cases h
        · cases h
      · split at h
        · exact absurd (parse_loop_had_true fl _ _ _ _ _ h).1 (by simp)
        · cases h
        · cases h
      · split at h
        · split_ifs at h
          · simp at h
          · exact absurd (parse_loop_had_true fl _ _ _ _ _ h).1 (by simp)
        · cases h
        · cases h
      · cases h; exact ⟨rfl, rfl⟩

/-- C11 fails after a parse error.  On the unterminated string `"ab` the routine
`parse` returns `parsed? = true` although `parse_str` has failed and nothing was
written; on `[}` it returns `parsed? = true` with only the header `5D 28` of the list
written, no finalizer.  In both runs the error flag is set.  The other half of the
claim holds: when `parse` returns `parsed? = false` it has left the writer (and the
error flag) as they were. -/
theorem C11_parsed_after_error :
    parse_loop FloatLib.throwing 4 (Parser.new (bytes_of "\"ab") Writer.new_file) false
      = .ok (⟨[], Writer.new_file, true⟩, EOF, true) ∧
    parse_loop FloatLib.throwing 4 (Parser.new (bytes_of "[\x7d") Writer.new_file) false
      = .ok (⟨[], .file ⟨[0x5D, 0x28], 2⟩, true⟩, EOF, true) ∧
    (∀ (fl : FloatLib) (f : Nat) (P Q : Parser) (c : Int),
      parse_loop fl f P false = .ok (Q, c, false) →
        Q.writer = P.writer ∧ Q.got_error = P.got_error) :=
  ⟨by decide, by decide, parse_loop_not_parsed⟩

/-- C12 fails at the input `{1: }`.  After `1` and `:` the container is in the Value
position with one child counted; on `}` the loop body still calls `make_set`, which
overwrites the header `7D` at offset 2 by `8F`.  The pass ends with the error flag clear
and the bytes of the set `{1}`. -/
theorem C12_set_after_colon :
    dict_step 2 ⟨[], .file ⟨[0x80, 3, 0x7D, 0x28, 0x4B, 1], 6⟩, false⟩
        ⟨1, .Dict, .Value⟩ 125 false
      = .ret ⟨[], .file ⟨[0x80, 3, 0x8F, 0x28, 0x4B, 1, 0x90], 7⟩, false⟩ ∧
    run_output FloatLib.throwing (bytes_of "{1: }") Writer.new_file
      = some ([0x80, 3, 0x8F, 0x28, 0x4B, 1, 0x90, 0x2E], false) ∧
    run_output FloatLib.throwing (bytes_of "{1}") Writer.new_file
      = some ([0x80, 3, 0x8F, 0x28, 0x4B, 1, 0x90, 0x2E], false) := by
  decide

/-- C18 fails at the input `1-2`.  The whole text `1-2` is collected and handed to
`std::stol`, which converts the leading `1` and does not throw: the pass ends with the
error flag clear and has written the integer opcode `4B 01`.  The text `..` is collected
whole as a float literal for `std::stod`. -/
theorem C18_stol_accepts_prefix :
    parse_num_scan (bytes_of "-2") false [49] = (EOF, false, bytes_of "1-2", []) ∧
    stol (bytes_of "1-2") = some 1 ∧
    run_output FloatLib.throwing (bytes_of "1-2") Writer.new_file
      = some ([0x80, 3, 0x4B, 1, 0x2E], false) ∧
    parse_num_scan (bytes_of ".") false [46] = (EOF, true, bytes_of "..", []) := by
  decide

/-! ## The output buffer of py_to_pickle (C20) -/

/-- C20 fails at the input `[-1,-1, ... ,-1]` with 498 integers, a valid list literal
of n = 1495 bytes: every `-1` (three input bytes with its comma) takes five output
bytes, so the pass has 2496 = n + 1001 bytes to write, as the position of an unbounded
writer shows.  In the buffer of n + 1000 = 2495 bytes that `py_to_pickle` allocates,
the last write, that of `STOP`, finds the position at the capacity: the overflow flag
is set while the parser's error flag stays clear.  With 497 integers the buffer
suffices. -/
theorem C20_buffer_too_small :
    (minus_ones 497).length = 1495 ∧
    Res.summary (py_to_pickle FloatLib.throwing (minus_ones 497))
      = some ([], false, true, 2495) ∧
    Res.summary ((Parser.new (minus_ones 497) Writer.new_file).full_pass FloatLib.throwing)
      = some ([], false, false, 2496) ∧
    Res.summary (py_to_pickle FloatLib.throwing (minus_ones 496))
      = some ([], false, false, 2491) := by
  decide!

/-! ## Input that follows the text read (C14) -/

theorem flag_preserved : Preserved (fun P => P.got_error = true) (fun _ => True) where
  reader := fun _ _ h => h
  write_char := fun _ _ h => h
  write_data := fun _ _ h => h
  parse_error := fun _ _ => rfl
  pos := fun _ _ => trivial
  backpatch := fun _ _ _ h _ => h

theorem parse_str_scan_more (q : Int) (Y : List Nat) :
    ∀ (inp : List Nat) (mode : EscapeMode) (hp h : Int) (buf r rest : List Nat),
      parse_str_scan q inp mode hp h buf = (some r, rest) →
      parse_str_scan q (inp ++ Y) mode hp h buf = (some r, rest ++ Y) := by
  intro inp
  induction inp with
  | nil => intro mode hp h buf r rest hs; simp [parse_str_scan] at hs
  | cons b t ih =>
    intro mode hp h buf r rest hs
    rw [List.cons_append]
    unfold parse_str_scan at hs ⊢
    simp only [] at hs ⊢
    split at hs
    · split_ifs at hs ⊢
      · simp only [Prod.mk.injEq, Option.some.injEq] at hs
        rw [hs.1, hs.2]
      · exact ih _ _ _ _ _ _ hs
      · exact ih _ _ _ _ _ _ hs
    · split_ifs at hs ⊢
      all_goals first
        | exact ih _ _ _ _ _ _ hs
        | (simp at hs)
    · split_ifs at hs ⊢
      all_goals first
        | exact ih _ _ _ _ _ _ hs
        | (simp at hs)

theorem parse_str_more (P : Parser) (q : Int) (Y : List Nat)
    (h : (P.parse_str q).got_error = false) :
    (P.more Y).parse_str q = (P.parse_str q).more Y := by
  unfold Parser.parse_str at h ⊢
  split at h
  · simp [Parser.parse_error] at h
  · rename_i buf rest heq
    simp only [Parser.more]
    rw [parse_str_scan_more q Y _ _ _ _ _ _ _ heq]
    rfl

theorem parse_num_scan_more (Y : List Nat) :
    ∀ (inp : List Nat) (f : Bool) (buf : List Nat) (c : Int) (g : Bool) (r rest : List Nat),
      parse_num_scan inp f buf = (c, g, r, rest) → 0 ≤ c →
      parse_num_scan (inp ++ Y) f buf = (c, g, r, rest ++ Y) := by
  intro inp
  induction inp with
  | nil =>
    intro f buf c g r rest hs hc
    simp only [parse_num_scan, Prod.mk.injEq] at hs
    rw [← hs.1] at hc
    exact absurd hc (by decide)
  | cons b t ih =>
    intro f buf c g r rest hs hc
    rw [List.cons_append]
    unfold parse_num_scan at hs ⊢
    simp only [] at hs ⊢
    split_ifs at hs ⊢
    · exact ih _ _ _ _ _ _ hs hc
    · simp only [Prod.mk.injEq] at hs
      obtain ⟨h1, h2, h3, h4⟩ := hs
      rw [h1, h2, h3, h4]

theorem parse_num_scan_eof (X : List Nat) :
    ∀ (inp : List Nat) (f : Bool) (buf : List Nat) (c : Int) (g : Bool) (r rest : List Nat),
      parse_num_scan inp f buf = (c, g, r, rest) → c < 0 →
      parse_num_scan (inp ++ 32 :: X) f buf = (32, g, r, X) := by
  intro inp
  induction inp with
  | nil =>
    intro f buf c g r rest hs _
    simp only [parse_num_scan, Prod.mk.injEq] at hs
    obtain ⟨_, h2, h3, _⟩ := hs
    rw [List.nil_append]
    unfold parse_num_scan
    have h32 : isnumch (uchar 32) = false := by decide
    have u32 : uchar 32 = 32 := by decide
    simp only [h32, u32, h2, h3]
    rfl
  | cons b t ih =>
    intro f buf c g r rest hs hc
    rw [List.cons_append]
    unfold parse_num_scan at hs ⊢
    simp only [] at hs ⊢
    split_ifs at hs ⊢
    · exact ih _ _ _ _ _ _ hs hc
    · simp only [Prod.mk.injEq] at hs
      rw [← hs.1] at hc
      simp only [uchar] at hc
      omega

theorem parse_num_more (fl : FloatLib) (P Q : Parser) (first c : Int) (Y : List Nat)
    (h : P.parse_num fl first = .ok (Q, c)) (hc : 0 ≤ c) :
    (P.more Y).parse_num fl first = .ok (Q.more Y, c) := by
  unfold Parser.parse_num at h ⊢
  simp only [Parser.more]
  revert h
  rcases hscan : parse_num_scan P.reader false [toByte first] with ⟨c', isf, buf, rest⟩
  simp only []
  intro h
  have hc' : c' = c := by
    split_ifs at h <;> split at h <;> simp at h <;> exact h.2
  rw [parse_num_scan_more Y _ _ _ _ _ _ _ hscan (by omega)]
  simp only []
  split_ifs at h ⊢
  · split at h
    · cases h
    · simp only [Res.ok.injEq, Prod.mk.injEq] at h
      rw [← h.1, ← h.2]
      rfl
  · split at h
    · cases h
    · simp only [Res.ok.injEq, Prod.mk.injEq] at h
      rw [← h.1, ← h.2]
      rfl

theorem parse_num_eof (fl : FloatLib) (P Q : Parser) (first c : Int) (X : List Nat)
    (h : P.parse_num fl first = .ok (Q, c)) (hc : c < 0) :
    (P.more (32 :: X)).parse_num fl first = .ok (⟨X, Q.writer, Q.got_error⟩, 32) := by
  unfold Parser.parse_num at h ⊢
  simp only [Parser.more]
  revert h
  rcases hscan : parse_num_scan P.reader false [toByte first] with ⟨c', isf, buf, rest⟩
  simp only []
  intro h
  have hc' : c' = c := by
    split_ifs at h <;> split at h <;> simp at h <;> exact h.2
  rw [parse_num_scan_eof X _ _ _ _ _ _ _ hscan (by omega)]
  simp only []
  split_ifs at h ⊢
  · split at h
    · cases h
    · simp only [Res.ok.injEq, Prod.mk.injEq] at h
      rw [← h.1]
      rfl
  · split at h
    · cases h
    · simp only [Res.ok.injEq, Prod.mk.injEq] at h
      rw [← h.1]
      rfl

theorem make_set_more (s : Nat) (P : Parser) (d : DictState) (Y : List Nat) :
    make_set s (P.more Y) d = ((make_set s P d).1.more Y, (make_set s P d).2) := by
  unfold make_set
  split_ifs <;> rfl

theorem dict_finish_more (P : Parser) (d : DictState) (Y : List Nat) :
    dict_finish (P.more Y) d = (dict_finish P d).more Y := by
  unfold dict_finish
  split_ifs <;> rfl

theorem dict_comma_more (P : Parser) (d : DictState) (Y : List Nat) :
    dict_comma (P.more Y) d = (dict_comma P d).more Y := by
  unfold dict_comma
  split_ifs <;> rfl

theorem dict_step_more (s : Nat) (P : Parser) (d : DictState) (c : Int) (b : Bool)
    (Y : List Nat) :
    dict_step s (P.more Y) d c b = (dict_step s P d c b).more Y := by
  unfold dict_step
  simp only [make_set_more]
  have hg : ∀ Q : Parser, (Q.more Y).got_error = Q.got_error := fun _ => rfl
  simp only [hg]
  split_ifs <;> first
    | rfl
    | exact dict_comma_more _ _ _
    | (simp only [dict_finish_more]; rfl)

theorem parse_list_loop_more (Y : List Nat) (p p' : Parser → Res ParseOut)
    (hflag : ∀ P Q c b, p P = .ok (Q, c, b) → P.got_error = true → Q.got_error = true)
    (H : ∀ P Q c b, p P = .ok (Q, c, b) → Q.got_error = false → 0 ≤ c →
      p' (P.more Y) = .ok (Q.more Y, c, b)) :
    ∀ (f : Nat) (P Q : Parser), parse_list_loop p f P = .ok Q → Q.got_error = false →
      ∀ g, f ≤ g → parse_list_loop p' g (P.more Y) = .ok (Q.more Y) := by
  intro f
  induction f with
  | zero => intro P Q h; simp [parse_list_loop] at h
  | succ f ih =>
    intro P Q h hQ g hg
    obtain ⟨g, rfl⟩ : ∃ k, g = k + 1 := ⟨g - 1, by omega⟩
    unfold parse_list_loop at h ⊢
    split at h
    · rename_i P1 c b heq
      have hP1 : P1.got_error = false := by
        cases hb : P1.got_error with
        | false => rfl
        | true =>
          exfalso
          split_ifs at h
          · have := parse_list_loop_inv flag_preserved p hflag _ _ _ h hb
            rw [hQ] at this; cases this
          · cases h; simp [Parser.write_char, hb] at hQ
          · cases h; simp [Parser.parse_error] at hQ
      split_ifs at h with h1 h2
      · rw [H _ _ _ _ heq hP1 (by omega)]
        simp only [h1, if_true]
        exact ih _ _ h hQ g (by omega)
      · rw [H _ _ _ _ heq hP1 (by omega)]
        simp only [h1, h2, if_true, if_false]
        cases h
        rfl
      · cases h; simp [Parser.parse_error] at hQ
    · cases h
    · cases h

theorem parse_dict_loop_more (Y : List Nat) (p p' : Parser → Res ParseOut) (s : Nat)
    (hflag : ∀ P Q c b, p P = .ok (Q, c, b) → P.got_error = true → Q.got_error = true)
    (H : ∀ P Q c b, p P = .ok (Q, c, b) → Q.got_error = false → 0 ≤ c →
      p' (P.more Y) = .ok (Q.more Y, c, b)) :
    ∀ (f : Nat) (P Q : Parser) (d : DictState),
      parse_dict_loop p s f P d = .ok Q → Q.got_error = false →
      ∀ g, f ≤ g → parse_dict_loop p' s g (P.more Y) d = .ok (Q.more Y) := by
  intro f
  induction f with
  | zero => intro P Q d h; simp [parse_dict_loop] at h
  | succ f ih =>
    intro P Q d h hQ g hg
    obtain ⟨g, rfl⟩ : ∃ k, g = k + 1 := ⟨g - 1, by omega⟩
    unfold parse_dict_loop at h ⊢
    split at h
    · rename_i P1 c b heq
      have hstep := dict_step_inv flag_preserved s P1 d c b
      have hP1 : P1.got_error = false := by
        cases hb : P1.got_error with
        | false => rfl
        | true =>
          exfalso
          have h2 := hstep hb trivial
          split at h
          · rename_i P2 heq2
            rw [heq2] at h2
            cases h
            simp only [DictStep.parser] at h2
            rw [hQ] at h2; cases h2
          · rename_i P2 d2 heq2
            rw [heq2] at h2
            have := parse_dict_loop_inv flag_preserved p s trivial hflag _ _ _ _ h h2
            rw [hQ] at this; cases this
      have hc : 0 ≤ c := by
        by_contra hneg
        have h44 : ¬ c = 44 := by omega
        have h58 : ¬ c = 58 := by omega
        have h125 : ¬ c = 125 := by omega
        have : dict_step s P1 d c b = .ret P1.parse_error := by
          unfold dict_step
          simp only [h44, h58, h125, if_false]
        rw [this] at h
        simp only [] at h
        cases h
        simp [Parser.parse_error] at hQ
      rw [H _ _ _ _ heq hP1 hc]
      simp only [dict_step_more]
      split at h
      · rename_i P2 heq2
        rw [heq2]
        cases h
        rfl
      · rename_i P2 d2 heq2
        rw [heq2]
        exact ih _ _ _ h hQ g (by omega)
    · cases h
    · cases h

theorem parse_loop_step (fl : FloatLib) (f : Nat) (x : Nat) (r : List Nat) (W : Writer)
    (e : Bool) (hsp : isspace (uchar x) = false) :
    parse_loop fl (f + 1) ⟨x :: r, W, e⟩ false
      = if uchar x = 39 ∨ uchar x = 34 then
          parse_loop fl f (Parser.parse_str ⟨r, W, e⟩ (uchar x)) true
        else if uchar x = 91 then
          match Parser.parse_list (fun Q => parse_loop fl f Q false) f ⟨r, W, e⟩ with
          | .ok P => parse_loop fl f P true
          | .exn => .exn
          | .fuel => .fuel
        else if uchar x = 123 then
          match Parser.parse_dict_or_set (fun Q => parse_loop fl f Q false) f ⟨r, W, e⟩ with
          | .ok P => parse_loop fl f P true
          | .exn => .exn
          | .fuel => .fuel
        else if isnumch (uchar x) = true then
          match Parser.parse_num fl ⟨r, W, e⟩ (uchar x) with
          | .ok (P, c) =>
            if c < 0 ∨ (!isspace c) = true then .ok (P, c, true)
            else parse_loop fl f P true
          | .exn => .exn
          | .fuel => .fuel
        else .ok (⟨r, W, e⟩, uchar x, false) := by
  rw [parse_loop]
  simp only [hsp, Bool.false_eq_true, if_false]
  try rfl

theorem parse_loop_more (fl : FloatLib) (X : List Nat) :
    ∀ (f : Nat) (P : Parser) (had : Bool) (Q : Parser) (c : Int) (b : Bool),
      parse_loop fl f P had = .ok (Q, c, b) → Q.got_error = false →
      ∀ g, f + X.length + 2 ≤ g →
        (0 ≤ c → parse_loop fl g (P.more (32 :: X)) had = .ok (Q.more (32 :: X), c, b)) ∧
        (c < 0 → b = true → ∃ Q' c', parse_loop fl g (P.more (32 :: X)) had = .ok (Q', c', true)
          ∧ Q'.writer = Q.writer ∧ Q'.got_error = false) := by
  intro f
  induction f with
  | zero => intro P had Q c b h; simp [parse_loop] at h
  | succ f ih =>
    intro P had Q c b h hQ g hg
    obtain ⟨g, rfl⟩ : ∃ k, g = k + 1 := ⟨g - 1, by omega⟩
    have hg' : f + X.length + 2 ≤ g := by omega
    have hflag : ∀ (A B : Parser) (c : Int) (b : Bool),
        (fun Q => parse_loop fl f Q false) A = .ok (B, c, b) →
        A.got_error = true → B.got_error = true :=
      fun A B c b hh hA => parse_loop_inv flag_preserved fl f A false B c b hh hA
    have H : ∀ (A B : Parser) (c : Int) (b : Bool),
        (fun Q => parse_loop fl f Q false) A = .ok (B, c, b) → B.got_error = false → 0 ≤ c →
        (fun Q => parse_loop fl g Q false) (A.more (32 :: X)) = .ok (B.more (32 :: X), c, b) :=
      fun A B c b hh hB hc => (ih A false B c b hh hB g hg').1 hc
    rcases P with ⟨r, W, e⟩
    cases r with
    | nil =>
      rw [parse_loop] at h
      simp only [Res.ok.injEq, Prod.mk.injEq] at h
      obtain ⟨h1, h2, h3⟩ := h
      subst h1 h2 h3
      refine ⟨fun hc => absurd hc (by decide), fun _ hb => ?_⟩
      subst hb
      exact ⟨_, _, parse_loop_after fl W e (32 :: X) (g + 1) (by simp only [List.length_cons]; omega),
        rfl, hQ⟩
    | cons x rest =>
      have hmore : Parser.more ⟨x :: rest, W, e⟩ (32 :: X) = ⟨x :: (rest ++ 32 :: X), W, e⟩ := rfl
      have hm : ∀ (r : List Nat) (W : Writer) (e : Bool),
          (⟨r ++ 32 :: X, W, e⟩ : Parser) = Parser.more ⟨r, W, e⟩ (32 :: X) := fun _ _ _ => rfl
      rw [hmore]
      by_cases hsp : isspace (uchar x) = true
      · rw [parse_loop_space _ _ _ _ _ _ _ hsp] at h ⊢
        exact ih ⟨rest, W, e⟩ had Q c b h hQ g hg'
      · have hsp' : isspace (uchar x) = false := by simpa using hsp
        have hux : 0 ≤ uchar x := by simp only [uchar]; omega
        cases had with
        | true =>
          rw [parse_loop_had _ _ _ _ _ _ hsp'] at h ⊢
          simp only [Res.ok.injEq, Prod.mk.injEq] at h
          obtain ⟨h1, h2, h3⟩ := h
          subst h1 h2 h3
          exact ⟨fun _ => rfl, fun hc => absurd hc (by omega)⟩
        | false =>
          rw [parse_loop_step _ _ _ _ _ _ hsp'] at h ⊢
          by_cases hq : uchar x = 39 ∨ uchar x = 34
          · simp only [hq, if_true] at h ⊢
            have ht := parse_loop_had_true fl _ _ _ _ _ h
            have hP1 : (Parser.parse_str ⟨rest, W, e⟩ (uchar x)).got_error = false := by
              rw [← ht.2.2]; exact hQ
            rw [hm, parse_str_more _ _ _ hP1]
            exact ih _ true Q c b h hQ g hg'
          · simp only [hq, if_false] at h ⊢
            by_cases hl : uchar x = 91
            · simp only [hl, if_true] at h ⊢
              split at h
              · rename_i P1 heq
                have ht := parse_loop_had_true fl _ _ _ _ _ h
                have hP1 : P1.got_error = false := by rw [← ht.2.2]; exact hQ
                have e2 : Parser.parse_list (fun Q => parse_loop fl g Q false) g
                    ⟨rest ++ 32 :: X, W, e⟩ = .ok (P1.more (32 :: X)) :=
                  parse_list_loop_more (32 :: X) _ _ hflag H f _ P1 heq hP1 g (by omega)
                rw [e2]
                exact ih _ true Q c b h hQ g hg'
              · cases h
              · cases h
            · simp only [hl, if_false] at h ⊢
              by_cases hd : uchar x = 123
              · simp only [hd, if_true] at h ⊢
                split at h
                · rename_i P1 heq
                  have ht := parse_loop_had_true fl _ _ _ _ _ h
                  have hP1 : P1.got_error = false := by rw [← ht.2.2]; exact hQ
                  have e2 : Parser.parse_dict_or_set (fun Q => parse_loop fl g Q false) g
                      ⟨rest ++ 32 :: X, W, e⟩ = .ok (P1.more (32 :: X)) :=
                    parse_dict_loop_more (32 :: X) _ _ _ hflag H f _ P1 _ heq hP1 g (by omega)
                  rw [e2]
                  exact ih _ true Q c b h hQ g hg'
                · cases h
                · cases h
              · simp only [hd, if_false] at h ⊢
                by_cases hn : isnumch (uchar x) = true
                · simp only [hn, if_true] at h ⊢
                  split at h
                  · rename_i P1 c1 heq
                    by_cases hc1 : c1 < 0
                    · have hor : c1 < 0 ∨ (!isspace c1) = true := Or.inl hc1
                      simp only [hor, if_true, Res.ok.injEq, Prod.mk.injEq] at h
                      obtain ⟨h1, h2, h3⟩ := h
                      subst h1 h2 h3
                      refine ⟨fun hc => absurd hc (by omega), fun _ _ => ?_⟩
                      rw [hm, parse_num_eof fl _ _ _ _ X heq hc1]
                      have h32 : ¬ ((32 : Int) < 0 ∨ (!isspace 32) = true) := by decide
                      simp only [h32, if_false]
                      exact ⟨_, _, parse_loop_after fl _ _ X g (by omega), rfl, hQ⟩
                    · have e4 := parse_num_more fl _ _ _ _ (32 :: X) heq (by omega)
                      rw [hm, e4]
                      by_cases hs1 : isspace c1 = true
                      · have hor : ¬ (c1 < 0 ∨ (!isspace c1) = true) := by
                          simp only [hs1, Bool.not_true, Bool.false_eq_true, or_false]
                          exact hc1
                        simp only [hor, if_false] at h ⊢
                        exact ih _ true Q c b h hQ g hg'
                      · have hor : c1 < 0 ∨ (!isspace c1) = true := by
                          right; simpa using hs1
                        simp only [hor, if_true, Res.ok.injEq, Prod.mk.injEq] at h ⊢
                        obtain ⟨h1, h2, h3⟩ := h
                        subst h1 h2 h3
                        exact ⟨fun _ => ⟨rfl, rfl, rfl⟩, fun hc => absurd hc hc1⟩
                  · cases h
                  · cases h
                · simp only [hn, if_false, Bool.false_eq_true, Res.ok.injEq, Prod.mk.injEq] at h ⊢
                  obtain ⟨h1, h2, h3⟩ := h
                  subst h1 h2 h3
                  exact ⟨fun _ => ⟨rfl, rfl, rfl⟩, fun hc => absurd hc (by omega)⟩

/-- C14: trailing input is ignored.  When `full_pass` on the input `T` ends with the
error flag clear, then on `T`, one space and any bytes `X` it also ends with the error
flag clear, and it leaves the writer in the same state: the same bytes at the same
position.  This holds for every writer the pass starts with. -/
theorem C14_trailing_input_ignored (fl : FloatLib) (T X : List Nat) (W : Writer) (P : Parser)
    (h : (Parser.new T W).full_pass fl = .ok P) (he : P.got_error = false) :
    ∃ P', (Parser.new (T ++ 32 :: X) W).full_pass fl = .ok P'
      ∧ P'.got_error = false ∧ P'.writer = P.writer := by
  unfold Parser.full_pass Parser.parse at h
  simp only [] at h
  split at h
  · rename_i P1 c b heq
    cases b with
    | false =>
      simp only [Bool.not_false, if_true, Res.ok.injEq] at h
      rw [← h] at he
      simp [Parser.parse_error] at he
    | true =>
      simp only [Bool.not_true, Bool.false_eq_true, if_false, Res.ok.injEq] at h
      have hP1 : P1.got_error = false := by rw [← h] at he; exact he
      have hm := parse_loop_more fl X _ _ _ _ _ _ heq hP1 _ (le_refl _)
      by_cases hc : 0 ≤ c
      · have h2 := hm.1 hc
        have h3 := full_pass_of_parse fl (T ++ 32 :: X) W false _ _ h2
        refine ⟨(P1.more (32 :: X)).end_, h3, hP1, ?_⟩
        rw [← h]
        rfl
      · obtain ⟨Q', c', h2, hw, hq⟩ := hm.2 (by omega) rfl
        have h3 := full_pass_of_parse fl (T ++ 32 :: X) W false _ _ h2
        refine ⟨Q'.end_, h3, hq, ?_⟩
        rw [← h]
        simp only [Parser.end_, Parser.write_char, hw]
  · cases h
  · cases h

/-- C14 at `T = [1]` and `X = ]"`: the pass on `[1] ]"` ends like the pass on `[1]`. -/
theorem C14_witness :
    ∃ P', (Parser.new (bytes_of "[1]" ++ 32 :: bytes_of "]\"") Writer.new_file).full_pass
        FloatLib.throwing = .ok P'
      ∧ P'.got_error = false
      ∧ P'.writer = Writer.file ⟨[0x80, 3, 0x5D, 0x28, 0x4B, 1, 0x65, 0x2E], 8⟩ :=
  C14_trailing_input_ignored FloatLib.throwing (bytes_of "[1]") (bytes_of "]\"") Writer.new_file
    ⟨[], .file ⟨[0x80, 3, 0x5D, 0x28, 0x4B, 1, 0x65, 0x2E], 8⟩, false⟩ (by decide) rfl

/-! ## The seeks of one activation of parse_dict_or_set (C13) -/

theorem make_set_seeks_forget (s : Nat) (P : Parser) (d : DictState) (log : List (Nat × Nat)) :
    ((make_set_seeks s P d log).1, (make_set_seeks s P d log).2.1) = make_set s P d := by
  unfold make_set_seeks make_set
  split_ifs <;> rfl

theorem dict_step_seeks_forget (s : Nat) (P : Parser) (d : DictState) (c : Int) (b : Bool)
    (log : List (Nat × Nat)) :
    (dict_step_seeks s P d c b log).1 = dict_step s P d c b := by
  have h1 : ∀ d, (make_set_seeks s P d log).1 = (make_set s P d).1 := fun d =>
    congrArg Prod.fst (make_set_seeks_forget s P d log)
  have h2 : ∀ d, (make_set_seeks s P d log).2.1 = (make_set s P d).2 := fun d =>
    congrArg Prod.snd (make_set_seeks_forget s P d log)
  unfold dict_step_seeks dict_step
  simp only [h1, h2]
  split_ifs <;> rfl

theorem parse_dict_loop_seeks_forget (parse : Parser → Res ParseOut) (s : Nat) :
    ∀ (f : Nat) (P : Parser) (d : DictState) (log : List (Nat × Nat)),
      (parse_dict_loop_seeks parse s f P d log).forget = parse_dict_loop parse s f P d := by
  intro f
  induction f with
  | zero => intro P d log; rfl
  | succ f ih =>
    intro P d log
    rw [parse_dict_loop_seeks, parse_dict_loop]
    cases hp : parse P with
    | ok out =>
      obtain ⟨P1, c, b⟩ := out
      simp only []
      have hs := dict_step_seeks_forget s P1 d c b log
      rcases hd : dict_step_seeks s P1 d c b log with ⟨st, log2⟩
      rw [hd] at hs
      simp only [] at hs
      rw [← hs]
      cases st with
      | ret Q => rfl
      | next Q d2 => exact ih _ _ _
    | exn => rfl
    | fuel => rfl

theorem parse_dict_or_set_seeks_forget (parse : Parser → Res ParseOut) (f : Nat) (P : Parser) :
    (P.parse_dict_or_set_seeks parse f).forget = P.parse_dict_or_set parse f :=
  parse_dict_loop_seeks_forget parse _ f _ _ _

/-- C13 fails at the input `{1,}`: one activation of `parse_dict_or_set` moves the
writer to an earlier offset twice.  After `{` (writer at position 2) the activation on
the rest `1,}` makes four calls of `seek`: on `,` from position 6 back to offset 2 and,
after the write of `8F`, from 3 forward to 6; then on `}`, where the count is still 1,
again from 6 back to 2 and from 3 forward to 6.  Two of the four calls go backwards.
Without the record, the routine with the record is `parse_dict_or_set`. -/
theorem C13_backpatch_twice :
    Parser.parse_dict_or_set_seeks (fun Q => parse_loop FloatLib.throwing 5 Q false) 5
        ⟨bytes_of "1,\x7d", .file ⟨[0x80, 3], 2⟩, false⟩
      = .ok (⟨[], .file ⟨[0x80, 3, 0x8F, 0x28, 0x4B, 1, 0x90], 7⟩, false⟩,
          [(6, 2), (3, 6), (6, 2), (3, 6)]) ∧
    backward [(6, 2), (3, 6), (6, 2), (3, 6)] = [(6, 2), (6, 2)] ∧
    (∀ (parse : Parser → Res ParseOut) (f : Nat) (P : Parser),
      (P.parse_dict_or_set_seeks parse f).forget = P.parse_dict_or_set parse f) ∧
    run_output FloatLib.throwing (bytes_of "{1,}") Writer.new_file
      = some ([0x80, 3, 0x8F, 0x28, 0x4B, 1, 0x90, 0x2E], false) :=
  ⟨by decide, by decide, parse_dict_or_set_seeks_forget, by decide⟩

/-! ## The parser does not look at the writer (C15) -/

theorem parse_str_same (P1 P2 : Parser) (q : Int) (h : SameParse P1 P2) :
    SameParse (P1.parse_str q) (P2.parse_str q) := by
  obtain ⟨h1, h2⟩ := h
  unfold Parser.parse_str
  rw [← h1]
  split
  · exact ⟨rfl, rfl⟩
  · exact ⟨rfl, h2⟩

theorem parse_num_same (fl : FloatLib) (P1 P2 Q1 : Parser) (first c : Int)
    (h : SameParse P1 P2) (hr : P1.parse_num fl first = .ok (Q1, c)) :
    ∃ Q2, P2.parse_num fl first = .ok (Q2, c) ∧ SameParse Q1 Q2 := by
  obtain ⟨h1, h2⟩ := h
  unfold Parser.parse_num at hr ⊢
  rw [← h1]
  revert hr
  rcases parse_num_scan P1.reader false [toByte first] with ⟨c', isf, buf, rest⟩
  simp only []
  intro hr
  split_ifs at hr ⊢
  · split at hr
    · cases hr
    · rename_i r hfl
      simp only [Res.ok.injEq, Prod.mk.injEq] at hr
      rw [← hr.1, ← hr.2]
      exact ⟨_, rfl, rfl, h2⟩
  · split at hr
    · cases hr
    · rename_i v hst
      simp only [Res.ok.injEq, Prod.mk.injEq] at hr
      rw [← hr.1, ← hr.2]
      exact ⟨_, rfl, rfl, h2⟩

theorem make_set_flag (s : Nat) (P : Parser) (d : DictState) :
    (make_set s P d).1.got_error = (decide (d.count ≠ 1) || P.got_error) := by
  unfold make_set
  split_ifs with h <;> simp [h, Parser.parse_error, Parser.write_char]

theorem make_set_state (s : Nat) (P : Parser) (d : DictState) :
    (make_set s P d).2
      = if d.count ≠ 1 then d else { d with cur := .Value, obj_type := .Set } := by
  unfold make_set
  split_ifs <;> rfl

theorem dict_comma_shape (P : Parser) (d : DictState) :
    (dict_comma P d).shape
      = if d.cur = .Key then (none, P.reader, true)
        else (some (if d.obj_type = .Dict then { d with cur := .Key } else d),
          P.reader, P.got_error) := by
  unfold dict_comma
  split_ifs <;> rfl

theorem dict_finish_flag (P : Parser) (d : DictState) :
    (dict_finish P d).got_error
      = (decide (d.obj_type = .Dict ∧ d.count % 2 ≠ 0) || P.got_error) := by
  unfold dict_finish
  by_cases h : d.obj_type = .Dict ∧ d.count % 2 ≠ 0
  · rw [if_pos h, decide_eq_true h]
    rfl
  · rw [if_neg h, decide_eq_false h]
    rfl

theorem shape_ret (P : Parser) : (DictStep.ret P).shape = (none, P.reader, P.got_error) := rfl

theorem shape_next (P : Parser) (d : DictState) :
    (DictStep.next P d).shape = (some d, P.reader, P.got_error) := rfl

theorem dict_step_same (s1 s2 : Nat) (P1 P2 : Parser) (d : DictState) (c : Int) (b : Bool)
    (h : SameParse P1 P2) :
    (dict_step s1 P1 d c b).shape = (dict_step s2 P2 d c b).shape := by
  obtain ⟨h1, h2⟩ := h
  unfold dict_step
  simp only [make_set_flag, h2]
  split_ifs <;>
    simp only [shape_ret, shape_next, dict_comma_shape, make_set_flag, make_set_state,
      make_set_reader, dict_finish_flag, dict_finish_reader, Parser.parse_error, h1, h2]

theorem parse_list_loop_same (p : Parser → Res ParseOut)
    (Hp : ∀ A1 A2 B1 c b, p A1 = .ok (B1, c, b) → SameParse A1 A2 →
      ∃ B2, p A2 = .ok (B2, c, b) ∧ SameParse B1 B2) :
    ∀ (f : Nat) (P1 P2 Q1 : Parser), parse_list_loop p f P1 = .ok Q1 → SameParse P1 P2 →
      ∃ Q2, parse_list_loop p f P2 = .ok Q2 ∧ SameParse Q1 Q2 := by
  intro f
  induction f with
  | zero => intro P1 P2 Q1 h; simp [parse_list_loop] at h
  | succ f ih =>
    intro P1 P2 Q1 h hs
    unfold parse_list_loop at h ⊢
    split at h
    · rename_i A1 c b heq
      obtain ⟨A2, hA2, hsA⟩ := Hp _ _ _ _ _ heq hs
      rw [hA2]
      simp only []
      split_ifs at h ⊢
      · exact ih _ _ _ h hsA
      · cases h; exact ⟨_, rfl, hsA.1, hsA.2⟩
      · cases h; exact ⟨_, rfl, hsA.1, rfl⟩
    · cases h
    · cases h

theorem parse_dict_loop_same (p : Parser → Res ParseOut) (s1 s2 : Nat)
    (Hp : ∀ A1 A2 B1 c b, p A1 = .ok (B1, c, b) → SameParse A1 A2 →
      ∃ B2, p A2 = .ok (B2, c, b) ∧ SameParse B1 B2) :
    ∀ (f : Nat) (P1 P2 Q1 : Parser) (d : DictState),
      parse_dict_loop p s1 f P1 d = .ok Q1 → SameParse P1 P2 →
      ∃ Q2, parse_dict_loop p s2 f P2 d = .ok Q2 ∧ SameParse Q1 Q2 := by
  intro f
  induction f with
  | zero => intro P1 P2 Q1 d h; simp [parse_dict_loop] at h
  | succ f ih =>
    intro P1 P2 Q1 d h hs
    unfold parse_dict_loop at h ⊢
    split at h
    · rename_i A1 c b heq
      obtain ⟨A2, hA2, hsA⟩ := Hp _ _ _ _ _ heq hs
      rw [hA2]
      simp only []
      have hsh := dict_step_same s1 s2 A1 A2 d c b hsA
      split at h
      · rename_i R1 hR1
        rw [hR1] at hsh
        cases hR2 : dict_step s2 A2 d c b with
        | ret R2 =>
          rw [hR2] at hsh
          simp only [DictStep.shape, Prod.mk.injEq, true_and] at hsh
          cases h
          exact ⟨_, rfl, hsh.1, hsh.2⟩
        | next R2 d2 =>
          rw [hR2] at hsh
          simp [DictStep.shape] at hsh
      · rename_i R1 d1 hR1
        rw [hR1] at hsh
        cases hR2 : dict_step s2 A2 d c b with
        | ret R2 =>
          rw [hR2] at hsh
          simp [DictStep.shape] at hsh
        | next R2 d2 =>
          rw [hR2] at hsh
          simp only [DictStep.shape, Prod.mk.injEq, Option.some.injEq] at hsh
          obtain ⟨hd, hr, he⟩ := hsh
          subst hd
          exact ih _ _ _ _ h ⟨hr, he⟩
    · cases h
    · cases h

theorem parse_loop_same (fl : FloatLib) :
    ∀ (f : Nat) (P1 P2 : Parser) (had : Bool) (Q1 : Parser) (c : Int) (b : Bool),
      parse_loop fl f P1 had = .ok (Q1, c, b) → SameParse P1 P2 →
      ∃ Q2, parse_loop fl f P2 had = .ok (Q2, c, b) ∧ SameParse Q1 Q2 := by
  intro f
  induction f with
  | zero => intro P1 P2 had Q1 c b h; simp [parse_loop] at h
  | succ f ih =>
    intro P1 P2 had Q1 c b h hs
    have Hp : ∀ (A1 A2 B1 : Parser) (c : Int) (b : Bool),
        (fun Q => parse_loop fl f Q false) A1 = .ok (B1, c, b) → SameParse A1 A2 →
        ∃ B2, (fun Q => parse_loop fl f Q false) A2 = .ok (B2, c, b) ∧ SameParse B1 B2 :=
      fun A1 A2 B1 c b hh hA => ih A1 A2 false B1 c b hh hA
    rcases P1 with ⟨r, W1, e⟩
    rcases P2 with ⟨r2, W2, e2⟩
    obtain ⟨hr, he⟩ := hs
    simp only [] at hr he
    subst hr he
    cases r with
    | nil =>
      rw [parse_loop] at h ⊢
      simp only [Res.ok.injEq, Prod.mk.injEq] at h
      obtain ⟨h1, h2, h3⟩ := h
      subst h1 h2 h3
      exact ⟨_, rfl, rfl, rfl⟩
    | cons x rest =>
      by_cases hsp : isspace (uchar x) = true
      · rw [parse_loop_space _ _ _ _ _ _ _ hsp] at h ⊢
        exact ih _ _ _ _ _ _ h ⟨rfl, rfl⟩
      · have hsp' : isspace (uchar x) = false := by simpa using hsp
        cases had with
        | true =>
          rw [parse_loop_had _ _ _ _ _ _ hsp'] at h ⊢
          simp only [Res.ok.injEq, Prod.mk.injEq] at h
          obtain ⟨h1, h2, h3⟩ := h
          subst h1 h2 h3
          exact ⟨_, rfl, rfl, rfl⟩
        | false =>
          rw [parse_loop_step _ _ _ _ _ _ hsp'] at h ⊢
          by_cases hq : uchar x = 39 ∨ uchar x = 34
          · simp only [hq, if_true] at h ⊢
            exact ih _ _ _ _ _ _ h (parse_str_same _ _ _ ⟨rfl, rfl⟩)
          · simp only [hq, if_false] at h ⊢
            by_cases hl : uchar x = 91
            · simp only [hl, if_true] at h ⊢
              split at h
              · rename_i A1 heq
                obtain ⟨A2, hA2, hsA⟩ :=
                  parse_list_loop_same _ Hp f _
                    ((Parser.write_char ⟨rest, W2, e⟩ EMPTY_LIST).write_char MARK) A1 heq
                    ⟨rfl, rfl⟩
                have e2 : Parser.parse_list (fun Q => parse_loop fl f Q false) f
                    ⟨rest, W2, e⟩ = .ok A2 := hA2
                rw [e2]
                exact ih _ _ _ _ _ _ h hsA
              · cases h
              · cases h
            · simp only [hl, if_false] at h ⊢
              by_cases hd : uchar x = 123
              · simp only [hd, if_true] at h ⊢
                split at h
                · rename_i A1 heq
                  obtain ⟨A2, hA2, hsA⟩ :=
                    parse_dict_loop_same _ W1.pos W2.pos Hp f _
                      ((Parser.write_char ⟨rest, W2, e⟩ EMPTY_DICT).write_char MARK) A1 _ heq
                      ⟨rfl, rfl⟩
                  have e2 : Parser.parse_dict_or_set (fun Q => parse_loop fl f Q false) f
                      ⟨rest, W2, e⟩ = .ok A2 := hA2
                  rw [e2]
                  exact ih _ _ _ _ _ _ h hsA
                · cases h
                · cases h
              · simp only [hd, if_false] at h ⊢
                by_cases hn : isnumch (uchar x) = true
                · simp only [hn, if_true] at h ⊢
                  split at h
                  · rename_i A1 c1 heq
                    obtain ⟨A2, hA2, hsA⟩ :=
                      parse_num_same fl ⟨rest, W1, e⟩ ⟨rest, W2, e⟩ A1 _ c1 ⟨rfl, rfl⟩ heq
                    rw [hA2]
                    simp only []
                    split_ifs at h ⊢
                    · simp only [Res.ok.injEq, Prod.mk.injEq] at h
                      obtain ⟨h1, h2, h3⟩ := h
                      subst h1 h2 h3
                      exact ⟨_, rfl, hsA⟩
                    · exact ih _ _ _ _ _ _ h hsA
                  · cases h
                  · cases h
                · simp only [hn, if_false, Bool.false_eq_true, Res.ok.injEq, Prod.mk.injEq] at h ⊢
                  obtain ⟨h1, h2, h3⟩ := h
                  subst h1 h2 h3
                  exact ⟨_, ⟨rfl, rfl, rfl⟩, rfl, rfl⟩

theorem full_pass_same (fl : FloatLib) (P1 P2 Q1 : Parser) (hs : SameParse P1 P2)
    (h : P1.full_pass fl = .ok Q1) :
    ∃ Q2, P2.full_pass fl = .ok Q2 ∧ SameParse Q1 Q2 := by
  unfold Parser.full_pass Parser.parse at h ⊢
  simp only [] at h ⊢
  have hb : budget P2.start = budget P1.start := by
    simp only [budget, Parser.start, Parser.write_char_reader, hs.1]
  have h0 : SameParse P1.start P2.start := ⟨hs.1, hs.2⟩
  split at h
  · rename_i A1 c b heq
    obtain ⟨A2, hA2, hsA⟩ := parse_loop_same fl _ _ _ _ _ _ _ heq h0
    rw [hb, hA2]
    simp only []
    split_ifs at h ⊢
    · cases h; exact ⟨_, rfl, hsA.1, rfl⟩
    · cases h; exact ⟨_, rfl, hsA.1, hsA.2⟩
  · cases h
  · cases h

theorem memWriter_write_data_fits (m : MemWriter) (d : List Nat)
    (hs : m.size ≤ m.data.length) (hfit : m.p + d.length ≤ m.size) :
    (∀ i, i < d.length → (m.write_data d).data[m.p + i]? = d[i]?) ∧
    (∀ j, j < m.p ∨ m.p + d.length ≤ j → (m.write_data d).data[j]? = m.data[j]?) ∧
    (m.write_data d).p = m.p + d.length ∧
    (m.write_data d).got_error = m.got_error := by
  have h2 : ¬ (m.p + d.length > m.size) := by omega
  unfold MemWriter.write_data
  rw [if_neg h2]
  exact ⟨fun i hi => store_getElem_in m.data m.p d (by omega) i hi,
    fun j hj => store_getElem_out m.data m.p d (by omega) j hj, rfl, rfl⟩

theorem memWriter_write_data_dropped (m : MemWriter) (d : List Nat)
    (he : m.got_error = true) (hov : m.size < m.p + d.length) : m.write_data d = m := by
  unfold MemWriter.write_data MemWriter._overflow_error
  rw [if_pos hov, ← he]

/-- C15, what the code does after an overflow of the bounded writer.  The overflow flag
stays set through every later write and through the rest of `parse` and of `full_pass`,
the capacity does not change and the position stays within it.  A later write that fits
in the remaining capacity is stored at the position and advances it, the flag staying
set; one that does not fit leaves the writer as it is; `write_char` is `write_data` of
one byte.  The parser is not stopped: what `parse` and `full_pass` read, the byte and
the flag `parse` returns, and the parser's error flag are the same whatever the writer
is and whatever state it is in, so after an overflow the parser reads what it reads
with a writer that never overflows. -/
theorem C15_overflow_persists (fl : FloatLib) (S : Nat) :
    (∀ (W : Writer) (c : Nat), Overflowed S W → Overflowed S (W.write_char c)) ∧
    (∀ (W : Writer) (d : List Nat), Overflowed S W → Overflowed S (W.write_data d)) ∧
    (∀ (f : Nat) (P : Parser) (had : Bool) (Q : Parser) (c : Int) (b : Bool),
      parse_loop fl f P had = .ok (Q, c, b) → Overflowed S P.writer → Overflowed S Q.writer) ∧
    (∀ P Q : Parser, P.full_pass fl = .ok Q → Overflowed S P.writer → Overflowed S Q.writer) ∧
    (∀ (m : MemWriter) (d : List Nat), m.got_error = true → m.size ≤ m.data.length →
      m.p + d.length ≤ m.size →
        (∀ i, i < d.length → (m.write_data d).data[m.p + i]? = d[i]?) ∧
        (∀ j, j < m.p ∨ m.p + d.length ≤ j → (m.write_data d).data[j]? = m.data[j]?) ∧
        (m.write_data d).p = m.p + d.length ∧
        (m.write_data d).got_error = true) ∧
    (∀ (m : MemWriter) (d : List Nat), m.got_error = true → m.size < m.p + d.length →
      m.write_data d = m) ∧
    (∀ (m : MemWriter) (c : Nat), m.write_char c = m.write_data [c]) ∧
    (∀ (f : Nat) (P1 P2 : Parser) (had : Bool) (Q1 : Parser) (c : Int) (b : Bool),
      P1.reader = P2.reader → P1.got_error = P2.got_error →
      parse_loop fl f P1 had = .ok (Q1, c, b) →
      ∃ Q2, parse_loop fl f P2 had = .ok (Q2, c, b)
        ∧ Q2.reader = Q1.reader ∧ Q2.got_error = Q1.got_error) ∧
    (∀ P1 P2 Q1 : Parser, P1.reader = P2.reader → P1.got_error = P2.got_error →
      P1.full_pass fl = .ok Q1 →
      ∃ Q2, P2.full_pass fl = .ok Q2 ∧ Q2.reader = Q1.reader ∧ Q2.got_error = Q1.got_error) := by
  refine ⟨overflowed_write_char S, overflowed_write_data S,
    fun f P had Q c b h hP => parse_loop_inv (overflowed_preserved S) fl f P had Q c b h hP,
    fun P Q h hP => full_pass_inv (overflowed_preserved S) fl P Q h hP,
    ?_, memWriter_write_data_dropped, MemWriter.write_char_eq_data, ?_, ?_⟩
  · intro m d he hs hfit
    obtain ⟨h1, h2, h3, h4⟩ := memWriter_write_data_fits m d hs hfit
    exact ⟨h1, h2, h3, by rw [h4, he]⟩
  · intro f P1 P2 had Q1 c b hr he h
    obtain ⟨Q2, hQ2, hs⟩ := parse_loop_same fl f P1 P2 had Q1 c b h ⟨hr, he⟩
    exact ⟨Q2, hQ2, hs.1.symm, hs.2.symm⟩
  · intro P1 P2 Q1 hr he h
    obtain ⟨Q2, hQ2, hs⟩ := full_pass_same fl P1 P2 Q1 ⟨hr, he⟩ h
    exact ⟨Q2, hQ2, hs.1.symm, hs.2.symm⟩

/-- C15 at a buffer of five bytes that has overflowed at position 4.  On the input `[]`
the header byte of the list still fits and is stored, and the flag stays set.  On the
input `[-1, 2]` the pass with the buffer of five bytes reads the whole input, as the
pass with a file does. -/
theorem C15_witness :
    (Overflowed 5 (Writer.mem ⟨[0x80, 3, 0x5D, 0x28, 0], 5, 4, true⟩) ∧
      Overflowed 5 (Writer.mem ⟨[0x80, 3, 0x5D, 0x28, 0x5D], 5, 5, true⟩)) ∧
    (∃ Q2, (Parser.new (bytes_of "[-1, 2]") Writer.new_file).full_pass FloatLib.throwing
        = .ok Q2 ∧ Q2.reader = [] ∧ Q2.got_error = false) ∧
    (MemWriter.write_data ⟨[0x80, 3, 0x5D, 0x28, 0], 5, 4, true⟩ [0x65]).p = 4 + 1 ∧
    MemWriter.write_data ⟨[0x80, 3, 0x5D, 0x28, 0], 5, 4, true⟩ [0x4B, 2]
      = ⟨[0x80, 3, 0x5D, 0x28, 0], 5, 4, true⟩ :=
  ⟨⟨⟨rfl, by decide, rfl⟩,
    (C15_overflow_persists FloatLib.throwing 5).2.2.1 4
      ⟨bytes_of "[]", .mem ⟨[0x80, 3, 0x5D, 0x28, 0], 5, 4, true⟩, false⟩ false
      ⟨[], .mem ⟨[0x80, 3, 0x5D, 0x28, 0x5D], 5, 5, true⟩, false⟩ EOF true
      (by decide) ⟨rfl, by decide, rfl⟩⟩,
   (C15_overflow_persists FloatLib.throwing 5).2.2.2.2.2.2.2.2
      (Parser.new (bytes_of "[-1, 2]") (Writer.new_mem [0, 0, 0, 0, 0] 5))
      (Parser.new (bytes_of "[-1, 2]") Writer.new_file)
      ⟨[], .mem ⟨[0x80, 3, 0x5D, 0x28, 0x65], 5, 5, true⟩, false⟩ rfl rfl (by decide),
   ((C15_overflow_persists FloatLib.throwing 5).2.2.2.2.1
      ⟨[0x80, 3, 0x5D, 0x28, 0], 5, 4, true⟩ [0x65] rfl (by decide) (by decide)).2.2.1,
   (C15_overflow_persists FloatLib.throwing 5).2.2.2.2.2.1
      ⟨[0x80, 3, 0x5D, 0x28, 0], 5, 4, true⟩ [0x4B, 2] rfl (by decide)⟩

end PyToPickle
